import Mathlib

/-!
# Rx_CustomContentPackager: package metadata decoder and dependency resolver

A shallow embedding of `Main.c`.  The global variables of the program are the
fields of `State`; every C function becomes a function on `State` (and on the
byte stream it reads).  Conventions:

* a `uint32_t` is a natural number below `2 ^ 32`; arithmetic the C code does on
  `uint32_t` is reduced `% 2 ^ 32` explicitly; `long` has 32 bits (the program is
  written against the Win32 API);
* a byte is a natural number below `256`; a file is the list of its bytes
  together with the stream position; a short read leaves the bytes that were
  not delivered as they were in the destination;
* `malloc` succeeds, and memory that was never written (fresh heap memory, an
  uninitialised local) reads as zero bytes;
* a C string is the list of its bytes before the terminating NUL;
* a pointer into an array is the index of the element; a pointer to a heap
  node is the position of the node in the list of allocated nodes; `NULL` is
  `none`;
* an array is a list next to the global that holds its size; an access outside
  the list, which C leaves undefined, reads a default value, except in
  `init_package_table`, whose loop is only stopped by such an access and then
  has no result.

The definitions come first: the program, then the vocabulary of the format
description and of the invariants, then the sample inputs.  The theorems
follow.
-/

namespace RxPackager

/-! ## Data model -/

/-- The enumeration `UDKPackage_Extension`. -/
inductive UDKPackage_Extension where
  | ext_UNKNOWN
  | ext_UDK
  | ext_UPK
  | ext_U
deriving DecidableEq

/-- A package identifier `uint32_t GUID[4]`: four 32-bit words. -/
structure Guid where
  w0 : Nat
  w1 : Nat
  w2 : Nat
  w3 : Nat
deriving DecidableEq

/-- The all-zero identifier (`memset(GUID, 0, sizeof(GUID))`, zero-initialised globals). -/
def Guid.zero : Guid := ⟨0, 0, 0, 0⟩

/-- Every word of the identifier is a `uint32_t`. -/
def Guid.valid (g : Guid) : Prop :=
  g.w0 < 2 ^ 32 ∧ g.w1 < 2 ^ 32 ∧ g.w2 < 2 ^ 32 ∧ g.w3 < 2 ^ 32

instance (g : Guid) : Decidable g.valid := by
  unfold Guid.valid
  infer_instance

/-- The record `struct UDKImport`. -/
structure UDKImport where
  package_name_index : Nat
  class_name_index : Nat
  package_reference : Int
  object_name_index : Nat
deriving DecidableEq

/-- The record `struct UDKPackage`; `filename` is `none` for a `NULL` pointer. -/
structure UDKPackage where
  name_index : Nat
  GUID : Guid
  filename : Option (List Nat)
  extension : UDKPackage_Extension
deriving DecidableEq

/-- The value read from a package-table slot that was never written. -/
instance : Inhabited UDKPackage := ⟨⟨0, Guid.zero, none, .ext_UNKNOWN⟩⟩

/-- The node `struct UDKPackage_Dependency`: `package` is the index `i` of the
pointer `&package_table[i]`, `next` the address of the following node. -/
structure UDKPackage_Dependency where
  package : Nat
  next : Option Nat
deriving DecidableEq

/-- The node `struct UDKPackage_Game`. -/
structure UDKPackage_Game where
  name : List Nat
  GUID : Guid
  next : Option Nat
deriving DecidableEq

/-- The global variables of `Main.c`, with their static initial values.
`dependency_nodes` and `game_nodes` are the heap cells handed out by `malloc`
for the two linked lists; a node's address is its position in the list. -/
structure State where
  package_filename : Option (List Nat) := none
  package_name : Nat := 0
  package_GUID : Guid := Guid.zero
  package_extension : UDKPackage_Extension := .ext_UNKNOWN
  name_table_size : Nat := 0
  name_table : List (List Nat) := []
  import_table_size : Nat := 0
  import_table : List UDKImport := []
  packages_imported : Nat := 0
  against_list_size : Nat := 0
  against_list : List Guid := []
  package_table : List UDKPackage := []
  dependency_list_size : Nat := 0
  dependency_nodes : List UDKPackage_Dependency := []
  dependency_list_head : Option Nat := none
  dependency_list_last : Option Nat := none
  game_package_table_size : Nat := 0
  game_nodes : List UDKPackage_Game := []
  game_package_table_head : Option Nat := none
  game_package_table_last : Option Nat := none
deriving DecidableEq

/-! ## Streams -/

/-- A stream opened by `fopen`: the bytes of the file and the position indicator. -/
structure FILE where
  data : List Nat
  pos : Nat
deriving DecidableEq

/-- The four bytes of a `uint32_t` in memory and on disk (little-endian). -/
def le_bytes (v : Nat) : List Nat :=
  [v % 256, v / 256 % 256, v / 65536 % 256, v / 16777216 % 256]

/-- The little-endian value of a run of bytes. -/
def le_value : List Nat → Nat
  | [] => 0
  | b :: bs => b + 256 * le_value bs

/-- The call `fread(ptr, size, count, f)` for `n = size * count` bytes: the bytes
delivered (fewer than `n` when the stream ends first) and the stream afterwards. -/
def fread (f : FILE) (n : Nat) : List Nat × FILE :=
  let bytes := (f.data.drop f.pos).take n
  (bytes, { f with pos := f.pos + bytes.length })

/-- The content of a buffer holding `old` after `fread` stored `bytes` at its
start: bytes that were not delivered keep their previous value. -/
def store (bytes old : List Nat) : List Nat :=
  bytes ++ old.drop bytes.length

/-- The call `fread(&v, sizeof(uint32_t), 1, f)` on a variable holding `v`. -/
def fread_uint32 (v : Nat) (f : FILE) : Nat × FILE :=
  let r := fread f 4
  (le_value (store r.1 (le_bytes v)), r.2)

/-- The sixteen bytes of an identifier in memory and on disk. -/
def Guid.bytes (g : Guid) : List Nat :=
  le_bytes g.w0 ++ le_bytes g.w1 ++ le_bytes g.w2 ++ le_bytes g.w3

/-- The identifier held by sixteen bytes of memory. -/
def Guid.ofBytes (b : List Nat) : Guid :=
  ⟨le_value (b.take 4), le_value ((b.drop 4).take 4),
   le_value ((b.drop 8).take 4), le_value ((b.drop 12).take 4)⟩

/-- The call `fread(GUID, sizeof(uint32_t), 4, f)` on a buffer holding `GUID`. -/
def fread_GUID (GUID : Guid) (f : FILE) : Guid × FILE :=
  let r := fread f 16
  (Guid.ofBytes (store r.1 GUID.bytes), r.2)

/-! ## Seeking

The program is written against the Win32 API, where `long`, the type of the
offset parameter of `fseek`, has 32 bits: a `uint32_t` argument of `2 ^ 31` or more
arrives as a negative offset.  Stream positions themselves are natural
numbers; a seek whose target would be negative fails and leaves the position
where it was.  Seeking past the end of the file is allowed. -/

/-- The conversion of a 32-bit pattern to a signed 32-bit value (`long`, `int32_t`). -/
def to_int32 (u : Nat) : Int :=
  if u < 2 ^ 31 then (u : Int) else (u : Int) - 2 ^ 32

/-- The call `fseek(f, offset, SEEK_SET)`. -/
def fseek_SET (f : FILE) (offset : Int) : FILE :=
  if 0 ≤ offset then { f with pos := offset.toNat } else f

/-- The call `fseek(f, offset, SEEK_CUR)`. -/
def fseek_CUR (f : FILE) (offset : Int) : FILE :=
  if 0 ≤ (f.pos : Int) + offset then { f with pos := ((f.pos : Int) + offset).toNat } else f

/-- The call `fread(&v, sizeof(int32_t), 1, f)` on a variable holding the bit pattern `v`. -/
def fread_int32 (v : Nat) (f : FILE) : Int × FILE :=
  let r := fread_uint32 v f
  (to_int32 r.1, r.2)

/-! ## Identifier reader -/

/-- The function `read_guid`: the length at `0x0C` is read into `GUID[0]`, the
stream skips `*GUID + 0x30` bytes (a `uint32_t` sum), and four words are read
into the buffer. -/
def read_guid (GUID : Guid) (in_file : FILE) : Guid × FILE :=
  let f := fseek_SET in_file 0x0C
  let r := fread_uint32 GUID.w0 f
  let GUID := { GUID with w0 := r.1 }
  let f := fseek_CUR r.2 (to_int32 ((GUID.w0 + 0x30) % 2 ^ 32))
  fread_GUID GUID f

/-! ## Name table -/

/-- The loop of `read_name_table`: `n` iterations remain, the counter is
`index`, `tmp` is the local variable of that name.  Each iteration reads the
length into `tmp`, allocates `tmp` bytes (fresh memory is modelled as zero
bytes), reads the name into them and skips the eight bytes of object flags. -/
def read_name_table_loop : Nat → Nat → Nat → List (List Nat) → FILE → List (List Nat) × FILE
  | 0, _, _, name_table, file => (name_table, file)
  | n + 1, index, tmp, name_table, file =>
    let r := fread_uint32 tmp file
    let tmp := r.1
    let b := fread r.2 tmp
    let name := store b.1 (List.replicate tmp 0)
    let file := fseek_CUR b.2 0x08
    read_name_table_loop n (index + 1) tmp (name_table ++ [name]) file

/-- The function `read_name_table`.  The local `tmp` starts out uninitialised
(modelled as zero). -/
def read_name_table (s : State) (file : FILE) : State × FILE :=
  let f := fseek_SET file 0x0C
  let r := fread_uint32 0 f
  let tmp := r.1
  let f := fseek_CUR r.2 (to_int32 ((tmp + 0x04) % 2 ^ 32))
  let r := fread_uint32 s.name_table_size f
  let name_table_size := r.1
  let r := fread_uint32 tmp r.2
  let tmp := r.1
  let f := fseek_SET r.2 (to_int32 tmp)
  let l := read_name_table_loop name_table_size 0 tmp [] f
  ({ s with name_table_size := name_table_size, name_table := l.1 }, l.2)

/-! ## Import table -/

/-- The body of the loop of `read_import_table`: the record `import_table[tmp]`
is read field by field into freshly allocated memory (modelled as zero), four
bytes being skipped after each name index. -/
def read_import_record (file : FILE) : UDKImport × FILE :=
  let r1 := fread_uint32 0 file
  let f := fseek_CUR r1.2 0x04
  let r2 := fread_uint32 0 f
  let f := fseek_CUR r2.2 0x04
  let r3 := fread_int32 0 f
  let r4 := fread_uint32 0 r3.2
  let f := fseek_CUR r4.2 0x04
  (⟨r1.1, r2.1, r3.1, r4.1⟩, f)

/-- The loop of `read_import_table`: `n` iterations remain, the counter is
`tmp`; each iteration reads one record and increments `packages_imported` when
the reference of the record is zero. -/
def read_import_table_loop :
    Nat → Nat → List UDKImport → Nat → FILE → List UDKImport × Nat × FILE
  | 0, _, import_table, packages_imported, file => (import_table, packages_imported, file)
  | n + 1, tmp, import_table, packages_imported, file =>
    let r := read_import_record file
    read_import_table_loop n (tmp + 1) (import_table ++ [r.1])
      (if r.1.package_reference = 0 then packages_imported + 1 else packages_imported) r.2

/-- The function `read_import_table`.  The counter `packages_imported` is a
`size_t` that the function only ever increments. -/
def read_import_table (s : State) (file : FILE) : State × FILE :=
  let f := fseek_SET file 0x0C
  let r := fread_uint32 0 f
  let tmp := r.1
  let f := fseek_CUR r.2 (to_int32 ((tmp + 0x14) % 2 ^ 32))
  let r := fread_uint32 s.import_table_size f
  let import_table_size := r.1
  let r := fread_uint32 tmp r.2
  let tmp := r.1
  let f := fseek_SET r.2 (to_int32 tmp)
  let l := read_import_table_loop import_table_size 0 [] s.packages_imported f
  ({ s with import_table_size := import_table_size, import_table := l.1,
            packages_imported := l.2.1 }, l.2.2)

/-! ## Against list: membership -/

/-- The test `memcmp(a, b, sizeof(uint32_t) * 4) == 0` on two identifiers:
the sixteen bytes agree exactly when the four words agree. -/
def memcmp_GUID_eq (a b : Guid) : Bool :=
  a.w0 == b.w0 && a.w1 == b.w1 && a.w2 == b.w2 && a.w3 == b.w3

/-- The loop of `is_in_against_list`: `n` iterations remain, the counter is `tmp`. -/
def is_in_against_list_loop (against_list : List Guid) (GUID : Guid) : Nat → Nat → Bool
  | 0, _ => false
  | n + 1, tmp =>
    if memcmp_GUID_eq GUID (against_list.getD tmp Guid.zero) then true
    else is_in_against_list_loop against_list GUID n (tmp + 1)

/-- The function `is_in_against_list`. -/
def is_in_against_list (s : State) (GUID : Guid) : Bool :=
  is_in_against_list_loop s.against_list GUID s.against_list_size 0

/-! ## Against list: persistence -/

/-- The loop of `read_against_list`: `n` iterations remain, the counter is
`tmp`; each iteration allocates `against_list[tmp]` (fresh memory is modelled as
zero bytes) and reads four words into it. The entries are filled in index
order, so the array is the list of the entries read so far. -/
def read_against_list_loop : Nat → Nat → List Guid → FILE → List Guid × FILE
  | 0, _, against_list, against_file => (against_list, against_file)
  | n + 1, tmp, against_list, against_file =>
    let r := fread_GUID Guid.zero against_file
    read_against_list_loop n (tmp + 1) (against_list ++ [r.1]) r.2

/-- The function `read_against_list`. -/
def read_against_list (s : State) (against_file : FILE) : State × FILE :=
  let r := fread_uint32 s.against_list_size against_file
  let l := read_against_list_loop r.1 0 [] r.2
  ({ s with against_list_size := r.1, against_list := l.1 }, l.2)

/-- The loop of `write_against_list`: `n` iterations remain, the counter is
`tmp`, `against_file` is what has been written so far. -/
def write_against_list_loop (against_list : List Guid) : Nat → Nat → List Nat → List Nat
  | 0, _, against_file => against_file
  | n + 1, tmp, against_file =>
    write_against_list_loop against_list n (tmp + 1)
      (against_file ++ (against_list.getD tmp Guid.zero).bytes)

/-- The function `write_against_list`, appending to the bytes already in the
output stream. -/
def write_against_list (s : State) (against_file : List Nat) : List Nat :=
  write_against_list_loop s.against_list s.against_list_size 0
    (against_file ++ le_bytes s.against_list_size)

/-! ## Package table -/

/-- The slot written by `init_package_table` for the root record `r`. -/
def init_slot (r : UDKImport) : UDKPackage :=
  { name_index := r.object_name_index, GUID := Guid.zero, filename := none,
    extension := .ext_UNKNOWN }

/-- The loop `while (itr != end)` of `init_package_table`.  The first argument
is the part of the array at and after `import_table[index]`; `n` is the number
`end - itr` of slots still to be written; `package_table` holds the slots written
so far.  Reading `import_table[index]` past the end of the array has no defined
result (`none`).  Returns the table and the final value of `index`. -/
def init_package_table_loop :
    List UDKImport → Nat → Nat → List UDKPackage → Option (List UDKPackage × Nat)
  | _, 0, index, package_table => some (package_table, index)
  | [], _ + 1, _, _ => none
  | r :: rest, n + 1, index, package_table =>
    if r.package_reference = 0 then
      init_package_table_loop rest n (index + 1) (package_table ++ [init_slot r])
    else
      init_package_table_loop rest (n + 1) (index + 1) package_table

/-- The function `init_package_table`: `packages_imported` slots are allocated
and filled by the loop. -/
def init_package_table (s : State) : Option State :=
  (init_package_table_loop s.import_table s.packages_imported 0 []).map
    (fun r => { s with package_table := r.1 })

/-! ## String utilities -/

/-- The bytes of an ASCII string literal. -/
def str (s : String) : List Nat :=
  s.toList.map Char.toNat

/-- The C string held by a buffer: its bytes before the first NUL. -/
def c_str (b : List Nat) : List Nat :=
  b.takeWhile (fun c => c != 0)

/-- The function `toupper` of the C library on a byte, in the "C" locale. -/
def toupper (c : Nat) : Nat :=
  if 97 ≤ c ∧ c ≤ 122 then c - 32 else c

/-- The loop `while (suffix_end != suffix)` of `str_find_suffix`: both strings are
walked backwards from their ends, so the arguments are the reversed strings. -/
def str_find_suffix_loop : List Nat → List Nat → Bool
  | _, [] => true
  | [], _ :: _ => false
  | c :: str, d :: suffix => if c != d then false else str_find_suffix_loop str suffix

/-- The function `str_find_suffix`: `none` is `NULL`, `some k` the pointer `str + k`
to the start of the suffix inside `str`. -/
def str_find_suffix (str suffix : List Nat) : Option Nat :=
  if str.length < suffix.length then none
  else if str_find_suffix_loop str.reverse suffix.reverse then
    some (str.length - suffix.length)
  else none

/-- The loop of `streql_2ptr` over the characters of `[filename, filename_end)`;
`package_name` is a NUL-terminated buffer, whose end reads as NUL. -/
def streql_2ptr_loop : List Nat → List Nat → Bool
  | [], package_name => package_name.headD 0 == 0
  | c :: filename, package_name =>
    if toupper c != toupper (package_name.headD 0) then false
    else streql_2ptr_loop filename package_name.tail

/-- The function `streql_2ptr`; `filename_end` is the offset of the end pointer
inside `filename`. -/
def streql_2ptr (filename : List Nat) (filename_end : Nat) (package_name : List Nat) : Bool :=
  streql_2ptr_loop (filename.take filename_end) package_name

/-! ## Filesystem package resolver -/

/-- What the directory enumeration (`FindFirstFile`, `FindNextFile`) reports for
one entry: a file with its name and, when `fopen` succeeds on it, its bytes; or
a directory with its name and the entries its own enumeration reports (the
empty list when that enumeration cannot be started). -/
inductive DirEntry where
  | file (cFileName : List Nat) (contents : Option (List Nat))
  | dir (cFileName : List Nat) (entries : List DirEntry)

/-- The suffix test of `build_package_table`: `.upk`, then `.udk`, then `.u`; the
result is the pointer `tmp` and the value of `extension`. -/
def find_extension (cFileName : List Nat) : Option Nat × UDKPackage_Extension :=
  match str_find_suffix cFileName (str ".upk") with
  | some tmp => (some tmp, .ext_UPK)
  | none =>
    match str_find_suffix cFileName (str ".udk") with
    | some tmp => (some tmp, .ext_UDK)
    | none =>
      match str_find_suffix cFileName (str ".u") with
      | some tmp => (some tmp, .ext_U)
      | none => (none, .ext_UNKNOWN)

/-- The C string `name_table[package_table[tmp_index].name_index]`.  An index
outside either array, which C leaves undefined, reads as the empty string. -/
def package_name_of (s : State) (tmp_index : Nat) : List Nat :=
  s.name_table.getD (s.package_table.getD tmp_index default).name_index []

/-- The path `directory` without its final wildcard character, followed by the
file name: the string built with `directory_length = strlen(directory) - 1`. -/
def file_path (directory cFileName : List Nat) : List Nat :=
  directory.take (directory.length - 1) ++ cFileName

/-- The statements executed for the entry `tmp_index` that matched, up to the
`break`: extension and path are stored, and the identifier is read when the
file can be opened. -/
def resolve_package (s : State) (directory cFileName : List Nat) (contents : Option (List Nat))
    (extension : UDKPackage_Extension) (tmp_index : Nat) : State :=
  let p := s.package_table.getD tmp_index default
  let GUID :=
    match contents with
    | some data => (read_guid p.GUID ⟨data, 0⟩).1
    | none => p.GUID
  { s with
    package_table := s.package_table.set tmp_index
      { p with extension := extension, filename := some (file_path directory cFileName),
               GUID := GUID } }

/-- The loop `for (tmp_index = 0; tmp_index != packages_imported; ++tmp_index)`
of `build_package_table`: `n` iterations remain; the first entry whose name
matches is resolved and the loop is left. -/
def build_package_table_loop (s : State) (directory cFileName : List Nat)
    (contents : Option (List Nat)) (tmp : Nat) (extension : UDKPackage_Extension) :
    Nat → Nat → State
  | 0, _ => s
  | n + 1, tmp_index =>
    if streql_2ptr cFileName tmp (package_name_of s tmp_index) then
      resolve_package s directory cFileName contents extension tmp_index
    else
      build_package_table_loop s directory cFileName contents tmp extension n (tmp_index + 1)

/-- The branch of `build_package_table` for an entry that is not a directory. -/
def build_package_table_file (s : State) (directory cFileName : List Nat)
    (contents : Option (List Nat)) : State :=
  match find_extension cFileName with
  | (some tmp, extension) =>
    build_package_table_loop s directory cFileName contents tmp extension s.packages_imported 0
  | (none, _) => s

mutual
/-- The function `build_package_table` on the entries that the enumeration of
the pattern `directory` reports, in the order it reports them.  The Boolean
result of the C function (false when the enumeration cannot be started) is
discarded by every caller and is not modelled. -/
def build_package_table (s : State) (directory : List Nat) : List DirEntry → State
  | [] => s
  | e :: rest => build_package_table (build_package_table_entry s directory e) directory rest
/-- One iteration of the `do ... while (FindNextFile(...))` loop: a directory
whose name does not start with `.` is entered with the pattern
`<directory without wildcard><name>\*`, a file goes through the suffix test. -/
def build_package_table_entry (s : State) (directory : List Nat) : DirEntry → State
  | .file cFileName contents => build_package_table_file s directory cFileName contents
  | .dir cFileName entries =>
    if cFileName.headD 0 != 46 then
      build_package_table s (file_path directory cFileName ++ str "\\*") entries
    else s
end

/-! ## Dependency list -/

/-- The assignment `nodes[a].next = nx` on the heap of dependency nodes. -/
def set_dependency_next (nodes : List UDKPackage_Dependency) (a : Nat) (nx : Option Nat) :
    List UDKPackage_Dependency :=
  match nodes[a]? with
  | some n => nodes.set a { n with next := nx }
  | none => nodes

/-- The body of the loop of `build_dependency_list` for one `index`. -/
def build_dependency_list_step (s : State) (index : Nat) : State :=
  if is_in_against_list s (s.package_table.getD index default).GUID == false then
    let dependency := s.dependency_nodes.length
    let nodes := s.dependency_nodes ++ [{ package := index, next := none }]
    match s.dependency_list_last with
    | some last =>
      { s with
        dependency_nodes := set_dependency_next nodes last (some dependency)
        dependency_list_last := some dependency
        dependency_list_size := (s.dependency_list_size + 1) % 2 ^ 32 }
    | none =>
      { s with
        dependency_nodes := nodes
        dependency_list_head := some dependency
        dependency_list_last := some dependency
        dependency_list_size := (s.dependency_list_size + 1) % 2 ^ 32 }
  else s

/-- The loop of `build_dependency_list`: `n` iterations remain, the counter is `index`. -/
def build_dependency_list_loop : Nat → Nat → State → State
  | 0, _, s => s
  | n + 1, index, s => build_dependency_list_loop n (index + 1) (build_dependency_list_step s index)

/-- The function `build_dependency_list`. -/
def build_dependency_list (s : State) : State :=
  build_dependency_list_loop s.packages_imported 0 s

/-- The traversal `for (itr = head; itr != NULL; itr = itr->next)` used by
`write_dependency_list`, `print_dependency_list` and `generate_package`: the
package-table indices of the nodes visited, in order, within `fuel` steps. -/
def dependency_list_walk (nodes : List UDKPackage_Dependency) : Nat → Option Nat → List Nat
  | 0, _ => []
  | _ + 1, none => []
  | fuel + 1, some a =>
    match nodes[a]? with
    | some n => n.package :: dependency_list_walk nodes fuel n.next
    | none => []

/-- The dependency list of a state: the traversal from `dependency_list_head`,
with one step of fuel for every allocated node. -/
def dependency_list_entries (s : State) : List Nat :=
  dependency_list_walk s.dependency_nodes s.dependency_nodes.length s.dependency_list_head

/-- The calls of `main` between the decoders and the packaging step:
`init_package_table`, `build_package_table` on the search path, and
`build_dependency_list`. -/
def resolve_dependencies (s : State) (directory : List Nat) (entries : List DirEntry) :
    Option State :=
  (init_package_table s).map
    (fun s1 => build_dependency_list (build_package_table s1 directory entries))

/-! ## Name lookup -/

/-- The sentinel `INVALID_NAME`, defined as `UINT32_MAX`. -/
def INVALID_NAME : Nat := 2 ^ 32 - 1

/-- The test `strcmp(a, b) == 0` on two character buffers, the end of a buffer
reading as NUL: the comparison stops at the first difference or at a NUL. -/
def strcmp_eq : List Nat → List Nat → Bool
  | [], b => b.headD 0 == 0
  | x :: a, b =>
    if x != b.headD 0 then false
    else if x == 0 then true
    else strcmp_eq a b.tail

/-- The loop of `find_name`: `n` iterations remain, the counter is `index`. -/
def find_name_loop (name_table : List (List Nat)) (name : List Nat) : Nat → Nat → Nat
  | 0, _ => INVALID_NAME
  | n + 1, index =>
    if strcmp_eq name (name_table.getD index []) then index
    else find_name_loop name_table name n (index + 1)

/-- The function `find_name`. -/
def find_name (s : State) (name : List Nat) : Nat :=
  find_name_loop s.name_table name s.name_table_size 0

/-- The loop of `find_name_2ptr`: `n` iterations remain, the counter is `index`. -/
def find_name_2ptr_loop (name_table : List (List Nat)) (name_start : List Nat) (name_end : Nat) :
    Nat → Nat → Nat
  | 0, _ => INVALID_NAME
  | n + 1, index =>
    if streql_2ptr name_start name_end (name_table.getD index []) then index
    else find_name_2ptr_loop name_table name_start name_end n (index + 1)

/-- The function `find_name_2ptr`; `name_end` is the offset of the end pointer
inside the string `name_start`. -/
def find_name_2ptr (s : State) (name_start : List Nat) (name_end : Nat) : Nat :=
  find_name_2ptr_loop s.name_table name_start name_end s.name_table_size 0

/-! ## Dependency list: output -/

/-- The loop `for (itr = dependency_list_head; itr != NULL; itr = itr->next)`
of `write_dependency_list`, writing `itr->package->GUID` for each node visited,
within `fuel` steps. -/
def write_dependency_list_loop (s : State) : Nat → Option Nat → List Nat → List Nat
  | 0, _, out => out
  | _ + 1, none, out => out
  | fuel + 1, some a, out =>
    match s.dependency_nodes[a]? with
    | some n =>
      write_dependency_list_loop s fuel n.next
        (out ++ (s.package_table.getD n.package default).GUID.bytes)
    | none => out

/-- The function `write_dependency_list`, appending to the bytes already in
the output stream, with one step of fuel for every allocated node. -/
def write_dependency_list (s : State) (out : List Nat) : List Nat :=
  write_dependency_list_loop s s.dependency_nodes.length s.dependency_list_head
    (out ++ le_bytes s.dependency_list_size)

/-! ## Name-table reads of the dumps and of the resolver -/

/-- The indices at which `print_import_table` reads `name_table`, in order: for
every record `import_table[index]` with `index` below `import_table_size`, its
`package_name_index`, `class_name_index` and `object_name_index`. -/
def print_import_table_reads (s : State) : List Nat :=
  (List.range s.import_table_size).flatMap (fun index =>
    let itr := s.import_table.getD index ⟨0, 0, 0, 0⟩
    [itr.package_name_index, itr.class_name_index, itr.object_name_index])

/-- The indices at which `print_package_table` reads `name_table`, in order:
`package_table[index].name_index` for every `index` below `packages_imported`. -/
def print_package_table_reads (s : State) : List Nat :=
  (List.range s.packages_imported).map (fun index =>
    (s.package_table.getD index default).name_index)

/-- The indices at which the comparison loop of `build_package_table` reads
`name_table` for one file: `package_table[tmp_index].name_index` for every entry
tried, up to and including the first that matches. -/
def build_package_table_loop_reads (s : State) (cFileName : List Nat) (tmp : Nat) :
    Nat → Nat → List Nat
  | 0, _ => []
  | n + 1, tmp_index =>
    (s.package_table.getD tmp_index default).name_index ::
      (if streql_2ptr cFileName tmp (package_name_of s tmp_index) then []
       else build_package_table_loop_reads s cFileName tmp n (tmp_index + 1))

/-- The name-table reads of `build_package_table` for an entry that is not a
directory: none when the suffix test fails. -/
def build_package_table_file_reads (s : State) (cFileName : List Nat) : List Nat :=
  match find_extension cFileName with
  | (some tmp, _) => build_package_table_loop_reads s cFileName tmp s.packages_imported 0
  | (none, _) => []

mutual
/-- The name-table reads of `build_package_table` over the entries reported
by the enumeration, in the order they happen. -/
def build_package_table_reads (s : State) (directory : List Nat) : List DirEntry → List Nat
  | [] => []
  | e :: rest =>
    build_package_table_entry_reads s directory e ++
      build_package_table_reads (build_package_table_entry s directory e) directory rest
/-- The name-table reads of one iteration of the enumeration loop. -/
def build_package_table_entry_reads (s : State) (directory : List Nat) : DirEntry → List Nat
  | .file cFileName _ => build_package_table_file_reads s cFileName
  | .dir cFileName entries =>
    if cFileName.headD 0 != 46 then
      build_package_table_reads s (file_path directory cFileName ++ str "\\*") entries
    else []
end

/-! ## Game package table -/

/-- The assignment `nodes[a].next = nx` on the heap of game-package nodes. -/
def set_game_next (nodes : List UDKPackage_Game) (a : Nat) (nx : Option Nat) :
    List UDKPackage_Game :=
  match nodes[a]? with
  | some n => nodes.set a { n with next := nx }
  | none => nodes

/-- The function `add_UDKPackage_Game`: a node is allocated, its `name` is the
copy of `[name, name_end)` with a terminating NUL, its `GUID` is left as `malloc`
returned it, and it is linked after `game_package_table_last`.  What `malloc`
returns is not initialised: `fresh ret` stands for the sixteen bytes found at
the place of `GUID` in the node allocated at address `ret`, and is a parameter.
`game_package_table_size` is a `size_t` and cannot wrap before memory is
exhausted.  Returns the state and the address `ret`. -/
def add_UDKPackage_Game (fresh : Nat → Guid) (s : State) (name : List Nat) (name_end : Nat) :
    State × Nat :=
  let ret := s.game_nodes.length
  let nodes := s.game_nodes ++
    [{ name := name.take name_end ++ [0], GUID := fresh ret, next := none }]
  match s.game_package_table_last with
  | some last =>
    ({ s with
       game_nodes := set_game_next nodes last (some ret)
       game_package_table_last := some ret
       game_package_table_size := s.game_package_table_size + 1 }, ret)
  | none =>
    ({ s with
       game_nodes := nodes
       game_package_table_head := some ret
       game_package_table_last := some ret
       game_package_table_size := s.game_package_table_size + 1 }, ret)

/-- The suffix test of `build_game_package_table`: `.upk`, then `.udk`, then
`.u`; the result is the pointer `tmp`. -/
def find_suffix (cFileName : List Nat) : Option Nat :=
  match str_find_suffix cFileName (str ".upk") with
  | some tmp => some tmp
  | none =>
    match str_find_suffix cFileName (str ".udk") with
    | some tmp => some tmp
    | none => str_find_suffix cFileName (str ".u")

/-- The call `read_guid(package->GUID, tmp_file)` on the node at address
`package`. -/
def read_guid_game (nodes : List UDKPackage_Game) (package : Nat) (tmp_file : FILE) :
    List UDKPackage_Game :=
  match nodes[package]? with
  | some n => nodes.set package { n with GUID := (read_guid n.GUID tmp_file).1 }
  | none => nodes

/-- The branch of `build_game_package_table` for an entry that is not a
directory: every file with a recognised suffix gets a node, and `read_guid`
runs on the `GUID` of the node when the file can be opened. -/
def build_game_package_table_file (fresh : Nat → Guid) (s : State) (cFileName : List Nat)
    (contents : Option (List Nat)) : State :=
  match find_suffix cFileName with
  | some tmp =>
    let r := add_UDKPackage_Game fresh s cFileName tmp
    match contents with
    | some data => { r.1 with game_nodes := read_guid_game r.1.game_nodes r.2 ⟨data, 0⟩ }
    | none => r.1
  | none => s

mutual
/-- The function `build_game_package_table` on the entries that the enumeration
of the pattern `directory` reports, in the order it reports them.  The Boolean
result of the C function is discarded by every caller and is not modelled. -/
def build_game_package_table (fresh : Nat → Guid) (s : State) (directory : List Nat) :
    List DirEntry → State
  | [] => s
  | e :: rest =>
    build_game_package_table fresh (build_game_package_table_entry fresh s directory e)
      directory rest
/-- One iteration of the `do ... while (FindNextFile(...))` loop of
`build_game_package_table`. -/
def build_game_package_table_entry (fresh : Nat → Guid) (s : State) (directory : List Nat) :
    DirEntry → State
  | .file cFileName contents => build_game_package_table_file fresh s cFileName contents
  | .dir cFileName entries =>
    if cFileName.headD 0 != 46 then
      build_game_package_table fresh s (file_path directory cFileName ++ str "\\*") entries
    else s
end

/-- The loop `while (package != NULL)` of `build_against_list`: the array has
`against_list_size` slots, `against_list` holds the slots written so far, and
`fuel` bounds the number of nodes visited.  Writing `*itr` past the last slot
has no defined result (`none`), as has a walk that does not end within `fuel`
nodes or meets an address that was never allocated. -/
def build_against_list_loop (nodes : List UDKPackage_Game) (against_list_size : Nat) :
    Nat → Option Nat → List Guid → Option (List Guid)
  | _, none, against_list => some against_list
  | 0, some _, _ => none
  | fuel + 1, some package, against_list =>
    if against_list.length < against_list_size then
      match nodes[package]? with
      | some n =>
        build_against_list_loop nodes against_list_size fuel n.next (against_list ++ [n.GUID])
      | none => none
    else none

/-- The function `build_against_list`: `against_list_size`, a `uint32_t`,
receives the `size_t` count of the game package table, and the identifiers of the
nodes are copied in list order, with one step of fuel for every allocated
node. -/
def build_against_list (s : State) : Option State :=
  (build_against_list_loop s.game_nodes (s.game_package_table_size % 2 ^ 32)
      s.game_nodes.length s.game_package_table_head []).map
    (fun against_list =>
      { s with against_list_size := s.game_package_table_size % 2 ^ 32
               against_list := against_list })

/-! ## File name helpers -/

/-- The function `tolower` of the C library on a byte, in the "C" locale. -/
def tolower (c : Nat) : Nat :=
  if 65 ≤ c ∧ c ≤ 90 then c + 32 else c

/-- The function `strcmpi` of the C library on two character buffers, the end
of a buffer reading as NUL: the sign of the first difference between the
lower-cased strings, 0 when there is none. -/
def strcmpi : List Nat → List Nat → Int
  | [], b => if tolower (b.headD 0) == 0 then 0 else -1
  | x :: a, b =>
    if tolower x < tolower (b.headD 0) then -1
    else if tolower (b.headD 0) < tolower x then 1
    else if tolower x == 0 then 0
    else strcmpi a b.tail

/-- The loop of `get_extension_from_filename`: `filename_length` characters remain
before the pointer.  At the last `.` the text after it goes through the three
tests `if (strcmpi(filename, ...))`, each of which returns when the result is
not zero. -/
def get_extension_from_filename_loop (filename : List Nat) : Nat → UDKPackage_Extension
  | 0 => .ext_UNKNOWN
  | filename_length + 1 =>
    if filename.getD filename_length 0 == 46 then
      if strcmpi (filename.drop (filename_length + 1)) (str "udk") != 0 then .ext_UDK
      else if strcmpi (filename.drop (filename_length + 1)) (str "upk") != 0 then .ext_UPK
      else if strcmpi (filename.drop (filename_length + 1)) (str "u") != 0 then .ext_U
      else .ext_UNKNOWN
    else get_extension_from_filename_loop filename filename_length

/-- The function `get_extension_from_filename`. -/
def get_extension_from_filename (filename : List Nat) (filename_length : Nat) :
    UDKPackage_Extension :=
  get_extension_from_filename_loop filename filename_length

/-- The loop of `name_from_filename`: `filename_length` characters remain before
the pointer and `end_name` is the offset of the last `.` seen so far.  Returns
the offset `start_name` (0 when no path separator is met) and `end_name`. -/
def name_from_filename_loop (filename : List Nat) : Nat → Option Nat → Nat × Option Nat
  | 0, end_name => (0, end_name)
  | filename_length + 1, end_name =>
    let c := filename.getD filename_length 0
    let end_name := if c == 46 && end_name.isNone then some filename_length else end_name
    if c == 92 || c == 47 then (filename_length + 1, end_name)
    else name_from_filename_loop filename filename_length end_name

/-- The function `name_from_filename`. -/
def name_from_filename (s : State) (filename : List Nat) (filename_length : Nat) : Nat :=
  let r := name_from_filename_loop filename filename_length none
  match r.2 with
  | none => find_name s (filename.drop r.1)
  | some end_name => find_name_2ptr s (filename.drop r.1) (end_name - r.1)

/-! ## Package table: reads of the import table -/

/-- The indices at which the loop of `init_package_table` reads
`import_table`, in order; the arguments are those of
`init_package_table_loop`.  A read at or after the end of the array is listed
like any other. -/
def init_package_table_reads : List UDKImport → Nat → Nat → List Nat
  | _, 0, _ => []
  | [], _ + 1, index => [index]
  | r :: rest, n + 1, index =>
    index ::
      (if r.package_reference = 0 then init_package_table_reads rest n (index + 1)
       else init_package_table_reads rest (n + 1) (index + 1))

/-! ## Extension names -/

/-- The function `extension_as_string`. -/
def extension_as_string : UDKPackage_Extension → List Nat
  | .ext_UDK => str "udk"
  | .ext_UPK => str "upk"
  | .ext_U => str "u"
  | .ext_UNKNOWN => str ""

/-! ## Formatted output -/

/-- The upper-case hexadecimal digit of a value below 16. -/
def hex_digit (d : Nat) : Nat :=
  if d < 10 then 48 + d else 55 + d

/-- The text `printf` writes for `%.8X` and a `uint32_t`: eight upper-case
hexadecimal digits. -/
def hex8 (v : Nat) : List Nat :=
  [v / 268435456 % 16, v / 16777216 % 16, v / 1048576 % 16, v / 65536 % 16,
   v / 4096 % 16, v / 256 % 16, v / 16 % 16, v % 16].map hex_digit

/-- The text `printf` writes for `%.8X%.8X%.8X%.8X` and the four words of an
identifier. -/
def hex_GUID (g : Guid) : List Nat :=
  hex8 g.w0 ++ hex8 g.w1 ++ hex8 g.w2 ++ hex8 g.w3

/-- The digits of `v`, most significant first, put in front of `acc`; `fuel`
bounds their number. -/
def utoa_loop : Nat → Nat → List Nat → List Nat
  | 0, _, acc => acc
  | fuel + 1, v, acc =>
    if v < 10 then (48 + v) :: acc else utoa_loop fuel (v / 10) ((48 + v % 10) :: acc)

/-- The text `printf` writes for `%u` and a `uint32_t`: its decimal digits, at
most ten. -/
def utoa (v : Nat) : List Nat :=
  utoa_loop 10 v []

/-- The loop `while (itr != NULL)` of `print_dependency_list`: one line per
node, written after `out`, within `fuel` steps.  The line holds the
identifier, the name `name_table[itr->package->name_index]` and the path
`itr->package->filename`.  There is no defined result (`none`) when the name
index lies outside the name table, when `filename` is `NULL`, which `fputs`
does not accept, or when the walk does not end within `fuel` nodes. -/
def print_dependency_list_loop (s : State) : Nat → Option Nat → List Nat → Option (List Nat)
  | _, none, out => some out
  | 0, some _, _ => none
  | fuel + 1, some itr, out =>
    match s.dependency_nodes[itr]? with
    | none => none
    | some n =>
      match s.package_table[n.package]? with
      | none => none
      | some package =>
        match s.name_table[package.name_index]?, package.filename with
        | some name, some filename =>
          print_dependency_list_loop s fuel n.next
            (out ++ hex_GUID package.GUID ++ str " | " ++ c_str name ++ str " | " ++
              c_str filename ++ [10])
        | _, _ => none

/-- The function `print_dependency_list`, appending to the bytes already in
the output stream: the header `<dependency_list_size> dependencies:` and one
line per node, with one step of fuel for every allocated node. -/
def print_dependency_list (s : State) (out : List Nat) : Option (List Nat) :=
  print_dependency_list_loop s s.dependency_nodes.length s.dependency_list_head
    (out ++ utoa s.dependency_list_size ++ str " dependencies:\n")

/-! ## Packager -/

/-- A call of the file system made by `generate_package`; a `NULL` source of
`CopyFile` is `none`. -/
inductive FsCall where
  | CreateDirectory (path : List Nat)
  | CopyFile (existing : Option (List Nat)) (new : List Nat)
deriving DecidableEq

/-- The loop `while (itr != NULL)` of `generate_package`: for every node the
text `\<name>.<extension>` is written with `sprintf` at the end of the directory
path `tmp`, inside the buffer of 1024 bytes, and the file of the package is
copied there.  There is no defined result (`none`) when the name index lies
outside the name table, when the text with its NUL does not fit the buffer,
or when the walk does not end within `fuel` nodes. -/
def generate_package_loop (s : State) (tmp : List Nat) :
    Nat → Option Nat → Option (List FsCall)
  | _, none => some []
  | 0, some _ => none
  | fuel + 1, some itr =>
    match s.dependency_nodes[itr]? with
    | none => none
    | some n =>
      match s.package_table[n.package]? with
      | none => none
      | some package =>
        match s.name_table[package.name_index]? with
        | none => none
        | some name =>
          let text := str "\\" ++ c_str name ++ str "." ++ extension_as_string package.extension
          if tmp.length + text.length + 1 ≤ 1024 then
            (generate_package_loop s tmp fuel n.next).map
              (fun rest => FsCall.CopyFile package.filename (tmp ++ text) :: rest)
          else none

/-- The function `generate_package`: the calls of the file system it makes, in
order.  The globals are only read.  `name_table[package_name]` is read without
a test of `package_name`, so there is no defined result (`none`) when
`package_name` lies outside the name table (as `INVALID_NAME` does), and none
either when a text written with `sprintf` does not fit its buffer of 1024
bytes or when the loop over the dependency list has none. -/
def generate_package (s : State) (game_path : List Nat) : Option (List FsCall) :=
  let d1 := hex_GUID s.package_GUID
  let d2 := d1 ++ str "\\UDKGame"
  let d3 := d2 ++ str "\\Config"
  match s.name_table[s.package_name]? with
  | none => none
  | some name =>
    let ini := str "\\" ++ c_str name ++ str ".ini"
    let tmp2 := game_path ++ str "\\Config\\" ++ c_str name ++ str ".ini"
    if d3.length + ini.length + 1 ≤ 1024 ∧ tmp2.length + 1 ≤ 1024 then
      let d4 := d2 ++ str "\\CookedPC"
      let d5 := d4 ++ str "\\Custom_Content"
      let text := str "\\" ++ c_str name ++ str "." ++ extension_as_string s.package_extension
      if d5.length + text.length + 1 ≤ 1024 then
        (generate_package_loop s d5 s.dependency_nodes.length s.dependency_list_head).map
          (fun rest =>
            [FsCall.CreateDirectory d1, FsCall.CreateDirectory d2, FsCall.CreateDirectory d3,
             FsCall.CopyFile (some tmp2) (d3 ++ ini), FsCall.CreateDirectory d4,
             FsCall.CreateDirectory d5, FsCall.CopyFile s.package_filename (d5 ++ text)] ++ rest)
      else none
    else none

/-! ## Entry point -/

/-- The command line as the option loop of `main` leaves it: the value of
`-in`, of `-game-path` and of `-against`, and whether `-dependencies`,
`-game-packages`, `-build-against` and `-package` were given.  The options
`-names`, `-imports` and `-packages` only select dumps and are left out. -/
structure Args where
  package_filename : Option (List Nat) := none
  game_path : List Nat := []
  against_in : Option (List Nat) := none
  dependencies_out : Bool := false
  game_packages_out : Bool := false
  against_out : Bool := false
  build_package : Bool := false

/-- The statements of `main` for an opened base package from
`get_extension_from_filename` to `name_from_filename`: the decoders run on the
one stream `base_package`. -/
def main_decode (s : State) (filename : List Nat) (base_package : FILE) : State :=
  let s := { s with package_extension := get_extension_from_filename filename filename.length }
  let r := read_guid s.package_GUID base_package
  let s := { s with package_GUID := r.1 }
  let r := read_name_table s r.2
  let r := read_import_table r.1 r.2
  let s := r.1
  { s with package_name := name_from_filename s filename filename.length }

/-- The statements of `main` for an opened base package, up to and including
`build_dependency_list`, which runs when `-package` or `-dependencies` was
given.  The result is `none` when `init_package_table` has no defined result. -/
def main_resolve (args : Args) (s : State) (filename : List Nat) (base_package : FILE)
    (entries : List DirEntry) : Option State :=
  (init_package_table (main_decode s filename base_package)).map (fun s =>
    let s := build_package_table s (args.game_path ++ str "\\*") entries
    if args.build_package || args.dependencies_out then build_dependency_list s else s)

/-- The block of `main` for an opened base package: `main_resolve`, then
`generate_package` when `-package` was given.  `generate_package` changes no
global, but the block has a defined result only when it has one. -/
def main_package (args : Args) (s : State) (filename : List Nat) (base_package : FILE)
    (entries : List DirEntry) : Option State :=
  (main_resolve args s filename base_package entries).bind (fun s =>
    if args.build_package then (generate_package s args.game_path).map (fun _ => s)
    else some s)

/-- The statements of `main` after the block of the base package: the game
package table is built when `-game-packages` or `-build-against` was given, and
the baseline is built from it when `-build-against` was given. -/
def main_game (fresh : Nat → Guid) (args : Args) (s : State) (game_entries : List DirEntry) :
    Option State :=
  let s :=
    if args.game_packages_out || args.against_out then
      build_game_package_table fresh s (args.game_path ++ str "\\*") game_entries
    else s
  if args.against_out then build_against_list s else some s

/-- The statements of `main` from the end of the option loop to the load of
the baseline: `read_against_list` runs when `-against` names a file that can be
opened. -/
def main_against (args : Args) (fopen : List Nat → Option (List Nat)) : State :=
  let s : State := { package_filename := args.package_filename }
  match args.against_in with
  | some against_in =>
    match fopen against_in with
    | some data => (read_against_list s ⟨data, 0⟩).1
    | none => s
  | none => s

/-- The function `main` from the end of the option loop to the start of the
dumps, as a function of the environment: `fopen` gives the bytes of a file that
can be opened for reading, `entries` is what the enumeration of the search path
reports to `build_package_table`, `game_entries` what it reports to
`build_game_package_table`, and `fresh` what `malloc` leaves in the nodes of the
game package table.  When the base package cannot be opened `main` returns at
once. -/
def main (fresh : Nat → Guid) (args : Args) (fopen : List Nat → Option (List Nat))
    (entries game_entries : List DirEntry) : Option State :=
  let s := main_against args fopen
  match args.package_filename with
  | some filename =>
    match fopen filename with
    | some data =>
      (main_package args s filename ⟨data, 0⟩ entries).bind
        (fun s => main_game fresh args s game_entries)
    | none => some s
  | none => main_game fresh args s game_entries

/-! ## Layout of a package image, in the words of the format description -/

/-- The 32-bit little-endian value stored at absolute offset `off` of an image. -/
def u32_at (img : List Nat) (off : Nat) : Nat :=
  le_value ((img.drop off).take 4)

/-- The four consecutive 32-bit little-endian words stored at offset `off`. -/
def guid_at (img : List Nat) (off : Nat) : Guid :=
  ⟨u32_at img off, u32_at img (off + 4), u32_at img (off + 8), u32_at img (off + 12)⟩

/-- The end of the variable-length prefix: `0x10 + L`, with `L` the value at `0x0C`. -/
def prefix_end (img : List Nat) : Nat :=
  0x10 + u32_at img 0x0C

/-- The texts of `n` sequential name records starting at offset `off`: each
record is a 32-bit length, that many bytes of text, and eight further bytes. -/
def name_records (img : List Nat) : Nat → Nat → List (List Nat)
  | 0, _ => []
  | n + 1, off =>
    ((img.drop (off + 4)).take (u32_at img off)) ::
      name_records img n (off + 4 + u32_at img off + 8)

/-- Every length field and every text of `n` sequential name records starting
at offset `off` lies inside the image. -/
def name_records_in_bounds (img : List Nat) : Nat → Nat → Bool
  | 0, _ => true
  | n + 1, off =>
    decide (off + 4 + u32_at img off ≤ img.length) &&
      name_records_in_bounds img n (off + 4 + u32_at img off + 8)

/-- The record decoded from the 28 bytes at offset `off`: the package name index at
`+0`, the class name index at `+8`, the signed reference at `+16` and the
object name index at `+20`. -/
def import_record_at (img : List Nat) (off : Nat) : UDKImport :=
  ⟨u32_at img off, u32_at img (off + 8), to_int32 (u32_at img (off + 16)),
   u32_at img (off + 20)⟩

/-- The `n` consecutive 28-byte records starting at offset `off`. -/
def import_records (img : List Nat) : Nat → Nat → List UDKImport
  | 0, _ => []
  | n + 1, off => import_record_at img off :: import_records img n (off + 28)

/-- The root-import records of a table: those with `package_reference == 0`. -/
def root_imports (import_table : List UDKImport) : List UDKImport :=
  import_table.filter (fun r => decide (r.package_reference = 0))

/-! ## The files met by the resolver -/

/-- One file met by the walk: the pattern of the directory being enumerated,
the name of the file, and its bytes when it can be opened. -/
structure Visit where
  directory : List Nat
  cFileName : List Nat
  contents : Option (List Nat)
deriving DecidableEq

mutual
/-- The files that `build_package_table` meets, in the order it meets them:
the entries in enumeration order, a directory whose name does not start with
`.` being walked completely at the moment it is met. -/
def walk_files (directory : List Nat) : List DirEntry → List Visit
  | [] => []
  | e :: rest => walk_entry directory e ++ walk_files directory rest
/-- The files met while processing one entry. -/
def walk_entry (directory : List Nat) : DirEntry → List Visit
  | .file cFileName contents => [⟨directory, cFileName, contents⟩]
  | .dir cFileName entries =>
    if cFileName.headD 0 != 46 then
      walk_files (file_path directory cFileName ++ str "\\*") entries
    else []
end

/-- The resolver applied to a sequence of files. -/
def resolve_files (s : State) (files : List Visit) : State :=
  files.foldl (fun t v => build_package_table_file t v.directory v.cFileName v.contents) s

/-- The first entry of the package table, in table order, whose name equals
the base name `cFileName[0 .. tmp)` ignoring case: `n` entries remain to be
tried from `tmp_index` on. -/
def matching_entry (s : State) (cFileName : List Nat) (tmp : Nat) : Nat → Nat → Option Nat
  | 0, _ => none
  | n + 1, tmp_index =>
    if streql_2ptr cFileName tmp (package_name_of s tmp_index) then some tmp_index
    else matching_entry s cFileName tmp n (tmp_index + 1)

/-- The entry that a file resolves, with the extension recorded for it: none
when the name has no recognised suffix or its base name matches no entry. -/
def file_target (s : State) (cFileName : List Nat) : Option (Nat × UDKPackage_Extension) :=
  match find_extension cFileName with
  | (some tmp, extension) =>
    (matching_entry s cFileName tmp s.packages_imported 0).map (fun i => (i, extension))
  | (none, _) => none

/-! ## Invariants -/

/-- The heap cells reachable from `cur` are exactly the cells `l`, given as
pairs (address, package index), and the last of them has a `NULL` successor. -/
def DependencyChain (nodes : List UDKPackage_Dependency) : Option Nat → List (Nat × Nat) → Prop
  | cur, [] => cur = none
  | cur, (a, p) :: rest =>
    cur = some a ∧ ∃ nx, nodes[a]? = some ⟨p, nx⟩ ∧ DependencyChain nodes nx rest

/-- The linked-list invariant of the dependency globals: the chain from
`dependency_list_head` is `l`, `dependency_list_last` is its final cell, and the
cells are distinct allocated addresses. -/
structure DependencyInv (s : State) (l : List (Nat × Nat)) : Prop where
  chain : DependencyChain s.dependency_nodes s.dependency_list_head l
  last : s.dependency_list_last = (l.map Prod.fst).getLast?
  bound : ∀ x ∈ l, x.1 < s.dependency_nodes.length
  nodup : (l.map Prod.fst).Nodup
  len : l.length ≤ s.dependency_nodes.length

/-- The data the name comparison of the resolver depends on is the same in
both states: the name table, the entry count and the name index of every
entry. -/
structure SameKeys (s t : State) : Prop where
  name_table : t.name_table = s.name_table
  packages_imported : t.packages_imported = s.packages_imported
  name_index : t.package_table.map (fun p => p.name_index) =
    s.package_table.map (fun p => p.name_index)

/-- The first index `i` with `index ≤ i < index + n` that passes `test`. -/
def first_match (test : Nat → Bool) : Nat → Nat → Option Nat
  | 0, _ => none
  | n + 1, index => if test index then some index else first_match test n (index + 1)

/-- The counted-list invariant of the dependency globals: the linked-list
invariant for the chain `l`, and `dependency_list_size` is the number of cells
of the chain as a `uint32_t`. -/
structure DependencyCounted (s : State) (l : List (Nat × Nat)) : Prop where
  inv : DependencyInv s l
  size : s.dependency_list_size = l.length % 2 ^ 32

/-- The literal suffix that stands for an extension: none for `ext_UNKNOWN`. -/
def extension_suffix : UDKPackage_Extension → Option (List Nat)
  | .ext_UPK => some (str ".upk")
  | .ext_UDK => some (str ".udk")
  | .ext_U => some (str ".u")
  | .ext_UNKNOWN => none

/-- The game package table applied to a sequence of files. -/
def game_files (fresh : Nat → Guid) (s : State) (files : List Visit) : State :=
  files.foldl (fun t v => build_game_package_table_file fresh t v.cFileName v.contents) s

/-- The character at offset `i` of `filename` is a path separator, `\` or `/`. -/
def is_separator (filename : List Nat) (i : Nat) : Bool :=
  filename.getD i 0 == 92 || filename.getD i 0 == 47

/-- The offset `start` is where the base name of the first `n` characters of
`filename` begins: right after the last path separator, or 0 when there is none. -/
def BaseStart (filename : List Nat) (n start : Nat) : Prop :=
  (start = 0 ∨ (0 < start ∧ start ≤ n ∧ is_separator filename (start - 1) = true)) ∧
  ∀ i, start ≤ i → i < n → is_separator filename i = false

/-- The value `dot` is the offset of the last `.` among the characters
`[start, n)` of `filename`, or none when there is no `.` among them. -/
def LastDot (filename : List Nat) (n start : Nat) : Option Nat → Prop
  | none => ∀ i, start ≤ i → i < n → filename.getD i 0 ≠ 46
  | some j => start ≤ j ∧ j < n ∧ filename.getD j 0 = 46 ∧
      ∀ i, j < i → i < n → filename.getD i 0 ≠ 46

/-- The image has fewer than `2 ^ 31` bytes and holds the sixteen bytes of its
identifier, at offset `prefix_end + 0x30`, within its bytes. -/
def holds_identifier (img : List Nat) : Bool :=
  decide (prefix_end img + 0x30 + 16 ≤ img.length) && decide (img.length < 2 ^ 31)

/-- The line `print_dependency_list` writes for the package-table entry
`index`: identifier, name and path; none when the entry has no path or its
name index lies outside the name table. -/
def dependency_line (s : State) (index : Nat) : Option (List Nat) :=
  match s.package_table[index]? with
  | none => none
  | some package =>
    match s.name_table[package.name_index]?, package.filename with
    | some name, some filename =>
      some (hex_GUID package.GUID ++ str " | " ++ c_str name ++ str " | " ++
        c_str filename ++ [10])
    | _, _ => none

/-- The lines for a list of entries, when every one of them has a line. -/
def dependency_lines (s : State) : List Nat → Option (List (List Nat))
  | [] => some []
  | index :: rest =>
    match dependency_line s index, dependency_lines s rest with
    | some line, some lines => some (line :: lines)
    | _, _ => none

/-! ## Sample inputs -/

/-- One name record on disk: the length (counting the terminating NUL), the
text with its NUL, and eight bytes of flags. -/
def name_record (name : String) : List Nat :=
  le_bytes ((str name).length + 1) ++ str name ++ [0] ++ List.replicate 8 0

/-- One record of the table of imports on disk: 28 bytes. -/
def import_record (package_name class_name reference object_name : Nat) : List Nat :=
  le_bytes package_name ++ le_bytes 0 ++ le_bytes class_name ++ le_bytes 0 ++
    le_bytes reference ++ le_bytes object_name ++ le_bytes 0

/-- A package image holding nothing but the identifier `g`: the prefix length
is 0 and the identifier stands at `0x40`. -/
def package_with_guid (g : Guid) : List Nat :=
  List.replicate 12 0 ++ le_bytes 0 ++ List.replicate 0x30 0 ++ g.bytes

/-- A small package image.  The prefix has length 2, so `prefix_end = 0x12`; the
name count 5 is at `0x16`, the name table offset 82 at `0x1A`, the count 3 of
the table of imports at `0x26`, its offset 161 at `0x2A`, the identifier at
`0x42`.  The names are `A`, `B`, `C`, `Core`, `Package`; the three records
name `A` (reference 0), `B` (reference 0) and `C` (reference 5). -/
def sample_package : List Nat :=
  [0xC1, 0x83, 0x2A, 0x9E, 0x5D, 0x03, 0x00, 0x00, 0x00, 0x00, 0x00, 0x00] ++
  le_bytes 2 ++ [0x58, 0x00] ++
  le_bytes 0 ++ le_bytes 5 ++ le_bytes 82 ++
  List.replicate 8 0 ++ le_bytes 3 ++ le_bytes 161 ++
  List.replicate 20 0 ++
  Guid.bytes ⟨0xAAAAAAAA, 0xBBBBBBBB, 0xCCCCCCCC, 0xDDDDDDDD⟩ ++
  name_record "A" ++ name_record "B" ++ name_record "C" ++ name_record "Core" ++
  name_record "Package" ++
  import_record 3 4 0 0 ++ import_record 3 4 0 1 ++ import_record 3 4 5 2

/-- The first 32 bytes of `long_prefix_package`: the prefix length field at
`0x0C` holds `0xFFFFFFD0`, and sixteen bytes `0x11` follow it. -/
def long_prefix_head : List Nat :=
  List.replicate 12 0 ++ le_bytes 0xFFFFFFD0 ++ List.replicate 16 0x11

/-- A package image of `2 ^ 32 + 32` bytes whose prefix length is `0xFFFFFFD0`, so
that `prefix_end + 0x30 = 2 ^ 32 + 0x10`, where sixteen bytes `0x22` stand. -/
def long_prefix_package : List Nat :=
  long_prefix_head ++ (List.replicate (2 ^ 32 - 16) 0 ++ List.replicate 16 0x22)

/-- The first 41 bytes of `long_name_package`: the prefix length field holds
`0xFFFFFFFC`, two zero words follow at `0x10` and `0x14`, and one name record
`Core` stands at offset 24. -/
def long_name_head : List Nat :=
  List.replicate 12 0 ++ le_bytes 0xFFFFFFFC ++ le_bytes 0 ++ le_bytes 0 ++ name_record "Core"

/-- A package image of `2 ^ 32 + 24` bytes whose prefix length is `0xFFFFFFFC`, so
that `prefix_end + 0x04 = 2 ^ 32 + 0x10`: there stand the name count 1 and the
name table offset 24. -/
def long_name_package : List Nat :=
  long_name_head ++ (List.replicate (2 ^ 32 - 25) 0 ++ (le_bytes 1 ++ le_bytes 24))

/-- The first 52 bytes of `long_import_package`: the prefix length field holds
`0xFFFFFFEC`, two zero words follow at `0x10` and `0x14`, and one 28-byte
record with reference 0 stands at offset 24. -/
def long_import_head : List Nat :=
  List.replicate 12 0 ++ le_bytes 0xFFFFFFEC ++ le_bytes 0 ++ le_bytes 0 ++
    import_record 3 4 0 1

/-- A package image of `2 ^ 32 + 24` bytes whose prefix length is `0xFFFFFFEC`, so
that `prefix_end + 0x14 = 2 ^ 32 + 0x10`: there stand the record count 1 and the
table offset 24. -/
def long_import_package : List Nat :=
  long_import_head ++ (List.replicate (2 ^ 32 - 36) 0 ++ (le_bytes 1 ++ le_bytes 24))

/-- The state of `main` after loading a baseline that holds the identifier
`0x11111111 x 4` and decoding the sample package, whose records are the root imports
`A` and `B` and the non-root import `C` (reference 5). -/
def scenario_session : State :=
  (read_import_table
    (read_name_table
      (read_against_list {}
        ⟨le_bytes 1 ++ Guid.bytes ⟨0x11111111, 0x11111111, 0x11111111, 0x11111111⟩, 0⟩).1
      ⟨sample_package, 0⟩).1
    ⟨sample_package, 0⟩).1

/-- The directory tree of the scenario, as enumerated for the pattern `game\*`:
`a.upk` with identifier `0x11111111 x 4` at the top, `b.u` with identifier
`0x22222222 x 4` in the subdirectory `Maps`, and a file that is not a package. -/
def scenario_tree : List DirEntry :=
  [.dir (str ".") [], .dir (str "..") [],
   .file (str "a.upk")
     (some (package_with_guid ⟨0x11111111, 0x11111111, 0x11111111, 0x11111111⟩)),
   .dir (str "Maps")
     [.dir (str ".") [], .dir (str "..") [],
      .file (str "b.u")
        (some (package_with_guid ⟨0x22222222, 0x22222222, 0x22222222, 0x22222222⟩))],
   .file (str "readme.txt") none]

/-- A session with the single name `Foo` and one unresolved package-table entry
of that name. -/
def foo_session : State :=
  { name_table_size := 1, name_table := [str "Foo" ++ [0]],
    packages_imported := 1, package_table := [⟨0, Guid.zero, none, .ext_UNKNOWN⟩] }

/-- A directory, enumerated for the pattern `game\*`, holding `Foo.upk` with
identifier `0x11111111 x 4`, then `Foo.udk` with identifier `0x22222222 x 4`, then
`Bar.u`. -/
def foo_tree : List DirEntry :=
  [.file (str "Foo.upk")
     (some (package_with_guid ⟨0x11111111, 0x11111111, 0x11111111, 0x11111111⟩)),
   .file (str "Foo.udk")
     (some (package_with_guid ⟨0x22222222, 0x22222222, 0x22222222, 0x22222222⟩)),
   .file (str "Bar.u")
     (some (package_with_guid ⟨0x33333333, 0x33333333, 0x33333333, 0x33333333⟩))]

/-- The sample package cut off inside its second name record: the text of that
record would end at offset 102, the image ends at 101. -/
def truncated_package : List Nat :=
  sample_package.take 101

/-- A session with the single name `Foo` carried by two unresolved
package-table entries. -/
def foo_twice_session : State :=
  { name_table_size := 1, name_table := [str "Foo" ++ [0]],
    packages_imported := 2,
    package_table := [⟨0, Guid.zero, none, .ext_UNKNOWN⟩, ⟨0, Guid.zero, none, .ext_UNKNOWN⟩] }

/-- A session of three resolved packages against a baseline holding the
identifier of the second one. -/
def three_package_session : State :=
  { package_table := [⟨0, ⟨1, 1, 1, 1⟩, none, .ext_UPK⟩, ⟨1, ⟨2, 2, 2, 2⟩, none, .ext_U⟩,
      ⟨2, ⟨2, 2, 2, 3⟩, none, .ext_UDK⟩],
    packages_imported := 3,
    against_list := [⟨2, 2, 2, 2⟩],
    against_list_size := 1 }

/-- The sample package with its second record replaced: the record is a
root import whose object name index is 7, while the image holds five names. -/
def wild_index_package : List Nat :=
  sample_package.take 189 ++ import_record 3 4 0 7 ++ sample_package.drop 217

/-- The state of `main` after decoding `wild_index_package`. -/
def wild_index_session : State :=
  (read_import_table (read_name_table {} ⟨wild_index_package, 0⟩).1
    ⟨wild_index_package, 0⟩).1

/-- The file system of the scenario for `main`: the files `sample.upk` and
`Core.upk` both hold the sample package, and `base.bin` holds a baseline with the
identifier `0x11111111 x 4`. -/
def scenario_fopen (path : List Nat) : Option (List Nat) :=
  if path = str "sample.upk" then some sample_package
  else if path = str "Core.upk" then some sample_package
  else if path = str "base.bin" then
    some (le_bytes 1 ++ Guid.bytes ⟨0x11111111, 0x11111111, 0x11111111, 0x11111111⟩)
  else none

/-- The first 97 bytes of `half_import_package`: an empty prefix, the name count 1
at `0x14` and the name table offset 80 at `0x18`, the import count `2 ^ 31` at `0x24`
and the import table offset 97 at `0x28`, an identifier at `0x40`, and at offset
80 the one name record `Core`. -/
def half_import_head : List Nat :=
  List.replicate 12 0 ++ le_bytes 0 ++ le_bytes 0 ++ le_bytes 1 ++ le_bytes 80 ++
  List.replicate 8 0 ++ le_bytes (2 ^ 31) ++ le_bytes 97 ++ List.replicate 20 0 ++
  Guid.bytes ⟨1, 2, 3, 4⟩ ++ name_record "Core"

/-- A package image with one name and `2 ^ 31` import records of 28 zero bytes
each: every record is a root import of the name 0. -/
def half_import_package : List Nat :=
  half_import_head ++ List.replicate (28 * 2 ^ 31) 0

/-- The state after decoding `half_import_package` and `init_package_table`:
one name, `2 ^ 31` root records and as many package-table entries; the
baseline and the dependency list are empty. -/
def half_table_session : State :=
  { name_table_size := 1, name_table := [str "Core" ++ [0]],
    import_table_size := 2 ^ 31,
    import_table := List.replicate (2 ^ 31) ⟨0, 0, 0, 0⟩,
    packages_imported := 2 ^ 31,
    package_table := List.replicate (2 ^ 31) ⟨0, Guid.zero, none, .ext_UNKNOWN⟩ }

/-- A session of two resolved packages `A` and `B` with their paths, against a
baseline holding the identifier of the second one. -/
def printed_session : State :=
  { name_table_size := 2, name_table := [str "A" ++ [0], str "B" ++ [0]],
    packages_imported := 2,
    package_table := [⟨0, ⟨1, 1, 1, 1⟩, some (str "x\\A.upk" ++ [0]), .ext_UPK⟩,
      ⟨1, ⟨2, 2, 2, 2⟩, some (str "x\\B.u" ++ [0]), .ext_U⟩],
    against_list := [⟨2, 2, 2, 2⟩],
    against_list_size := 1 }

/-- A content of fresh heap memory: every node of the game package table is
allocated over the words `0xFEEEFEEE`. -/
def stale_memory (_ : Nat) : Guid :=
  ⟨0xFEEEFEEE, 0xFEEEFEEE, 0xFEEEFEEE, 0xFEEEFEEE⟩

/-- A directory, enumerated for the pattern `game\*`, holding `a.upk` with
identifier `0x11111111 x 4`, the file `short.u` of three bytes, and `gone.udk`,
which cannot be opened. -/
def stale_tree : List DirEntry :=
  [.file (str "a.upk")
     (some (package_with_guid ⟨0x11111111, 0x11111111, 0x11111111, 0x11111111⟩)),
   .file (str "short.u") (some [1, 2, 3]),
   .file (str "gone.udk") none]

/-! ## Theorems -/

/-! ### Against list membership -/

theorem memcmp_GUID_eq_iff (a b : Guid) : memcmp_GUID_eq a b = true ↔ a = b := by
  cases a
  cases b
  simp [memcmp_GUID_eq, and_assoc]

theorem is_in_against_list_loop_eq (al : List Guid) (g : Guid) :
    ∀ (n tmp : Nat), tmp + n ≤ al.length →
      is_in_against_list_loop al g n tmp = decide (g ∈ (al.drop tmp).take n) := by
  intro n
  induction n with
  | zero => intro tmp _; simp [is_in_against_list_loop]
  | succ n ih =>
    intro tmp h
    have hlt : tmp < al.length := by omega
    have hd : al.drop tmp = al[tmp] :: al.drop (tmp + 1) := by
      exact List.drop_eq_getElem_cons hlt
    have hget : al.getD tmp Guid.zero = al[tmp] := by
      simp [List.getD, List.getElem?_eq_getElem hlt]
    have hmem : g ∈ (al.drop tmp).take (n + 1) ↔
        g = al[tmp] ∨ g ∈ (al.drop (tmp + 1)).take n := by
      rw [hd, List.take_succ_cons, List.mem_cons]
    rw [is_in_against_list_loop, hget, ih (tmp + 1) (by omega)]
    by_cases hm : memcmp_GUID_eq g al[tmp] = true
    · have hg := (memcmp_GUID_eq_iff _ _).1 hm
      rw [if_pos hm]
      exact (decide_eq_true (hmem.2 (Or.inl hg))).symm
    · have hne : ¬ g = al[tmp] := fun e => hm ((memcmp_GUID_eq_iff _ _).2 e)
      rw [if_neg hm]
      exact decide_eq_decide.2 ⟨fun h => hmem.2 (Or.inr h), fun h => (hmem.1 h).resolve_left hne⟩

theorem is_in_against_list_iff (s : State) (g : Guid)
    (h : s.against_list_size = s.against_list.length) :
    is_in_against_list s g = true ↔ g ∈ s.against_list := by
  unfold is_in_against_list
  rw [is_in_against_list_loop_eq _ _ _ _ (by omega), h]
  simp

/-! ### The dependency list as a heap-allocated chain -/

theorem dependency_walk_of_chain (nodes : List UDKPackage_Dependency) :
    ∀ (l : List (Nat × Nat)) (cur : Option Nat) (fuel : Nat),
      DependencyChain nodes cur l → l.length ≤ fuel →
      dependency_list_walk nodes fuel cur = l.map Prod.snd := by
  intro l
  induction l with
  | nil =>
    intro cur fuel hc _
    simp only [DependencyChain] at hc
    subst hc
    cases fuel <;> simp [dependency_list_walk]
  | cons x rest ih =>
    intro cur fuel hc hf
    obtain ⟨a, p⟩ := x
    obtain ⟨hcur, nx, hn, hrest⟩ := hc
    subst hcur
    cases fuel with
    | zero => simp at hf
    | succ f =>
      simp only [dependency_list_walk, hn, List.map_cons]
      rw [ih nx f hrest (by simpa using hf)]

theorem set_dependency_next_getElem? (nodes : List UDKPackage_Dependency) (a k : Nat)
    (v : Option Nat) :
    (set_dependency_next nodes a v)[k]? =
      if k = a then (nodes[a]?).map (fun n => { n with next := v }) else nodes[k]? := by
  unfold set_dependency_next
  cases h : nodes[a]? with
  | none =>
    by_cases hk : k = a
    · subst hk; simp [h]
    · simp [hk]
  | some n =>
    by_cases hk : k = a
    · subst hk
      have hlt : k < nodes.length := (List.getElem?_eq_some.1 h).1
      simp [List.getElem?_set, hlt]
    · have hk2 : a ≠ k := fun e => hk e.symm
      simp [hk, List.getElem?_set_ne hk2]

theorem set_dependency_next_length (nodes : List UDKPackage_Dependency) (a : Nat)
    (v : Option Nat) : (set_dependency_next nodes a v).length = nodes.length := by
  unfold set_dependency_next
  cases nodes[a]? <;> simp

theorem dependency_chain_append (nodes : List UDKPackage_Dependency)
    (x : UDKPackage_Dependency) :
    ∀ (l : List (Nat × Nat)) (cur : Option Nat),
      DependencyChain nodes cur l → DependencyChain (nodes ++ [x]) cur l := by
  intro l
  induction l with
  | nil => intro cur hc; exact hc
  | cons y rest ih =>
    intro cur hc
    obtain ⟨a, p⟩ := y
    obtain ⟨hcur, nx, hn, hrest⟩ := hc
    have hlt : a < nodes.length := (List.getElem?_eq_some.1 hn).1
    exact ⟨hcur, nx, by rw [List.getElem?_append_left hlt]; exact hn, ih nx hrest⟩

theorem dependency_chain_snoc (nodes : List UDKPackage_Dependency) (p : Nat) :
    ∀ (l : List (Nat × Nat)) (cur : Option Nat) (lastAddr : Nat),
      DependencyChain nodes cur l →
      (l.map Prod.fst).getLast? = some lastAddr →
      (l.map Prod.fst).Nodup →
      DependencyChain
        (set_dependency_next (nodes ++ [⟨p, none⟩]) lastAddr (some nodes.length)) cur
        (l ++ [(nodes.length, p)]) := by
  intro l
  induction l with
  | nil => intro cur lastAddr _ hl; simp at hl
  | cons y rest ih =>
    intro cur lastAddr hc hl hnd
    obtain ⟨a, q⟩ := y
    obtain ⟨hcur, nx, hn, hrest⟩ := hc
    have hlt : a < nodes.length := (List.getElem?_eq_some.1 hn).1
    cases rest with
    | nil =>
      simp only [DependencyChain] at hrest
      simp only [List.map_cons, List.map_nil, List.getLast?_singleton, Option.some.injEq] at hl
      subst hl
      subst hrest
      refine ⟨hcur, some nodes.length, ?_, rfl, none, ?_, rfl⟩
      · rw [set_dependency_next_getElem?, if_pos rfl, List.getElem?_append_left hlt, hn]
        rfl
      · rw [set_dependency_next_getElem?, if_neg (by omega)]
        simp
    | cons z rest2 =>
      have hl2 : (List.map Prod.fst (z :: rest2)).getLast? = some lastAddr := by
        simpa [List.getLast?_cons_cons] using hl
      have hnd2 : (List.map Prod.fst (z :: rest2)).Nodup := by
        simp only [List.map_cons, List.nodup_cons] at hnd ⊢
        exact hnd.2
      have hmem : lastAddr ∈ List.map Prod.fst (z :: rest2) :=
        List.mem_of_getLast?_eq_some hl2
      have hne : a ≠ lastAddr := by
        intro e
        subst e
        simp only [List.map_cons, List.nodup_cons] at hnd
        exact hnd.1 (by simpa using hmem)
      refine ⟨hcur, nx, ?_, ih nx lastAddr hrest hl2 hnd2⟩
      rw [set_dependency_next_getElem?, if_neg hne, List.getElem?_append_left hlt]
      exact hn

theorem build_dependency_list_step_frame (s : State) (index : Nat) :
    (build_dependency_list_step s index).package_table = s.package_table ∧
    (build_dependency_list_step s index).packages_imported = s.packages_imported ∧
    (build_dependency_list_step s index).against_list = s.against_list ∧
    (build_dependency_list_step s index).against_list_size = s.against_list_size := by
  unfold build_dependency_list_step
  split
  · split <;> simp
  · simp

theorem build_dependency_list_step_inv (s : State) (index : Nat) (l : List (Nat × Nat))
    (h : DependencyInv s l) :
    DependencyInv (build_dependency_list_step s index)
      (if is_in_against_list s (s.package_table.getD index default).GUID = true then l
       else l ++ [(s.dependency_nodes.length, index)]) := by
  unfold build_dependency_list_step
  by_cases hin : is_in_against_list s (s.package_table.getD index default).GUID = true
  · simp only [hin, if_true]
    simpa using h
  · have hf : is_in_against_list s (s.package_table.getD index default).GUID = false := by
      simpa using hin
    simp only [hf, beq_self_eq_true, if_true, Bool.false_eq_true, if_false]
    cases hlast : s.dependency_list_last with
    | none =>
      have hl : l = [] := by
        have := h.last
        rw [hlast] at this
        cases l with
        | nil => rfl
        | cons x xs =>
          have hne : (List.map Prod.fst (x :: xs)) ≠ [] := by simp
          have hs := List.getLast?_eq_getLast _ hne
          rw [hs] at this
          cases this
      subst hl
      refine ⟨?_, ?_, ?_, ?_, ?_⟩
      · exact ⟨rfl, none, by simp, rfl⟩
      · simp
      · intro x hx
        simp only [List.nil_append, List.mem_singleton] at hx
        subst hx
        simp
      · simp
      · simp
    | some la =>
      have hlast2 : (l.map Prod.fst).getLast? = some la := by rw [← h.last, hlast]
      refine ⟨?_, ?_, ?_, ?_, ?_⟩
      · exact dependency_chain_snoc s.dependency_nodes index l _ la h.chain hlast2 h.nodup
      · simp [List.getLast?_concat]
      · intro x hx
        simp only [set_dependency_next_length, List.length_append, List.length_singleton]
        rcases List.mem_append.1 hx with hx | hx
        · have := h.bound x hx
          omega
        · simp only [List.mem_singleton] at hx
          subst hx
          simp
      · rw [List.map_append, List.nodup_append]
        refine ⟨h.nodup, by simp, ?_⟩
        intro a ha hb
        simp only [List.map_cons, List.map_nil, List.mem_singleton] at hb
        obtain ⟨x, hx, rfl⟩ := List.mem_map.1 ha
        have := h.bound x hx
        omega
      · simp only [set_dependency_next_length, List.length_append, List.length_singleton]
        have := h.len
        omega

theorem build_dependency_list_loop_spec :
    ∀ (n index : Nat) (s : State) (l : List (Nat × Nat)),
      DependencyInv s l →
      s.against_list_size = s.against_list.length →
      ∃ l2, DependencyInv (build_dependency_list_loop n index s) l2 ∧
        l2.map Prod.snd = l.map Prod.snd ++
          (List.range' index n).filter
            (fun i => decide ((s.package_table.getD i default).GUID ∉ s.against_list)) := by
  intro n
  induction n with
  | zero =>
    intro index s l h _
    exact ⟨l, by simpa [build_dependency_list_loop] using h, by simp⟩
  | succ n ih =>
    intro index s l h hal
    obtain ⟨hpt, _, hag, hsz⟩ := build_dependency_list_step_frame s index
    have hstep := build_dependency_list_step_inv s index l h
    obtain ⟨l2, hinv, hmap⟩ := ih (index + 1) (build_dependency_list_step s index) _ hstep
      (by rw [hsz, hag]; exact hal)
    refine ⟨l2, by simpa [build_dependency_list_loop] using hinv, ?_⟩
    have hiff := is_in_against_list_iff s (s.package_table.getD index default).GUID hal
    by_cases hin : is_in_against_list s (s.package_table.getD index default).GUID = true
    · have hmem := hiff.1 hin
      have hd : decide ((s.package_table.getD index default).GUID ∉ s.against_list) = false :=
        decide_eq_false (not_not.2 hmem)
      rw [if_pos hin] at hmap
      rw [hmap, hpt, hag, List.range'_succ, List.filter_cons, hd]
      simp only [Bool.false_eq_true, if_false]
    · have hmem : (s.package_table.getD index default).GUID ∉ s.against_list :=
        fun hm => hin (hiff.2 hm)
      have hd : decide ((s.package_table.getD index default).GUID ∉ s.against_list) = true :=
        decide_eq_true hmem
      rw [if_neg hin] at hmap
      rw [hmap, hpt, hag, List.range'_succ, List.filter_cons, hd]
      simp only [if_true, List.map_append, List.map_cons, List.map_nil, List.append_assoc,
        List.singleton_append]

theorem build_dependency_list_entries (s : State) (l : List (Nat × Nat))
    (h : DependencyInv s l) (hal : s.against_list_size = s.against_list.length) :
    dependency_list_entries (build_dependency_list s) =
      l.map Prod.snd ++ (List.range' 0 s.packages_imported).filter
        (fun i => decide ((s.package_table.getD i default).GUID ∉ s.against_list)) := by
  obtain ⟨l2, hinv, hmap⟩ := build_dependency_list_loop_spec s.packages_imported 0 s l h hal
  unfold dependency_list_entries build_dependency_list
  rw [dependency_walk_of_chain _ l2 _ _ hinv.chain hinv.len, hmap]

theorem dependency_inv_empty (s : State) (hhead : s.dependency_list_head = none)
    (hlast : s.dependency_list_last = none) : DependencyInv s [] :=
  ⟨hhead, by simpa using hlast, by simp, by simp, by simp⟩

theorem build_dependency_list_loop_frame :
    ∀ (n index : Nat) (s : State),
      (build_dependency_list_loop n index s).package_table = s.package_table ∧
      (build_dependency_list_loop n index s).against_list = s.against_list := by
  intro n
  induction n with
  | zero => intro index s; simp [build_dependency_list_loop]
  | succ n ih =>
    intro index s
    obtain ⟨hpt, _, hag, _⟩ := build_dependency_list_step_frame s index
    obtain ⟨h1, h2⟩ := ih (index + 1) (build_dependency_list_step s index)
    simp only [build_dependency_list_loop]
    exact ⟨h1.trans hpt, h2.trans hag⟩

/-- C1. Starting from an empty dependency list, `build_dependency_list` leaves the
package table and the baseline untouched and produces exactly the package-table
entries, in table order and each once, whose identifier differs in some word
from every baseline entry: entry `p` is listed iff `p.GUID` is absent from the
baseline. -/
theorem build_dependency_list_exact (s : State)
    (hhead : s.dependency_list_head = none) (hlast : s.dependency_list_last = none)
    (hpt : s.packages_imported = s.package_table.length)
    (hal : s.against_list_size = s.against_list.length) :
    dependency_list_entries (build_dependency_list s) =
        (List.range s.package_table.length).filter
          (fun i => decide ((s.package_table.getD i default).GUID ∉ s.against_list)) ∧
    (build_dependency_list s).package_table = s.package_table ∧
    (build_dependency_list s).against_list = s.against_list ∧
    (dependency_list_entries (build_dependency_list s)).Pairwise (fun i j => i < j) ∧
    ∀ (i : Nat) (p : UDKPackage), s.package_table[i]? = some p →
      (i ∈ dependency_list_entries (build_dependency_list s) ↔ p.GUID ∉ s.against_list) := by
  have hE := build_dependency_list_entries s [] (dependency_inv_empty s hhead hlast) hal
  rw [List.map_nil, List.nil_append, hpt, ← List.range_eq_range'] at hE
  obtain ⟨hf1, hf2⟩ := build_dependency_list_loop_frame s.packages_imported 0 s
  refine ⟨hE, hf1, hf2, ?_, ?_⟩
  · rw [hE]
    exact List.Pairwise.filter _ (List.pairwise_lt_range _)
  · intro i p hp
    obtain ⟨hlt, hget⟩ := List.getElem?_eq_some.1 hp
    have hD : s.package_table.getD i default = p := by
      rw [List.getD_eq_getElem?_getD, hp]
      rfl
    rw [hE, List.mem_filter, List.mem_range, hD]
    simp [hlt]

/-- Witness of C1: a table of three packages against a baseline holding the
identifier of the second one. -/
theorem build_dependency_list_exact_witness :
    dependency_list_entries (build_dependency_list
      { package_table := [⟨0, ⟨1, 1, 1, 1⟩, none, .ext_UPK⟩, ⟨1, ⟨2, 2, 2, 2⟩, none, .ext_U⟩,
          ⟨2, ⟨2, 2, 2, 3⟩, none, .ext_UDK⟩],
        packages_imported := 3,
        against_list := [⟨2, 2, 2, 2⟩],
        against_list_size := 1 }) = [0, 2] :=
  (build_dependency_list_exact
      { package_table := [⟨0, ⟨1, 1, 1, 1⟩, none, .ext_UPK⟩, ⟨1, ⟨2, 2, 2, 2⟩, none, .ext_U⟩,
          ⟨2, ⟨2, 2, 2, 3⟩, none, .ext_UDK⟩],
        packages_imported := 3,
        against_list := [⟨2, 2, 2, 2⟩],
        against_list_size := 1 } rfl rfl rfl rfl).1.trans (by decide)

/-! ### Streams -/

theorem le_value_le_bytes (v : Nat) (h : v < 2 ^ 32) : le_value (le_bytes v) = v := by
  simp only [le_bytes, le_value]
  omega

theorem le_bytes_length (v : Nat) : (le_bytes v).length = 4 := rfl

theorem guid_bytes_length (g : Guid) : g.bytes.length = 16 := rfl

theorem guid_ofBytes_bytes (g : Guid) (h : g.valid) : Guid.ofBytes g.bytes = g := by
  obtain ⟨h0, h1, h2, h3⟩ := h
  cases g with
  | mk a b c d =>
    simp only [Guid.ofBytes, Guid.bytes, le_bytes, List.cons_append, List.nil_append,
      List.take_succ_cons, List.take_zero, List.drop_succ_cons, List.drop_zero, le_value,
      Guid.mk.injEq]
    simp only at h0 h1 h2 h3
    refine ⟨?_, ?_, ?_, ?_⟩ <;> omega

theorem store_full (bytes old : List Nat) (h : old.length ≤ bytes.length) :
    store bytes old = bytes := by
  simp [store, List.drop_eq_nil_of_le h]

theorem fread_exact (pre bs post : List Nat) :
    fread ⟨pre ++ bs ++ post, pre.length⟩ bs.length =
      (bs, ⟨pre ++ bs ++ post, pre.length + bs.length⟩) := by
  simp [fread, List.append_assoc, List.drop_left, List.take_left]

theorem fread_uint32_exact (pre post : List Nat) (v w : Nat) (h : v < 2 ^ 32) :
    fread_uint32 w ⟨pre ++ le_bytes v ++ post, pre.length⟩ =
      (v, ⟨pre ++ le_bytes v ++ post, pre.length + 4⟩) := by
  have hf := fread_exact pre (le_bytes v) post
  rw [le_bytes_length] at hf
  simp only [fread_uint32, hf]
  rw [store_full _ _ (by simp [le_bytes_length]), le_value_le_bytes v h]

theorem fread_GUID_exact (pre post : List Nat) (g w : Guid) (h : g.valid) :
    fread_GUID w ⟨pre ++ g.bytes ++ post, pre.length⟩ =
      (g, ⟨pre ++ g.bytes ++ post, pre.length + 16⟩) := by
  have hf := fread_exact pre g.bytes post
  rw [guid_bytes_length] at hf
  simp only [fread_GUID, hf]
  rw [store_full _ _ (by simp [guid_bytes_length]), guid_ofBytes_bytes g h]

/-! ### Against list persistence -/

theorem flatMap_bytes_length (gs : List Guid) :
    (gs.flatMap Guid.bytes).length = 16 * gs.length := by
  induction gs with
  | nil => rfl
  | cons g gs ih =>
    rw [List.flatMap_cons, List.length_append, ih, guid_bytes_length, List.length_cons]
    omega

theorem write_against_list_loop_eq (al : List Guid) :
    ∀ (n tmp : Nat) (out : List Nat), tmp + n ≤ al.length →
      write_against_list_loop al n tmp out =
        out ++ ((al.drop tmp).take n).flatMap Guid.bytes := by
  intro n
  induction n with
  | zero => intro tmp out _; simp [write_against_list_loop]
  | succ n ih =>
    intro tmp out h
    have hlt : tmp < al.length := by omega
    have hd : al.drop tmp = al[tmp] :: al.drop (tmp + 1) := List.drop_eq_getElem_cons hlt
    have hget : al.getD tmp Guid.zero = al[tmp] := by
      simp [List.getD, List.getElem?_eq_getElem hlt]
    rw [write_against_list_loop, hget, ih (tmp + 1) _ (by omega), hd, List.take_succ_cons,
      List.flatMap_cons, List.append_assoc]

theorem read_against_list_loop_eq :
    ∀ (gs : List Guid) (pre post : List Nat) (acc : List Guid) (tmp : Nat),
      (∀ g ∈ gs, g.valid) →
      read_against_list_loop gs.length tmp acc
          ⟨pre ++ gs.flatMap Guid.bytes ++ post, pre.length⟩ =
        (acc ++ gs, ⟨pre ++ gs.flatMap Guid.bytes ++ post, pre.length + 16 * gs.length⟩) := by
  intro gs
  induction gs with
  | nil => intro pre post acc tmp _; simp [read_against_list_loop]
  | cons g gs ih =>
    intro pre post acc tmp hv
    have hg : g.valid := hv g (List.mem_cons_self _ _)
    have hgs : ∀ x ∈ gs, x.valid := fun x hx => hv x (List.mem_cons_of_mem _ hx)
    have hdata : pre ++ (g :: gs).flatMap Guid.bytes ++ post =
        pre ++ g.bytes ++ (gs.flatMap Guid.bytes ++ post) := by
      simp [List.flatMap_cons, List.append_assoc]
    have hdata2 : pre ++ g.bytes ++ (gs.flatMap Guid.bytes ++ post) =
        (pre ++ g.bytes) ++ gs.flatMap Guid.bytes ++ post := by
      simp [List.append_assoc]
    have hlen : (pre ++ g.bytes).length = pre.length + 16 := by
      simp [guid_bytes_length]
    rw [List.length_cons, read_against_list_loop, hdata, fread_GUID_exact pre _ g _ hg]
    simp only
    rw [hdata2, ← hlen, ih (pre ++ g.bytes) post (acc ++ [g]) (tmp + 1) hgs, hlen]
    simp only [List.append_assoc, List.singleton_append, Prod.mk.injEq, FILE.mk.injEq, true_and]
    omega

/-- C2. Baseline round trip: for a baseline of fewer than `2 ^ 32` identifiers
(each four 32-bit words), `read_against_list` on the stream produced by
`write_against_list` (the count, then sixteen bytes per identifier,
little-endian, nothing else) yields the same count and the same identifiers,
consumes the whole stream, and the membership test answers as before. -/
theorem against_list_round_trip (s s0 : State)
    (hsize : s.against_list_size = s.against_list.length)
    (hlen : s.against_list.length < 2 ^ 32)
    (hvalid : ∀ g ∈ s.against_list, g.valid) :
    write_against_list s [] =
        le_bytes s.against_list.length ++ s.against_list.flatMap Guid.bytes ∧
    (read_against_list s0 ⟨write_against_list s [], 0⟩).1.against_list_size =
        s.against_list_size ∧
    (read_against_list s0 ⟨write_against_list s [], 0⟩).1.against_list = s.against_list ∧
    (read_against_list s0 ⟨write_against_list s [], 0⟩).2.pos =
        (write_against_list s []).length ∧
    ∀ g, is_in_against_list (read_against_list s0 ⟨write_against_list s [], 0⟩).1 g =
        is_in_against_list s g := by
  have hw : write_against_list s [] =
      le_bytes s.against_list.length ++ s.against_list.flatMap Guid.bytes := by
    unfold write_against_list
    rw [write_against_list_loop_eq _ _ _ _ (by omega), hsize]
    simp
  have hr : read_against_list s0 ⟨write_against_list s [], 0⟩ =
      ({ s0 with against_list_size := s.against_list.length, against_list := s.against_list },
       ⟨write_against_list s [], 4 + 16 * s.against_list.length⟩) := by
    rw [hw]
    have h1 := fread_uint32_exact [] (s.against_list.flatMap Guid.bytes)
      s.against_list.length s0.against_list_size hlen
    simp only [List.nil_append, List.length_nil, Nat.zero_add] at h1
    have h2 := read_against_list_loop_eq s.against_list (le_bytes s.against_list.length) []
      [] 0 hvalid
    simp only [List.append_nil, le_bytes_length, List.nil_append] at h2
    simp only [read_against_list, h1, h2]
  refine ⟨hw, ?_, ?_, ?_, ?_⟩
  · rw [hr, hsize]
  · rw [hr]
  · rw [hr, hw]
    rw [List.length_append, le_bytes_length, flatMap_bytes_length]
  · intro g
    rw [hr]
    simp only [is_in_against_list, hsize]

/-- Witness of C2: a baseline of two identifiers. -/
theorem against_list_round_trip_witness :
    (read_against_list {} ⟨write_against_list
        { against_list := [⟨1, 2, 3, 4⟩, ⟨4294967295, 0, 305419896, 7⟩],
          against_list_size := 2 } [], 0⟩).1.against_list =
      [⟨1, 2, 3, 4⟩, ⟨4294967295, 0, 305419896, 7⟩] :=
  (against_list_round_trip
      { against_list := [⟨1, 2, 3, 4⟩, ⟨4294967295, 0, 305419896, 7⟩],
        against_list_size := 2 } {} rfl (by decide) (by decide)).2.2.1

/-! ### Package table initialisation -/

theorem init_package_table_loop_spec :
    ∀ (l : List UDKImport) (n index : Nat) (acc : List UDKPackage),
      n = (root_imports l).length →
      ∃ last, last ≤ index + l.length ∧
        init_package_table_loop l n index acc =
          some (acc ++ (root_imports l).map init_slot, last) := by
  intro l
  induction l with
  | nil =>
    intro n index acc h
    simp only [root_imports, List.filter_nil, List.length_nil] at h
    subst h
    exact ⟨index, by simp, by simp [init_package_table_loop, root_imports]⟩
  | cons r rest ih =>
    intro n index acc h
    by_cases hr : r.package_reference = 0
    · have hroot : root_imports (r :: rest) = r :: root_imports rest := by
        simp [root_imports, hr]
      rw [hroot, List.length_cons] at h
      subst h
      obtain ⟨last, hle, heq⟩ := ih (root_imports rest).length (index + 1)
        (acc ++ [init_slot r]) rfl
      refine ⟨last, by simp only [List.length_cons]; omega, ?_⟩
      rw [init_package_table_loop, if_pos hr, heq, hroot]
      simp
    · have hroot : root_imports (r :: rest) = root_imports rest := by
        simp [root_imports, hr]
      rw [hroot] at h
      cases n with
      | zero =>
        refine ⟨index, by omega, ?_⟩
        rw [init_package_table_loop, hroot]
        have : root_imports rest = [] := List.eq_nil_of_length_eq_zero h.symm
        simp [this]
      | succ m =>
        obtain ⟨last, hle, heq⟩ := ih (m + 1) (index + 1) acc h
        refine ⟨last, by simp only [List.length_cons]; omega, ?_⟩
        rw [init_package_table_loop, if_neg hr, heq, hroot]

/-- C3. When `packages_imported` equals the number of records with
`package_reference == 0`, `init_package_table` returns, changing nothing but
the package table, which gets exactly one slot per root-import record in the
order of the records, the slot holding the record's `object_name_index`, an
all-zero GUID, no file name and the extension `ext_UNKNOWN`; records with a
non-zero reference contribute no slot. -/
theorem init_package_table_spec (s : State)
    (h : s.packages_imported = (root_imports s.import_table).length) :
    init_package_table s =
        some { s with package_table := (root_imports s.import_table).map init_slot } ∧
    ((root_imports s.import_table).map init_slot).length = s.packages_imported ∧
    ∀ (k : Nat) (r : UDKImport), (root_imports s.import_table)[k]? = some r →
      ((root_imports s.import_table).map init_slot)[k]? =
        some (UDKPackage.mk r.object_name_index Guid.zero none .ext_UNKNOWN) := by
  obtain ⟨last, _, heq⟩ := init_package_table_loop_spec s.import_table s.packages_imported 0 [] h
  refine ⟨?_, by simp [h], ?_⟩
  · simp [init_package_table, heq]
  · intro k r hk
    simp [List.getElem?_map, hk, init_slot]

/-- Witness of C3: two root records around a record with reference 5. -/
theorem init_package_table_spec_witness :
    init_package_table
      { import_table := [⟨3, 4, 0, 7⟩, ⟨3, 4, 5, 8⟩, ⟨3, 4, 0, 9⟩], import_table_size := 3,
        packages_imported := 2 } =
      some
      { import_table := [⟨3, 4, 0, 7⟩, ⟨3, 4, 5, 8⟩, ⟨3, 4, 0, 9⟩], import_table_size := 3,
        packages_imported := 2,
        package_table := [⟨7, ⟨0, 0, 0, 0⟩, none, .ext_UNKNOWN⟩,
          ⟨9, ⟨0, 0, 0, 0⟩, none, .ext_UNKNOWN⟩] } :=
  (init_package_table_spec
      { import_table := [⟨3, 4, 0, 7⟩, ⟨3, 4, 5, 8⟩, ⟨3, 4, 0, 9⟩], import_table_size := 3,
        packages_imported := 2 } (by decide)).1.trans (by decide)

/-! ### Reads and seeks inside the image -/

theorem fread_in_bounds (img : List Nat) (pos n : Nat) (h : pos + n ≤ img.length) :
    fread ⟨img, pos⟩ n = ((img.drop pos).take n, ⟨img, pos + n⟩) := by
  have hl : ((img.drop pos).take n).length = n := by
    rw [List.length_take, List.length_drop]
    omega
  simp only [fread, hl]

theorem fread_uint32_in_bounds (v : Nat) (img : List Nat) (pos : Nat)
    (h : pos + 4 ≤ img.length) :
    fread_uint32 v ⟨img, pos⟩ = (u32_at img pos, ⟨img, pos + 4⟩) := by
  have hl : ((img.drop pos).take 4).length = 4 := by
    rw [List.length_take, List.length_drop]
    omega
  simp only [fread_uint32, fread_in_bounds img pos 4 h, u32_at]
  rw [store_full _ _ (by rw [hl, le_bytes_length])]

theorem fread_int32_in_bounds (v : Nat) (img : List Nat) (pos : Nat)
    (h : pos + 4 ≤ img.length) :
    fread_int32 v ⟨img, pos⟩ = (to_int32 (u32_at img pos), ⟨img, pos + 4⟩) := by
  simp only [fread_int32, fread_uint32_in_bounds v img pos h]

theorem fread_GUID_in_bounds (g : Guid) (img : List Nat) (pos : Nat)
    (h : pos + 16 ≤ img.length) :
    fread_GUID g ⟨img, pos⟩ = (guid_at img pos, ⟨img, pos + 16⟩) := by
  have hl : ((img.drop pos).take 16).length = 16 := by
    rw [List.length_take, List.length_drop]
    omega
  simp only [fread_GUID, fread_in_bounds img pos 16 h]
  rw [store_full _ _ (by rw [hl, guid_bytes_length])]
  simp [Guid.ofBytes, guid_at, u32_at, List.take_take, List.drop_take, List.drop_drop]

theorem to_int32_small (u : Nat) (h : u < 2 ^ 31) : to_int32 (u % 2 ^ 32) = (u : Int) := by
  have h2 : u % 2 ^ 32 = u := Nat.mod_eq_of_lt (by omega)
  rw [h2, to_int32, if_pos h]

theorem fseek_SET_nat (f : FILE) (n : Nat) : fseek_SET f (n : Int) = ⟨f.data, n⟩ := by
  simp [fseek_SET]

theorem fseek_CUR_nat (f : FILE) (n : Nat) : fseek_CUR f (n : Int) = ⟨f.data, f.pos + n⟩ := by
  have h : (0 : Int) ≤ (f.pos : Int) + (n : Int) := by omega
  have h2 : ((f.pos : Int) + (n : Int)).toNat = f.pos + n := by omega
  simp only [fseek_CUR, if_pos h, h2]

/-! ### Identifier reader -/

/-- C7, amended. For every package byte image of fewer than `2 ^ 31` bytes that
is long enough to contain the fields, `read_guid` returns exactly the four
consecutive 32-bit little-endian words stored at absolute offset
`prefix_end + 0x30` (where `prefix_end = 0x10 + L`, `L` the value at `0x0C`),
whatever the output buffer held before and wherever the stream stood. -/
theorem read_guid_spec (img : List Nat) (GUID : Guid) (pos : Nat)
    (hlen : prefix_end img + 0x30 + 16 ≤ img.length)
    (hsmall : img.length < 2 ^ 31) :
    (read_guid GUID ⟨img, pos⟩).1 = guid_at img (prefix_end img + 0x30) ∧
    (read_guid GUID ⟨img, pos⟩).1.w0 = u32_at img (prefix_end img + 0x30) ∧
    (read_guid GUID ⟨img, pos⟩).1.w3 = u32_at img (prefix_end img + 0x30 + 12) := by
  unfold prefix_end at hlen ⊢
  have h1 : fseek_SET ⟨img, pos⟩ 0x0C = ⟨img, 0x0C⟩ := fseek_SET_nat _ 12
  have h2 := fread_uint32_in_bounds GUID.w0 img 0x0C (by omega)
  have h3 : to_int32 ((u32_at img 0x0C + 0x30) % 2 ^ 32) =
      ((u32_at img 0x0C + 0x30 : Nat) : Int) := to_int32_small _ (by omega)
  have h5 := fread_GUID_in_bounds { GUID with w0 := u32_at img 0x0C } img
    (0x10 + u32_at img 0x0C + 0x30) (by omega)
  have hpos : 0x0C + 4 + (u32_at img 0x0C + 0x30) = 0x10 + u32_at img 0x0C + 0x30 := by omega
  have hr : read_guid GUID ⟨img, pos⟩ =
      (guid_at img (0x10 + u32_at img 0x0C + 0x30),
        ⟨img, 0x10 + u32_at img 0x0C + 0x30 + 16⟩) := by
    simp only [read_guid, h1, h2, h3, fseek_CUR_nat, h5, hpos]
  rw [hr]
  exact ⟨rfl, rfl, rfl⟩

/-- Witness of C7 (amended) on the sample package, whose identifier stands at `0x42`. -/
theorem read_guid_spec_witness :
    (read_guid Guid.zero ⟨sample_package, 0⟩).1 =
      ⟨0xAAAAAAAA, 0xBBBBBBBB, 0xCCCCCCCC, 0xDDDDDDDD⟩ :=
  (read_guid_spec sample_package Guid.zero 0 (by decide!) (by decide!)).1.trans (by decide!)

/-- On an image that holds its identifier, `read_guid` returns that identifier
whatever the output buffer held before. -/
theorem read_guid_of_holds_identifier (img : List Nat) (GUID : Guid) (pos : Nat)
    (h : holds_identifier img = true) :
    (read_guid GUID ⟨img, pos⟩).1 = guid_at img (prefix_end img + 0x30) := by
  simp only [holds_identifier, Bool.and_eq_true, decide_eq_true_eq] at h
  obtain ⟨hlen, hsmall⟩ := h
  unfold prefix_end at hlen ⊢
  have h1 : fseek_SET ⟨img, pos⟩ 0x0C = ⟨img, 0x0C⟩ := fseek_SET_nat _ 12
  have h2 := fread_uint32_in_bounds GUID.w0 img 0x0C (by omega)
  have h3 : to_int32 ((u32_at img 0x0C + 0x30) % 2 ^ 32) =
      ((u32_at img 0x0C + 0x30 : Nat) : Int) := to_int32_small _ (by omega)
  have h5 := fread_GUID_in_bounds { GUID with w0 := u32_at img 0x0C } img
    (0x10 + u32_at img 0x0C + 0x30) (by omega)
  have hpos : 0x0C + 4 + (u32_at img 0x0C + 0x30) = 0x10 + u32_at img 0x0C + 0x30 := by omega
  simp only [read_guid, h1, h2, h3, fseek_CUR_nat, h5, hpos]

/-! ### Values at offsets of a concatenation -/

theorem u32_at_append_left (a r : List Nat) (off : Nat) (h : off + 4 ≤ a.length) :
    u32_at (a ++ r) off = u32_at a off := by
  unfold u32_at
  rw [List.drop_append_of_le_length (by omega),
    List.take_append_of_le_length (by rw [List.length_drop]; omega)]

theorem u32_at_append_right (a r : List Nat) (k : Nat) :
    u32_at (a ++ r) (a.length + k) = u32_at r k := by
  unfold u32_at
  rw [List.drop_append]

theorem guid_at_append_left (a r : List Nat) (off : Nat) (h : off + 16 ≤ a.length) :
    guid_at (a ++ r) off = guid_at a off := by
  unfold guid_at
  rw [u32_at_append_left a r off (by omega), u32_at_append_left a r (off + 4) (by omega),
    u32_at_append_left a r (off + 8) (by omega), u32_at_append_left a r (off + 12) (by omega)]

theorem guid_at_append_right (a r : List Nat) (k : Nat) :
    guid_at (a ++ r) (a.length + k) = guid_at r k := by
  unfold guid_at
  rw [u32_at_append_right, Nat.add_assoc, u32_at_append_right, Nat.add_assoc,
    u32_at_append_right, Nat.add_assoc, u32_at_append_right]

/-! ### The prefix length near `2 ^ 32` -/

theorem long_prefix_head_length : long_prefix_head.length = 32 := by decide!

theorem prefix_end_long_prefix (rest : List Nat) :
    prefix_end (long_prefix_head ++ rest) = 0x10 + 0xFFFFFFD0 := by
  unfold prefix_end
  rw [u32_at_append_left _ _ _ (by rw [long_prefix_head_length]; omega)]
  have : u32_at long_prefix_head 0x0C = 0xFFFFFFD0 := by decide!
  rw [this]

theorem read_guid_long_prefix (rest : List Nat) :
    (read_guid Guid.zero ⟨long_prefix_head ++ rest, 0⟩).1 =
      ⟨0x11111111, 0x11111111, 0x11111111, 0x11111111⟩ := by
  have hlen : 32 ≤ (long_prefix_head ++ rest).length := by
    rw [List.length_append, long_prefix_head_length]
    omega
  have h1 : fseek_SET ⟨long_prefix_head ++ rest, 0⟩ 0x0C = ⟨long_prefix_head ++ rest, 0x0C⟩ :=
    fseek_SET_nat _ 12
  have h2 := fread_uint32_in_bounds Guid.zero.w0 (long_prefix_head ++ rest) 0x0C (by omega)
  have hu : u32_at (long_prefix_head ++ rest) 0x0C = 0xFFFFFFD0 := by
    rw [u32_at_append_left _ _ _ (by rw [long_prefix_head_length]; omega)]
    decide!
  have h3 : to_int32 ((0xFFFFFFD0 + 0x30) % 2 ^ 32) = ((0 : Nat) : Int) := by decide
  have h5 := fread_GUID_in_bounds { Guid.zero with w0 := 0xFFFFFFD0 }
    (long_prefix_head ++ rest) 16 (by omega)
  have hg : guid_at (long_prefix_head ++ rest) 16 =
      ⟨0x11111111, 0x11111111, 0x11111111, 0x11111111⟩ := by
    rw [guid_at_append_left _ _ _ (by rw [long_prefix_head_length])]
    decide!
  simp only [read_guid, h1, h2, hu, h3, fseek_CUR_nat, Nat.add_zero, h5, hg]

/-- C7, counterexample. The image `long_prefix_package` is long enough to
contain the identifier field at `prefix_end + 0x30 = 2 ^ 32 + 0x10`, which holds four
words `0x22222222`; the 32-bit sum `L + 0x30` wraps to zero, and `read_guid`
returns the four words `0x11111111` stored at offset `0x10` instead. -/
theorem read_guid_long_prefix_counterexample :
    prefix_end long_prefix_package + 0x30 + 16 ≤ long_prefix_package.length ∧
    guid_at long_prefix_package (prefix_end long_prefix_package + 0x30) =
      ⟨0x22222222, 0x22222222, 0x22222222, 0x22222222⟩ ∧
    (read_guid Guid.zero ⟨long_prefix_package, 0⟩).1 =
      ⟨0x11111111, 0x11111111, 0x11111111, 0x11111111⟩ ∧
    (read_guid Guid.zero ⟨long_prefix_package, 0⟩).1 ≠
      guid_at long_prefix_package (prefix_end long_prefix_package + 0x30) := by
  have hp : prefix_end long_prefix_package = 0x10 + 0xFFFFFFD0 := prefix_end_long_prefix _
  have hl : (long_prefix_head ++ List.replicate (2 ^ 32 - 16) 0).length = 2 ^ 32 + 16 := by
    rw [List.length_append, long_prefix_head_length, List.length_replicate]
    norm_num
  have hlen : long_prefix_package.length = 2 ^ 32 + 32 := by
    unfold long_prefix_package
    rw [← List.append_assoc, List.length_append, hl, List.length_replicate]
  have hg : guid_at long_prefix_package (prefix_end long_prefix_package + 0x30) =
      ⟨0x22222222, 0x22222222, 0x22222222, 0x22222222⟩ := by
    have e : prefix_end long_prefix_package + 0x30 =
        (long_prefix_head ++ List.replicate (2 ^ 32 - 16) 0).length + 0 := by
      rw [hp, hl]
      norm_num
    rw [e]
    unfold long_prefix_package
    rw [← List.append_assoc, guid_at_append_right]
    decide!
  have hr := read_guid_long_prefix (List.replicate (2 ^ 32 - 16) 0 ++ List.replicate 16 0x22)
  refine ⟨?_, hg, hr, ?_⟩
  · rw [hp, hlen]
    norm_num
  · rw [hg]
    unfold long_prefix_package
    rw [hr]
    decide

/-! ### Name table decoder -/

theorem name_records_length (img : List Nat) :
    ∀ (n off : Nat), (name_records img n off).length = n := by
  intro n
  induction n with
  | zero => intro off; rfl
  | succ n ih => intro off; simp [name_records, ih]

theorem read_name_table_loop_spec (img : List Nat) :
    ∀ (n index tmp : Nat) (acc : List (List Nat)) (off : Nat),
      name_records_in_bounds img n off = true →
      (read_name_table_loop n index tmp acc ⟨img, off⟩).1 = acc ++ name_records img n off := by
  intro n
  induction n with
  | zero => intro index tmp acc off _; simp [read_name_table_loop, name_records]
  | succ n ih =>
    intro index tmp acc off hb
    simp only [name_records_in_bounds, Bool.and_eq_true, decide_eq_true_eq] at hb
    obtain ⟨hb1, hb2⟩ := hb
    have h1 := fread_uint32_in_bounds tmp img off (by omega)
    have h2 := fread_in_bounds img (off + 4) (u32_at img off) hb1
    have hl : ((img.drop (off + 4)).take (u32_at img off)).length = u32_at img off := by
      rw [List.length_take, List.length_drop]
      omega
    have h3 : store ((img.drop (off + 4)).take (u32_at img off))
        (List.replicate (u32_at img off) 0) = (img.drop (off + 4)).take (u32_at img off) :=
      store_full _ _ (by rw [hl, List.length_replicate])
    have h4 : fseek_CUR ⟨img, off + 4 + u32_at img off⟩ 0x08 =
        ⟨img, off + 4 + u32_at img off + 8⟩ := fseek_CUR_nat _ 8
    simp only [read_name_table_loop, h1, h2, h3, h4]
    rw [ih _ _ _ _ hb2]
    simp [name_records]

/-- C8, amended. For every well-formed package byte image of fewer than `2 ^ 31`
bytes (the count and offset fields and every name record lie inside the
image), `read_name_table` takes the name count `N` from `prefix_end + 0x04` and
the table offset from `prefix_end + 0x08` and produces a table with indices
exactly `0 .. N - 1` whose entries are the texts of the `N` sequential records
at the table offset (a 32-bit length, that many text bytes, eight skipped
bytes); the table does not depend on the previous state or stream position, so
decoding the same bytes again yields the same table. -/
theorem read_name_table_spec (s : State) (img : List Nat) (pos : Nat)
    (hsmall : img.length < 2 ^ 31)
    (hhdr : prefix_end img + 0x0C ≤ img.length)
    (hrec : name_records_in_bounds img (u32_at img (prefix_end img + 0x04))
      (u32_at img (prefix_end img + 0x08)) = true) :
    (read_name_table s ⟨img, pos⟩).1.name_table_size = u32_at img (prefix_end img + 0x04) ∧
    (read_name_table s ⟨img, pos⟩).1.name_table =
      name_records img (u32_at img (prefix_end img + 0x04))
        (u32_at img (prefix_end img + 0x08)) ∧
    (read_name_table s ⟨img, pos⟩).1.name_table.length = u32_at img (prefix_end img + 0x04) ∧
    ∀ (s2 : State) (pos2 : Nat),
      (read_name_table (read_name_table s ⟨img, pos⟩).1 ⟨img, pos2⟩).1.name_table =
        (read_name_table s ⟨img, pos⟩).1.name_table ∧
      (read_name_table s2 ⟨img, pos2⟩).1.name_table =
        (read_name_table s ⟨img, pos⟩).1.name_table := by
  have key : ∀ (t : State) (p : Nat),
      (read_name_table t ⟨img, p⟩).1.name_table_size = u32_at img (prefix_end img + 0x04) ∧
      (read_name_table t ⟨img, p⟩).1.name_table =
        name_records img (u32_at img (prefix_end img + 0x04))
          (u32_at img (prefix_end img + 0x08)) := by
    intro t p
    unfold prefix_end at hhdr hrec ⊢
    have h1 : fseek_SET ⟨img, p⟩ 0x0C = ⟨img, 0x0C⟩ := fseek_SET_nat _ 12
    have h2 := fread_uint32_in_bounds 0 img 0x0C (by omega)
    have h3 : to_int32 ((u32_at img 0x0C + 0x04) % 2 ^ 32) =
        ((u32_at img 0x0C + 0x04 : Nat) : Int) := to_int32_small _ (by omega)
    have hp1 : 0x0C + 4 + (u32_at img 0x0C + 0x04) = 0x10 + u32_at img 0x0C + 0x04 := by omega
    have h4 := fread_uint32_in_bounds t.name_table_size img (0x10 + u32_at img 0x0C + 0x04)
      (by omega)
    have hp2 : 0x10 + u32_at img 0x0C + 0x04 + 4 = 0x10 + u32_at img 0x0C + 0x08 := by omega
    have h5 := fread_uint32_in_bounds (u32_at img 0x0C) img (0x10 + u32_at img 0x0C + 0x08)
      (by omega)
    simp only [read_name_table, h1, h2, h3, fseek_CUR_nat, hp1, h4, hp2, h5]
    refine ⟨trivial, ?_⟩
    cases hN : u32_at img (0x10 + u32_at img 0x0C + 0x04) with
    | zero => simp [read_name_table_loop, name_records]
    | succ m =>
      rw [hN] at hrec
      have hT : u32_at img (0x10 + u32_at img 0x0C + 0x08) < 2 ^ 31 := by
        simp only [name_records_in_bounds, Bool.and_eq_true, decide_eq_true_eq] at hrec
        omega
      have h6 : to_int32 (u32_at img (0x10 + u32_at img 0x0C + 0x08)) =
          ((u32_at img (0x10 + u32_at img 0x0C + 0x08) : Nat) : Int) := by
        rw [to_int32, if_pos hT]
      rw [h6, fseek_SET_nat]
      simp only
      rw [read_name_table_loop_spec img _ _ _ _ _ hrec]
      simp
  refine ⟨(key s pos).1, (key s pos).2, ?_, ?_⟩
  · rw [(key s pos).2, name_records_length]
  · intro s2 pos2
    exact ⟨by rw [(key _ pos2).2, (key s pos).2], by rw [(key s2 pos2).2, (key s pos).2]⟩

/-- Witness of C8 (amended): the five names of the sample package. -/
theorem read_name_table_spec_witness :
    (read_name_table {} ⟨sample_package, 0⟩).1.name_table =
      [str "A" ++ [0], str "B" ++ [0], str "C" ++ [0], str "Core" ++ [0],
        str "Package" ++ [0]] :=
  (read_name_table_spec {} sample_package 0 (by decide!) (by decide!) (by decide!)).2.1.trans
    (by decide!)

theorem take_drop_append_left (a r : List Nat) (off n : Nat) (h : off + n ≤ a.length) :
    ((a ++ r).drop off).take n = (a.drop off).take n := by
  rw [List.drop_append_of_le_length (by omega),
    List.take_append_of_le_length (by rw [List.length_drop]; omega)]

theorem long_name_head_length : long_name_head.length = 41 := by decide!

theorem read_name_table_long_prefix (s : State) (rest : List Nat) :
    (read_name_table s ⟨long_name_head ++ rest, 0⟩).1.name_table_size = 0 ∧
    (read_name_table s ⟨long_name_head ++ rest, 0⟩).1.name_table = [] := by
  have hlen : 41 ≤ (long_name_head ++ rest).length := by
    rw [List.length_append, long_name_head_length]
    omega
  have h1 : fseek_SET ⟨long_name_head ++ rest, 0⟩ 0x0C = ⟨long_name_head ++ rest, 0x0C⟩ :=
    fseek_SET_nat _ 12
  have h2 := fread_uint32_in_bounds 0 (long_name_head ++ rest) 0x0C (by omega)
  have hu : u32_at (long_name_head ++ rest) 0x0C = 0xFFFFFFFC := by
    rw [u32_at_append_left _ _ _ (by rw [long_name_head_length]; omega)]
    decide!
  have h3 : to_int32 ((0xFFFFFFFC + 0x04) % 2 ^ 32) = ((0 : Nat) : Int) := by decide
  have h4 := fread_uint32_in_bounds s.name_table_size (long_name_head ++ rest) 16 (by omega)
  have hu4 : u32_at (long_name_head ++ rest) 16 = 0 := by
    rw [u32_at_append_left _ _ _ (by rw [long_name_head_length]; omega)]
    decide!
  have h5 := fread_uint32_in_bounds 0xFFFFFFFC (long_name_head ++ rest) 20 (by omega)
  have hu5 : u32_at (long_name_head ++ rest) 20 = 0 := by
    rw [u32_at_append_left _ _ _ (by rw [long_name_head_length]; omega)]
    decide!
  simp only [read_name_table, h1, h2, hu, h3, fseek_CUR_nat, Nat.add_zero, h4, hu4, h5, hu5]
  exact ⟨trivial, rfl⟩

/-- C8, counterexample. In `long_name_package` every field the format
description names lies inside the image: the name count 1 at `prefix_end + 0x04`,
the table offset 24 at `prefix_end + 0x08`, and at offset 24 one record with the
text `Core`.  The 32-bit sum `L + 0x04` wraps to zero, `read_name_table` takes
count and offset from `0x10` and `0x14`, and the decoded table is empty. -/
theorem read_name_table_long_prefix_counterexample :
    prefix_end long_name_package + 0x0C ≤ long_name_package.length ∧
    u32_at long_name_package (prefix_end long_name_package + 0x04) = 1 ∧
    u32_at long_name_package (prefix_end long_name_package + 0x08) = 24 ∧
    name_records_in_bounds long_name_package 1 24 = true ∧
    name_records long_name_package 1 24 = [str "Core" ++ [0]] ∧
    (read_name_table {} ⟨long_name_package, 0⟩).1.name_table_size = 0 ∧
    (read_name_table {} ⟨long_name_package, 0⟩).1.name_table = [] ∧
    (read_name_table {} ⟨long_name_package, 0⟩).1.name_table ≠
      name_records long_name_package
        (u32_at long_name_package (prefix_end long_name_package + 0x04))
        (u32_at long_name_package (prefix_end long_name_package + 0x08)) := by
  have hp : prefix_end long_name_package = 0x10 + 0xFFFFFFFC := by
    unfold prefix_end long_name_package
    rw [u32_at_append_left _ _ _ (by rw [long_name_head_length]; omega)]
    have : u32_at long_name_head 0x0C = 0xFFFFFFFC := by decide!
    rw [this]
  have hl : (long_name_head ++ List.replicate (2 ^ 32 - 25) 0).length = 2 ^ 32 + 16 := by
    rw [List.length_append, long_name_head_length, List.length_replicate]
    norm_num
  have hlen : long_name_package.length = 2 ^ 32 + 24 := by
    unfold long_name_package
    rw [← List.append_assoc, List.length_append, hl]
    rfl
  have h24 : u32_at long_name_package 24 = 5 := by
    unfold long_name_package
    rw [u32_at_append_left _ _ _ (by rw [long_name_head_length]; omega)]
    decide!
  have hN : u32_at long_name_package (prefix_end long_name_package + 0x04) = 1 := by
    have e : prefix_end long_name_package + 0x04 =
        (long_name_head ++ List.replicate (2 ^ 32 - 25) 0).length + 0 := by
      rw [hp, hl]
      norm_num
    rw [e]
    unfold long_name_package
    rw [← List.append_assoc, u32_at_append_right]
    decide!
  have hT : u32_at long_name_package (prefix_end long_name_package + 0x08) = 24 := by
    have e : prefix_end long_name_package + 0x08 =
        (long_name_head ++ List.replicate (2 ^ 32 - 25) 0).length + 4 := by
      rw [hp, hl]
      norm_num
    rw [e]
    unfold long_name_package
    rw [← List.append_assoc, u32_at_append_right]
    decide!
  have hr := read_name_table_long_prefix {}
    (List.replicate (2 ^ 32 - 25) 0 ++ (le_bytes 1 ++ le_bytes 24))
  refine ⟨?_, hN, hT, ?_, ?_, hr.1, hr.2, ?_⟩
  · rw [hp, hlen]
    norm_num
  · simp only [name_records_in_bounds, h24, hlen, Bool.and_true, decide_eq_true_eq]
    norm_num
  · simp only [name_records, h24]
    unfold long_name_package
    rw [take_drop_append_left _ _ _ _ (by rw [long_name_head_length]; omega)]
    decide!
  · rw [hN, hT]
    have h0 : (read_name_table {} ⟨long_name_package, 0⟩).1.name_table = [] := hr.2
    rw [h0]
    simp only [name_records]
    exact fun h => List.noConfusion h

/-! ### Decoder of the table of imports -/

theorem import_records_length (img : List Nat) :
    ∀ (n off : Nat), (import_records img n off).length = n := by
  intro n
  induction n with
  | zero => intro off; rfl
  | succ n ih => intro off; simp [import_records, ih]

theorem import_records_getElem? (img : List Nat) :
    ∀ (n off i : Nat), i < n →
      (import_records img n off)[i]? = some (import_record_at img (off + 28 * i)) := by
  intro n
  induction n with
  | zero => intro off i h; omega
  | succ n ih =>
    intro off i h
    cases i with
    | zero => simp [import_records]
    | succ j =>
      simp only [import_records, List.getElem?_cons_succ]
      rw [ih (off + 28) j (by omega)]
      have : off + 28 + 28 * j = off + 28 * (j + 1) := by omega
      rw [this]

theorem read_import_table_loop_spec (img : List Nat) :
    ∀ (n tmp : Nat) (acc : List UDKImport) (pk off : Nat),
      (∀ i, i < n → off + 28 * i + 24 ≤ img.length) →
      read_import_table_loop n tmp acc pk ⟨img, off⟩ =
        (acc ++ import_records img n off,
          pk + (root_imports (import_records img n off)).length,
          ⟨img, off + 28 * n⟩) := by
  intro n
  induction n with
  | zero => intro tmp acc pk off _; simp [read_import_table_loop, import_records, root_imports]
  | succ n ih =>
    intro tmp acc pk off hb
    have hb0 := hb 0 (by omega)
    have hbn : ∀ i, i < n → off + 28 + 28 * i + 24 ≤ img.length := by
      intro i hi
      have := hb (i + 1) (by omega)
      omega
    have h1 := fread_uint32_in_bounds 0 img off (by omega)
    have e1 : fseek_CUR ⟨img, off + 4⟩ 0x04 = ⟨img, off + 8⟩ := fseek_CUR_nat _ 4
    have h2 := fread_uint32_in_bounds 0 img (off + 8) (by omega)
    have e2 : fseek_CUR ⟨img, off + 8 + 4⟩ 0x04 = ⟨img, off + 16⟩ := fseek_CUR_nat _ 4
    have h3 := fread_int32_in_bounds 0 img (off + 16) (by omega)
    have h4 := fread_uint32_in_bounds 0 img (off + 16 + 4) (by omega)
    have e3 : fseek_CUR ⟨img, off + 16 + 4 + 4⟩ 0x04 = ⟨img, off + 28⟩ := fseek_CUR_nat _ 4
    simp only [read_import_table_loop, read_import_record, h1, e1, h2, e2, h3, h4, e3]
    rw [ih _ _ _ _ hbn]
    have hrec : (⟨u32_at img off, u32_at img (off + 8), to_int32 (u32_at img (off + 16)),
        u32_at img (off + 16 + 4)⟩ : UDKImport) = import_record_at img off := rfl
    rw [hrec]
    have hpos : off + 28 + 28 * n = off + 28 * (n + 1) := by omega
    by_cases hr : (import_record_at img off).package_reference = 0
    · have hroot : root_imports (import_records img (n + 1) off) =
          import_record_at img off :: root_imports (import_records img n (off + 28)) := by
        simp [root_imports, import_records, hr]
      have hr2 : to_int32 (u32_at img (off + 16)) = 0 := hr
      rw [hroot]
      simp only [hr2, if_true, import_records, List.append_assoc, List.singleton_append,
        List.length_cons, hpos, Prod.mk.injEq, true_and, and_true]
      omega
    · have hroot : root_imports (import_records img (n + 1) off) =
          root_imports (import_records img n (off + 28)) := by
        simp [root_imports, import_records, hr]
      have hr2 : ¬ to_int32 (u32_at img (off + 16)) = 0 := hr
      rw [hroot]
      simp only [hr2, if_false, import_records, List.append_assoc, List.singleton_append,
        hpos]

/-- C9, amended. For every well-formed package byte image of fewer than `2 ^ 31`
bytes (the count and offset fields and every field read from a record lie
inside the image), `read_import_table` takes the count `M` from
`prefix_end + 0x14` and the table offset `T` from `prefix_end + 0x18` and produces
`M` records in file order, record `i` being decoded from the 28 bytes at
`T + 28 * i`: `package_name_index` at `+0`, `class_name_index` at `+8`, the signed
`package_reference` at `+16`, `object_name_index` at `+20`, the bytes at `+4`, `+12` and
`+24` being skipped. -/
theorem read_import_table_spec (s : State) (img : List Nat) (pos : Nat)
    (hsmall : img.length < 2 ^ 31)
    (hhdr : prefix_end img + 0x1C ≤ img.length)
    (hrec : ∀ i, i < u32_at img (prefix_end img + 0x14) →
      u32_at img (prefix_end img + 0x18) + 28 * i + 24 ≤ img.length) :
    (read_import_table s ⟨img, pos⟩).1.import_table_size =
      u32_at img (prefix_end img + 0x14) ∧
    (read_import_table s ⟨img, pos⟩).1.import_table.length =
      u32_at img (prefix_end img + 0x14) ∧
    ∀ i, i < u32_at img (prefix_end img + 0x14) →
      ∃ r, (read_import_table s ⟨img, pos⟩).1.import_table[i]? = some r ∧
        r.package_name_index = u32_at img (u32_at img (prefix_end img + 0x18) + 28 * i) ∧
        r.class_name_index = u32_at img (u32_at img (prefix_end img + 0x18) + 28 * i + 8) ∧
        r.package_reference =
          to_int32 (u32_at img (u32_at img (prefix_end img + 0x18) + 28 * i + 16)) ∧
        r.object_name_index = u32_at img (u32_at img (prefix_end img + 0x18) + 28 * i + 20) := by
  have key : (read_import_table s ⟨img, pos⟩).1.import_table_size =
        u32_at img (prefix_end img + 0x14) ∧
      (read_import_table s ⟨img, pos⟩).1.import_table =
        import_records img (u32_at img (prefix_end img + 0x14))
          (u32_at img (prefix_end img + 0x18)) := by
    unfold prefix_end at hhdr hrec ⊢
    have h1 : fseek_SET ⟨img, pos⟩ 0x0C = ⟨img, 0x0C⟩ := fseek_SET_nat _ 12
    have h2 := fread_uint32_in_bounds 0 img 0x0C (by omega)
    have h3 : to_int32 ((u32_at img 0x0C + 0x14) % 2 ^ 32) =
        ((u32_at img 0x0C + 0x14 : Nat) : Int) := to_int32_small _ (by omega)
    have hp1 : 0x0C + 4 + (u32_at img 0x0C + 0x14) = 0x10 + u32_at img 0x0C + 0x14 := by omega
    have h4 := fread_uint32_in_bounds s.import_table_size img (0x10 + u32_at img 0x0C + 0x14)
      (by omega)
    have hp2 : 0x10 + u32_at img 0x0C + 0x14 + 4 = 0x10 + u32_at img 0x0C + 0x18 := by omega
    have h5 := fread_uint32_in_bounds (u32_at img 0x0C) img (0x10 + u32_at img 0x0C + 0x18)
      (by omega)
    simp only [read_import_table, h1, h2, h3, fseek_CUR_nat, hp1, h4, hp2, h5]
    refine ⟨trivial, ?_⟩
    cases hM : u32_at img (0x10 + u32_at img 0x0C + 0x14) with
    | zero => simp [read_import_table_loop, import_records]
    | succ m =>
      rw [hM] at hrec
      have hT : u32_at img (0x10 + u32_at img 0x0C + 0x18) < 2 ^ 31 := by
        have := hrec 0 (by omega)
        omega
      have h6 : to_int32 (u32_at img (0x10 + u32_at img 0x0C + 0x18)) =
          ((u32_at img (0x10 + u32_at img 0x0C + 0x18) : Nat) : Int) := by
        rw [to_int32, if_pos hT]
      rw [h6, fseek_SET_nat]
      simp only
      rw [read_import_table_loop_spec img _ _ _ _ _ hrec]
      simp
  refine ⟨key.1, by rw [key.2, import_records_length], ?_⟩
  intro i hi
  refine ⟨import_record_at img (u32_at img (prefix_end img + 0x18) + 28 * i), ?_,
    rfl, rfl, rfl, rfl⟩
  rw [key.2, import_records_getElem? img _ _ i hi]

/-- Witness of C9 (amended): the three records of the sample package. -/
theorem read_import_table_spec_witness :
    (read_import_table {} ⟨sample_package, 0⟩).1.import_table.length = 3 ∧
    (read_import_table {} ⟨sample_package, 0⟩).1.import_table =
      [⟨3, 4, 0, 0⟩, ⟨3, 4, 0, 1⟩, ⟨3, 4, 5, 2⟩] :=
  ⟨(read_import_table_spec {} sample_package 0 (by decide!) (by decide!)
      (by decide!)).2.1.trans (by decide!), by decide!⟩

theorem long_import_head_length : long_import_head.length = 52 := by decide!

theorem read_import_table_long_prefix (s : State) (rest : List Nat) :
    (read_import_table s ⟨long_import_head ++ rest, 0⟩).1.import_table_size = 0 ∧
    (read_import_table s ⟨long_import_head ++ rest, 0⟩).1.import_table = [] := by
  have hlen : 52 ≤ (long_import_head ++ rest).length := by
    rw [List.length_append, long_import_head_length]
    omega
  have h1 : fseek_SET ⟨long_import_head ++ rest, 0⟩ 0x0C = ⟨long_import_head ++ rest, 0x0C⟩ :=
    fseek_SET_nat _ 12
  have h2 := fread_uint32_in_bounds 0 (long_import_head ++ rest) 0x0C (by omega)
  have hu : u32_at (long_import_head ++ rest) 0x0C = 0xFFFFFFEC := by
    rw [u32_at_append_left _ _ _ (by rw [long_import_head_length]; omega)]
    decide!
  have h3 : to_int32 ((0xFFFFFFEC + 0x14) % 2 ^ 32) = ((0 : Nat) : Int) := by decide
  have h4 := fread_uint32_in_bounds s.import_table_size (long_import_head ++ rest) 16
    (by omega)
  have hu4 : u32_at (long_import_head ++ rest) 16 = 0 := by
    rw [u32_at_append_left _ _ _ (by rw [long_import_head_length]; omega)]
    decide!
  have h5 := fread_uint32_in_bounds 0xFFFFFFEC (long_import_head ++ rest) 20 (by omega)
  have hu5 : u32_at (long_import_head ++ rest) 20 = 0 := by
    rw [u32_at_append_left _ _ _ (by rw [long_import_head_length]; omega)]
    decide!
  simp only [read_import_table, h1, h2, hu, h3, fseek_CUR_nat, Nat.add_zero, h4, hu4, h5, hu5]
  exact ⟨trivial, rfl⟩

/-- C9, counterexample. In `long_import_package` every field the format
description names lies inside the image: the record count 1 at
`prefix_end + 0x14`, the table offset 24 at `prefix_end + 0x18`, and at offset 24
one 28-byte record.  The 32-bit sum `L + 0x14` wraps to zero, `read_import_table`
takes count and offset from `0x10` and `0x14`, and no record is decoded. -/
theorem read_import_table_long_prefix_counterexample :
    prefix_end long_import_package + 0x1C ≤ long_import_package.length ∧
    u32_at long_import_package (prefix_end long_import_package + 0x14) = 1 ∧
    u32_at long_import_package (prefix_end long_import_package + 0x18) = 24 ∧
    24 + 28 ≤ long_import_package.length ∧
    import_record_at long_import_package 24 = ⟨3, 4, 0, 1⟩ ∧
    (read_import_table {} ⟨long_import_package, 0⟩).1.import_table_size = 0 ∧
    (read_import_table {} ⟨long_import_package, 0⟩).1.import_table = [] ∧
    (read_import_table {} ⟨long_import_package, 0⟩).1.import_table.length ≠
      u32_at long_import_package (prefix_end long_import_package + 0x14) := by
  have hp : prefix_end long_import_package = 0x10 + 0xFFFFFFEC := by
    unfold prefix_end long_import_package
    rw [u32_at_append_left _ _ _ (by rw [long_import_head_length]; omega)]
    have : u32_at long_import_head 0x0C = 0xFFFFFFEC := by decide!
    rw [this]
  have hl : (long_import_head ++ List.replicate (2 ^ 32 - 36) 0).length = 2 ^ 32 + 16 := by
    rw [List.length_append, long_import_head_length, List.length_replicate]
    norm_num
  have hlen : long_import_package.length = 2 ^ 32 + 24 := by
    unfold long_import_package
    rw [← List.append_assoc, List.length_append, hl]
    rfl
  have hM : u32_at long_import_package (prefix_end long_import_package + 0x14) = 1 := by
    have e : prefix_end long_import_package + 0x14 =
        (long_import_head ++ List.replicate (2 ^ 32 - 36) 0).length + 0 := by
      rw [hp, hl]
      norm_num
    rw [e]
    unfold long_import_package
    rw [← List.append_assoc, u32_at_append_right]
    decide!
  have hT : u32_at long_import_package (prefix_end long_import_package + 0x18) = 24 := by
    have e : prefix_end long_import_package + 0x18 =
        (long_import_head ++ List.replicate (2 ^ 32 - 36) 0).length + 4 := by
      rw [hp, hl]
      norm_num
    rw [e]
    unfold long_import_package
    rw [← List.append_assoc, u32_at_append_right]
    decide!
  have hrec : import_record_at long_import_package 24 = ⟨3, 4, 0, 1⟩ := by
    unfold import_record_at long_import_package
    rw [u32_at_append_left _ _ 24 (by rw [long_import_head_length]; omega),
      u32_at_append_left _ _ (24 + 8) (by rw [long_import_head_length]; omega),
      u32_at_append_left _ _ (24 + 16) (by rw [long_import_head_length]; omega),
      u32_at_append_left _ _ (24 + 20) (by rw [long_import_head_length]; omega)]
    decide!
  have hr := read_import_table_long_prefix {}
    (List.replicate (2 ^ 32 - 36) 0 ++ (le_bytes 1 ++ le_bytes 24))
  refine ⟨?_, hM, hT, ?_, hrec, hr.1, hr.2, ?_⟩
  · rw [hp, hlen]
    norm_num
  · rw [hlen]
    norm_num
  · have h0 : (read_import_table {} ⟨long_import_package, 0⟩).1.import_table = [] := hr.2
    rw [hM, h0]
    decide

/-! ### The counter of root imports -/

/-- C10, the failing input evaluated. The first decode of the sample package from
the initial state counts its two root records; a second decode of the same
image in the same process leaves the counter at 4 while the decoded table
still has two root records, and `init_package_table`, sized by the counter,
then reads past the end of the table. -/
theorem read_import_table_twice :
    (read_import_table {} ⟨sample_package, 0⟩).1.packages_imported = 2 ∧
    (root_imports (read_import_table {} ⟨sample_package, 0⟩).1.import_table).length = 2 ∧
    (read_import_table (read_import_table {} ⟨sample_package, 0⟩).1
      ⟨sample_package, 0⟩).1.packages_imported = 4 ∧
    (root_imports (read_import_table (read_import_table {} ⟨sample_package, 0⟩).1
      ⟨sample_package, 0⟩).1.import_table).length = 2 ∧
    init_package_table (read_import_table (read_import_table {} ⟨sample_package, 0⟩).1
      ⟨sample_package, 0⟩).1 = none := by
  decide!

/-! ### The resolver as a fold over the files of the walk -/

theorem resolve_files_append (s : State) (a b : List Visit) :
    resolve_files s (a ++ b) = resolve_files (resolve_files s a) b := by
  simp [resolve_files, List.foldl_append]

mutual
theorem build_package_table_eq_walk (directory : List Nat) :
    ∀ (entries : List DirEntry) (s : State),
      build_package_table s directory entries = resolve_files s (walk_files directory entries)
  | [], s => by simp [build_package_table, walk_files, resolve_files]
  | e :: rest, s => by
    rw [build_package_table, walk_files, resolve_files_append,
      build_package_table_entry_eq_walk directory e s,
      build_package_table_eq_walk directory rest]
theorem build_package_table_entry_eq_walk (directory : List Nat) :
    ∀ (e : DirEntry) (s : State),
      build_package_table_entry s directory e = resolve_files s (walk_entry directory e)
  | .file cFileName contents, s => by
    simp [build_package_table_entry, walk_entry, resolve_files]
  | .dir cFileName entries, s => by
    rw [build_package_table_entry, walk_entry]
    split
    · exact build_package_table_eq_walk _ entries s
    · simp [resolve_files]
end

theorem build_package_table_loop_eq (s : State) (directory cFileName : List Nat)
    (contents : Option (List Nat)) (tmp : Nat) (extension : UDKPackage_Extension) :
    ∀ (n tmp_index : Nat),
      build_package_table_loop s directory cFileName contents tmp extension n tmp_index =
        match matching_entry s cFileName tmp n tmp_index with
        | some i => resolve_package s directory cFileName contents extension i
        | none => s := by
  intro n
  induction n with
  | zero => intro tmp_index; simp [build_package_table_loop, matching_entry]
  | succ n ih =>
    intro tmp_index
    rw [build_package_table_loop, matching_entry]
    by_cases h : streql_2ptr cFileName tmp (package_name_of s tmp_index) = true
    · simp [h]
    · simp only [h, Bool.false_eq_true, if_false]
      exact ih (tmp_index + 1)

theorem build_package_table_file_eq (s : State) (directory cFileName : List Nat)
    (contents : Option (List Nat)) :
    build_package_table_file s directory cFileName contents =
      match file_target s cFileName with
      | some (i, extension) => resolve_package s directory cFileName contents extension i
      | none => s := by
  unfold build_package_table_file file_target
  rcases hfe : find_extension cFileName with ⟨_ | tmp, extension⟩
  · simp
  · simp only [build_package_table_loop_eq]
    cases matching_entry s cFileName tmp s.packages_imported 0 <;> simp

theorem sameKeys_refl (s : State) : SameKeys s s := ⟨rfl, rfl, rfl⟩

theorem sameKeys_trans {s t u : State} (h1 : SameKeys s t) (h2 : SameKeys t u) :
    SameKeys s u :=
  ⟨h2.name_table.trans h1.name_table, h2.packages_imported.trans h1.packages_imported,
    h2.name_index.trans h1.name_index⟩

theorem sameKeys_length {s t : State} (h : SameKeys s t) :
    t.package_table.length = s.package_table.length := by
  have := congrArg List.length h.name_index
  simpa using this

theorem sameKeys_name_index_getD {s t : State} (h : SameKeys s t) (i : Nat) :
    (t.package_table.getD i default).name_index =
      (s.package_table.getD i default).name_index := by
  have h1 : (t.package_table.map (fun p => p.name_index)).getD i (default : UDKPackage).name_index
      = (t.package_table.getD i default).name_index :=
    List.getD_map t.package_table default (fun p : UDKPackage => p.name_index)
  have h2 : (s.package_table.map (fun p => p.name_index)).getD i (default : UDKPackage).name_index
      = (s.package_table.getD i default).name_index :=
    List.getD_map s.package_table default (fun p : UDKPackage => p.name_index)
  rw [h.name_index, h2] at h1
  exact h1.symm

theorem sameKeys_package_name_of {s t : State} (h : SameKeys s t) (i : Nat) :
    package_name_of t i = package_name_of s i := by
  unfold package_name_of
  rw [h.name_table, sameKeys_name_index_getD h]

theorem sameKeys_matching_entry {s t : State} (h : SameKeys s t) (cFileName : List Nat)
    (tmp : Nat) :
    ∀ (n tmp_index : Nat),
      matching_entry t cFileName tmp n tmp_index = matching_entry s cFileName tmp n tmp_index := by
  intro n
  induction n with
  | zero => intro tmp_index; rfl
  | succ n ih =>
    intro tmp_index
    simp only [matching_entry, sameKeys_package_name_of h, ih]

theorem sameKeys_file_target {s t : State} (h : SameKeys s t) (cFileName : List Nat) :
    file_target t cFileName = file_target s cFileName := by
  unfold file_target
  rcases find_extension cFileName with ⟨_ | tmp, extension⟩
  · rfl
  · simp only [sameKeys_matching_entry h, h.packages_imported]

theorem resolve_package_keys (s : State) (directory cFileName : List Nat)
    (contents : Option (List Nat)) (extension : UDKPackage_Extension) (i : Nat) :
    SameKeys s (resolve_package s directory cFileName contents extension i) := by
  refine ⟨rfl, rfl, ?_⟩
  simp only [resolve_package, List.map_set]
  apply List.ext_getElem?
  intro k
  by_cases hk : i = k
  · subst hk
    by_cases hl : i < (List.map (fun p => p.name_index) s.package_table).length
    · rw [List.getElem?_set_self hl]
      have hl2 : i < s.package_table.length := by simpa using hl
      simp [List.getElem?_map, List.getElem?_eq_getElem hl2]
    · rw [List.set_eq_of_length_le (by omega)]
  · rw [List.getElem?_set_ne hk]

theorem build_package_table_file_keys (s : State) (directory cFileName : List Nat)
    (contents : Option (List Nat)) :
    SameKeys s (build_package_table_file s directory cFileName contents) := by
  rw [build_package_table_file_eq]
  cases file_target s cFileName with
  | none => exact sameKeys_refl s
  | some x => exact resolve_package_keys s directory cFileName contents x.2 x.1

theorem resolve_files_keys : ∀ (files : List Visit) (s : State),
    SameKeys s (resolve_files s files) := by
  intro files
  induction files with
  | nil => intro s; exact sameKeys_refl s
  | cons v rest ih =>
    intro s
    exact sameKeys_trans
      (build_package_table_file_keys s v.directory v.cFileName v.contents)
      (ih (build_package_table_file s v.directory v.cFileName v.contents))

theorem resolve_files_untouched (i : Nat) : ∀ (files : List Visit) (s : State),
    (∀ w ∈ files, ∀ e, file_target s w.cFileName ≠ some (i, e)) →
    (resolve_files s files).package_table[i]? = s.package_table[i]? := by
  intro files
  induction files with
  | nil => intro s _; rfl
  | cons v rest ih =>
    intro s h
    have hk := build_package_table_file_keys s v.directory v.cFileName v.contents
    have hrest : ∀ w ∈ rest, ∀ e,
        file_target (build_package_table_file s v.directory v.cFileName v.contents)
          w.cFileName ≠ some (i, e) := by
      intro w hw e
      rw [sameKeys_file_target hk]
      exact h w (List.mem_cons_of_mem _ hw) e
    have hstep : (build_package_table_file s v.directory v.cFileName v.contents).package_table[i]?
        = s.package_table[i]? := by
      rw [build_package_table_file_eq]
      have hv := h v (List.mem_cons_self _ _)
      cases ht : file_target s v.cFileName with
      | none => rfl
      | some x =>
        obtain ⟨j, e⟩ := x
        have hne : j ≠ i := by
          intro hji
          subst hji
          exact hv e ht
        simp only [resolve_package]
        rw [List.getElem?_set_ne hne]
    have := ih (build_package_table_file s v.directory v.cFileName v.contents) hrest
    simp only [resolve_files, List.foldl_cons] at this ⊢
    rw [this, hstep]

/-! ### The claims on the resolver -/

/-- C4. The end-to-end scenario: the baseline holds `0x11111111 x 4`; the sample
package names the root imports `A` and `B` and the non-root import `C`
(reference 5); the tree holds `a.upk` (`0x11111111 x 4`) and `Maps\b.u`
(`0x22222222 x 4`).  After `init_package_table`, `build_package_table` and
`build_dependency_list` the dependency list has exactly one entry, the table
entry of `B`, whose path is the discovered `b.u` and whose extension is `ext_U`. -/
theorem end_to_end_scenario :
    scenario_session.against_list = [⟨0x11111111, 0x11111111, 0x11111111, 0x11111111⟩] ∧
    scenario_session.import_table = [⟨3, 4, 0, 0⟩, ⟨3, 4, 0, 1⟩, ⟨3, 4, 5, 2⟩] ∧
    scenario_session.name_table.take 3 = [str "A" ++ [0], str "B" ++ [0], str "C" ++ [0]] ∧
    (resolve_dependencies scenario_session (str "game\\*") scenario_tree).map
      dependency_list_entries = some [1] ∧
    (resolve_dependencies scenario_session (str "game\\*") scenario_tree).map
      (fun s => s.dependency_list_size) = some 1 ∧
    (resolve_dependencies scenario_session (str "game\\*") scenario_tree).map
      (fun s => s.package_table) =
      some [⟨0, ⟨0x11111111, 0x11111111, 0x11111111, 0x11111111⟩, some (str "game\\a.upk"),
              .ext_UPK⟩,
            ⟨1, ⟨0x22222222, 0x22222222, 0x22222222, 0x22222222⟩,
              some (str "game\\Maps\\b.u"), .ext_U⟩] := by
  decide!

/-- C5, the failing input evaluated. For the entry named `Foo`, the files
`foo.upk` and `Foo.u` are recognised and resolve the entry (the base name is
compared ignoring case), but `FOO.UDK` has no recognised suffix, because
`str_find_suffix` compares the suffix bytes exactly, and leaves the state as it
was; `FOO.udk` resolves the entry. -/
theorem upper_case_suffix_not_recognised :
    (build_package_table_file foo_session (str "game\\*") (str "foo.upk")
      (some (package_with_guid ⟨1, 2, 3, 4⟩))).package_table =
      [⟨0, ⟨1, 2, 3, 4⟩, some (str "game\\foo.upk"), .ext_UPK⟩] ∧
    (build_package_table_file foo_session (str "game\\*") (str "Foo.u")
      (some (package_with_guid ⟨1, 2, 3, 4⟩))).package_table =
      [⟨0, ⟨1, 2, 3, 4⟩, some (str "game\\Foo.u"), .ext_U⟩] ∧
    (build_package_table_file foo_session (str "game\\*") (str "FOO.udk")
      (some (package_with_guid ⟨1, 2, 3, 4⟩))).package_table =
      [⟨0, ⟨1, 2, 3, 4⟩, some (str "game\\FOO.udk"), .ext_UDK⟩] ∧
    str_find_suffix (str "FOO.UDK") (str ".upk") = none ∧
    str_find_suffix (str "FOO.UDK") (str ".udk") = none ∧
    str_find_suffix (str "FOO.UDK") (str ".u") = none ∧
    build_package_table_file foo_session (str "game\\*") (str "FOO.UDK")
      (some (package_with_guid ⟨1, 2, 3, 4⟩)) = foo_session := by
  decide!

/-- C6, counterexample. With `Foo.upk` met before `Foo.udk`, the first file
resolves the entry `Foo`, and the second, met later, resolves it again: after
`build_package_table` the entry holds the extension, the path and the
identifier of the later file `Foo.udk`. -/
theorem later_file_overwrites :
    (build_package_table foo_session (str "game\\*") (foo_tree.take 1)).package_table =
      [⟨0, ⟨0x11111111, 0x11111111, 0x11111111, 0x11111111⟩, some (str "game\\Foo.upk"),
        .ext_UPK⟩] ∧
    (build_package_table foo_session (str "game\\*") foo_tree).package_table =
      [⟨0, ⟨0x22222222, 0x22222222, 0x22222222, 0x22222222⟩, some (str "game\\Foo.udk"),
        .ext_UDK⟩] ∧
    (build_package_table foo_session (str "game\\*") foo_tree).package_table ≠
      (build_package_table foo_session (str "game\\*") (foo_tree.take 1)).package_table := by
  decide!

/-- C6, amended. Last match in walk order wins: for every state, directory tree
and table entry `i`, if the walk meets a recognised file `v` whose base name
matches entry `i` (as the first entry in table order with that name) and no file
met after `v` matches entry `i`, then after `build_package_table` entry `i`
holds the extension recorded for `v` and the path of `v`, whatever files were
met before `v`, and its name index is unchanged.  Its identifier is what
`read_guid` leaves in the buffer of the entry when it reads `v` into the buffer
as the files met before `v` left it, and that buffer unchanged when `v` cannot
be opened; it is the identifier of `v` itself when `v` has fewer than `2 ^ 31`
bytes and holds its identifier within its bytes, so that the earlier files
leave no trace then. -/
theorem build_package_table_last_match (s : State) (directory : List Nat)
    (entries : List DirEntry) (pre post : List Visit) (v : Visit) (i : Nat)
    (extension : UDKPackage_Extension)
    (hwalk : walk_files directory entries = pre ++ v :: post)
    (hi : i < s.package_table.length)
    (hv : file_target s v.cFileName = some (i, extension))
    (hpost : ∀ w ∈ post, ∀ e, file_target s w.cFileName ≠ some (i, e)) :
    (build_package_table s directory entries).package_table[i]? =
      some { name_index := (s.package_table.getD i default).name_index,
             GUID :=
               match v.contents with
               | some data =>
                 (read_guid ((resolve_files s pre).package_table.getD i default).GUID
                   ⟨data, 0⟩).1
               | none => ((resolve_files s pre).package_table.getD i default).GUID,
             filename := some (file_path v.directory v.cFileName),
             extension := extension } ∧
    ∀ data, v.contents = some data → holds_identifier data = true →
      (build_package_table s directory entries).package_table[i]? =
        some { name_index := (s.package_table.getD i default).name_index,
               GUID := guid_at data (prefix_end data + 0x30),
               filename := some (file_path v.directory v.cFileName),
               extension := extension } := by
  have hk1 := resolve_files_keys pre s
  have hstep : build_package_table_file (resolve_files s pre) v.directory v.cFileName
      v.contents =
      resolve_package (resolve_files s pre) v.directory v.cFileName v.contents extension i := by
    rw [build_package_table_file_eq, sameKeys_file_target hk1, hv]
  have hk2 := sameKeys_trans hk1
    (resolve_package_keys (resolve_files s pre) v.directory v.cFileName v.contents extension i)
  have hrun : build_package_table s directory entries =
      resolve_files (resolve_package (resolve_files s pre) v.directory v.cFileName v.contents
        extension i) post := by
    rw [build_package_table_eq_walk, hwalk, resolve_files_append, ← hstep]
    rfl
  have hpost2 : ∀ w ∈ post, ∀ e,
      file_target (resolve_package (resolve_files s pre) v.directory v.cFileName v.contents
        extension i) w.cFileName ≠ some (i, e) := by
    intro w hw e
    rw [sameKeys_file_target hk2]
    exact hpost w hw e
  rw [hrun, resolve_files_untouched i post _ hpost2]
  have hi1 : i < (resolve_files s pre).package_table.length := by
    rw [sameKeys_length hk1]
    exact hi
  simp only [resolve_package]
  rw [List.getElem?_set_self hi1, sameKeys_name_index_getD hk1]
  refine ⟨rfl, ?_⟩
  intro data hdata hholds
  rw [hdata]
  simp only []
  rw [read_guid_of_holds_identifier data _ 0 hholds]

/-- Witness of C6 (amended): in `foo_tree` the file `Foo.udk` is the last one
matching the entry `Foo`; it is met after `Foo.upk` and before `Bar.u`. -/
theorem build_package_table_last_match_witness :
    (build_package_table foo_session (str "game\\*") foo_tree).package_table[0]? =
      some ⟨0, ⟨0x22222222, 0x22222222, 0x22222222, 0x22222222⟩, some (str "game\\Foo.udk"),
        .ext_UDK⟩ :=
  (build_package_table_last_match foo_session (str "game\\*") foo_tree
    [⟨str "game\\*", str "Foo.upk",
      some (package_with_guid ⟨0x11111111, 0x11111111, 0x11111111, 0x11111111⟩)⟩]
    [⟨str "game\\*", str "Bar.u",
      some (package_with_guid ⟨0x33333333, 0x33333333, 0x33333333, 0x33333333⟩)⟩]
    ⟨str "game\\*", str "Foo.udk",
      some (package_with_guid ⟨0x22222222, 0x22222222, 0x22222222, 0x22222222⟩)⟩
    0 .ext_UDK (by decide!) (by decide!) (by decide!)
    (by
      intro w hw e
      rw [List.mem_singleton] at hw
      subst hw
      have h : file_target foo_session (str "Bar.u") = none := by decide!
      rw [h]
      exact fun h2 => Option.noConfusion h2)).1.trans (by decide!)

/-! ### Name lookup -/

theorem first_match_eq_none (test : Nat → Bool) :
    ∀ (n index : Nat), first_match test n index = none ↔
      ∀ j, index ≤ j → j < index + n → test j = false := by
  intro n
  induction n with
  | zero => intro index; simp [first_match]; intro j h1 h2; omega
  | succ n ih =>
    intro index
    rw [first_match]
    by_cases ht : test index = true
    · simp only [ht, if_true]
      constructor
      · intro h; cases h
      · intro h
        have := h index (Nat.le_refl _) (by omega)
        rw [ht] at this
        cases this
    · have hf : test index = false := by simpa using ht
      simp only [hf, Bool.false_eq_true, if_false]
      rw [ih (index + 1)]
      constructor
      · intro h j h1 h2
        by_cases hj : j = index
        · subst hj; exact hf
        · exact h j (by omega) (by omega)
      · intro h j h1 h2
        exact h j (by omega) (by omega)

theorem first_match_eq_some (test : Nat → Bool) :
    ∀ (n index i : Nat), first_match test n index = some i ↔
      (index ≤ i ∧ i < index + n ∧ test i = true ∧
        ∀ j, index ≤ j → j < i → test j = false) := by
  intro n
  induction n with
  | zero => intro index i; simp [first_match]; intro h1 h2; omega
  | succ n ih =>
    intro index i
    rw [first_match]
    by_cases ht : test index = true
    · simp only [ht, if_true, Option.some.injEq]
      constructor
      · intro h
        subst h
        exact ⟨Nat.le_refl _, by omega, ht, fun j h1 h2 => by omega⟩
      · rintro ⟨h1, _, _, h4⟩
        by_contra hne
        have := h4 index (Nat.le_refl _) (by omega)
        rw [ht] at this
        cases this
    · have hf : test index = false := by simpa using ht
      simp only [hf, Bool.false_eq_true, if_false]
      rw [ih (index + 1) i]
      constructor
      · rintro ⟨h1, h2, h3, h4⟩
        refine ⟨by omega, by omega, h3, ?_⟩
        intro j hj1 hj2
        by_cases hj : j = index
        · subst hj; exact hf
        · exact h4 j (by omega) hj2
      · rintro ⟨h1, h2, h3, h4⟩
        have hne : i ≠ index := by
          intro e
          subst e
          rw [hf] at h3
          cases h3
        exact ⟨by omega, by omega, h3, fun j hj1 hj2 => h4 j (by omega) hj2⟩

theorem find_name_loop_eq (name_table : List (List Nat)) (name : List Nat) :
    ∀ (n index : Nat), find_name_loop name_table name n index =
      (first_match (fun i => strcmp_eq name (name_table.getD i [])) n index).getD
        INVALID_NAME := by
  intro n
  induction n with
  | zero => intro index; rfl
  | succ n ih =>
    intro index
    rw [find_name_loop, first_match]
    by_cases ht : strcmp_eq name (name_table.getD index []) = true
    · simp only [ht, if_true, Option.getD_some]
    · simp only [ht, Bool.false_eq_true, if_false]
      exact ih (index + 1)

theorem find_name_2ptr_loop_eq (name_table : List (List Nat)) (name_start : List Nat)
    (name_end : Nat) :
    ∀ (n index : Nat), find_name_2ptr_loop name_table name_start name_end n index =
      (first_match (fun i => streql_2ptr name_start name_end (name_table.getD i [])) n
        index).getD INVALID_NAME := by
  intro n
  induction n with
  | zero => intro index; rfl
  | succ n ih =>
    intro index
    rw [find_name_2ptr_loop, first_match]
    by_cases ht : streql_2ptr name_start name_end (name_table.getD index []) = true
    · simp only [ht, if_true, Option.getD_some]
    · simp only [ht, Bool.false_eq_true, if_false]
      exact ih (index + 1)
theorem c_str_nil : c_str [] = [] := rfl

theorem c_str_cons (y : Nat) (b : List Nat) :
    c_str (y :: b) = if y = 0 then [] else y :: c_str b := by
  by_cases h : y = 0
  · subst h; rfl
  · simp [c_str, List.takeWhile_cons, h]

theorem strcmp_eq_iff : ∀ (a b : List Nat), strcmp_eq a b = true ↔ c_str a = c_str b := by
  intro a
  induction a with
  | nil =>
    intro b
    cases b with
    | nil => simp [strcmp_eq, c_str_nil]
    | cons y b =>
      rw [strcmp_eq, c_str_nil, c_str_cons]
      by_cases h : y = 0 <;> simp [h]
  | cons x a ih =>
    intro b
    cases b with
    | nil =>
      rw [strcmp_eq, c_str_nil, c_str_cons]
      by_cases h : x = 0 <;> simp [h]
    | cons y b =>
      rw [strcmp_eq, c_str_cons, c_str_cons]
      simp only [List.headD_cons, List.tail_cons]
      by_cases hxy : x = y
      · subst hxy
        by_cases hx : x = 0
        · simp [hx]
        · simp [hx, ih b]
      · by_cases hx : x = 0
        · have hy : ¬ y = 0 := fun e => hxy (hx.trans e.symm)
          have hy2 : ¬ 0 = y := fun e => hy e.symm
          simp [hxy, hx, hy, hy2]
        · by_cases hy : y = 0
          · simp [hxy, hx, hy]
          · simp [hxy, hx, hy]

theorem toupper_eq_zero (c : Nat) : toupper c = 0 ↔ c = 0 := by
  unfold toupper
  split <;> omega

theorem streql_2ptr_loop_iff : ∀ (r b : List Nat), (∀ c ∈ r, c ≠ 0) →
    (streql_2ptr_loop r b = true ↔ r.map toupper = (c_str b).map toupper) := by
  intro r
  induction r with
  | nil =>
    intro b _
    cases b with
    | nil => simp [streql_2ptr_loop, c_str_nil]
    | cons y b =>
      rw [streql_2ptr_loop, c_str_cons]
      by_cases h : y = 0 <;> simp [h]
  | cons c r ih =>
    intro b hr
    have hc : c ≠ 0 := hr c (List.mem_cons_self _ _)
    have hr2 : ∀ x ∈ r, x ≠ 0 := fun x hx => hr x (List.mem_cons_of_mem _ hx)
    have htc : toupper c ≠ 0 := fun e => hc ((toupper_eq_zero c).1 e)
    cases b with
    | nil =>
      have h0 : toupper 0 = 0 := rfl
      simp [streql_2ptr_loop, c_str_nil, h0, htc]
    | cons y b =>
      rw [streql_2ptr_loop, c_str_cons]
      simp only [List.headD_cons, List.tail_cons]
      by_cases hty : toupper c = toupper y
      · have hy : ¬ y = 0 := by
          intro e
          subst e
          exact htc hty
        simp [hty, hy, ih b hr2]
      · by_cases hy : y = 0
        · subst hy
          simp [hty]
        · simp [hty, hy]

theorem streql_2ptr_iff (filename : List Nat) (filename_end : Nat) (package_name : List Nat)
    (h : ∀ c ∈ filename.take filename_end, c ≠ 0) :
    streql_2ptr filename filename_end package_name = true ↔
      (filename.take filename_end).map toupper = (c_str package_name).map toupper :=
  streql_2ptr_loop_iff _ _ h

/-- C11. For every name table (duplicates allowed) whose size is a `uint32_t`
and every query, `find_name` returns the smallest index whose entry is equal to
the query as a C string, and returns `INVALID_NAME` if and only if no entry is
equal to it; `find_name_2ptr` does the same for the characters of the range
`[name_start, name_end)` and equality after `toupper`. -/
theorem find_name_spec (s : State) (name name_start : List Nat) (name_end : Nat)
    (hsize : s.name_table_size = s.name_table.length)
    (hlt : s.name_table_size < 2 ^ 32)
    (hrange : ∀ c ∈ name_start.take name_end, c ≠ 0) :
    (∀ i, i < s.name_table.length → c_str (s.name_table.getD i []) = c_str name →
      (∀ j, j < i → c_str (s.name_table.getD j []) ≠ c_str name) → find_name s name = i) ∧
    (find_name s name = INVALID_NAME ↔
      ∀ i, i < s.name_table.length → c_str (s.name_table.getD i []) ≠ c_str name) ∧
    (∀ i, i < s.name_table.length →
      (c_str (s.name_table.getD i [])).map toupper = (name_start.take name_end).map toupper →
      (∀ j, j < i → (c_str (s.name_table.getD j [])).map toupper ≠
        (name_start.take name_end).map toupper) →
      find_name_2ptr s name_start name_end = i) ∧
    (find_name_2ptr s name_start name_end = INVALID_NAME ↔
      ∀ i, i < s.name_table.length →
        (c_str (s.name_table.getD i [])).map toupper ≠
          (name_start.take name_end).map toupper) := by
  have key : ∀ (test : Nat → Bool) (P : Nat → Prop), (∀ i, test i = true ↔ P i) →
      (∀ i, i < s.name_table.length → P i → (∀ j, j < i → ¬ P j) →
        (first_match test s.name_table_size 0).getD INVALID_NAME = i) ∧
      ((first_match test s.name_table_size 0).getD INVALID_NAME = INVALID_NAME ↔
        ∀ i, i < s.name_table.length → ¬ P i) := by
    intro test P hP
    have hf : ∀ j, test j = false ↔ ¬ P j := by
      intro j
      rw [← hP j]
      cases test j <;> simp
    constructor
    · intro i hi hPi hmin
      have : first_match test s.name_table_size 0 = some i :=
        (first_match_eq_some test _ 0 i).2
          ⟨Nat.zero_le _, by omega, (hP i).2 hPi, fun j _ hj => (hf j).2 (hmin j hj)⟩
      rw [this]
      rfl
    · constructor
      · intro h i hi
        cases hm : first_match test s.name_table_size 0 with
        | none =>
          exact (hf i).1 ((first_match_eq_none test _ 0).1 hm i (Nat.zero_le _) (by omega))
        | some k =>
          rw [hm] at h
          have hk := ((first_match_eq_some test _ 0 k).1 hm).2.1
          simp only [Option.getD_some, INVALID_NAME] at h
          omega
      · intro h
        have : first_match test s.name_table_size 0 = none :=
          (first_match_eq_none test _ 0).2 (fun j _ hj => (hf j).2 (h j (by omega)))
        rw [this]
        rfl
  have k1 := key (fun i => strcmp_eq name (s.name_table.getD i []))
    (fun i => c_str (s.name_table.getD i []) = c_str name)
    (fun i => by
      show strcmp_eq name (s.name_table.getD i []) = true ↔ _
      rw [strcmp_eq_iff]
      exact eq_comm)
  have k2 := key (fun i => streql_2ptr name_start name_end (s.name_table.getD i []))
    (fun i => (c_str (s.name_table.getD i [])).map toupper =
      (name_start.take name_end).map toupper)
    (fun i => by
      show streql_2ptr name_start name_end (s.name_table.getD i []) = true ↔ _
      rw [streql_2ptr_iff _ _ _ hrange]
      exact eq_comm)
  unfold find_name find_name_2ptr
  rw [find_name_loop_eq, find_name_2ptr_loop_eq]
  exact ⟨k1.1, k1.2, k2.1, k2.2⟩

/-- Witness of C11: a table with the name `Core` at the indices 1 and 2. -/
theorem find_name_spec_witness :
    find_name { name_table_size := 3,
                name_table := [str "A" ++ [0], str "Core" ++ [0], str "Core" ++ [0]] }
      (str "Core") = 1 :=
  (find_name_spec { name_table_size := 3,
                    name_table := [str "A" ++ [0], str "Core" ++ [0], str "Core" ++ [0]] }
    (str "Core") (str "core.upk") 4 rfl (by decide) (by decide!)).1 1 (by decide) (by decide!)
    (by intro j hj; interval_cases j; decide!)

/-! ### Truncated name tables -/

theorem read_name_table_loop_length :
    ∀ (n index tmp : Nat) (acc : List (List Nat)) (f : FILE),
      ∃ rest, (read_name_table_loop n index tmp acc f).1 = acc ++ rest ∧ rest.length = n := by
  intro n
  induction n with
  | zero => intro index tmp acc f; exact ⟨[], by simp [read_name_table_loop], rfl⟩
  | succ n ih =>
    intro index tmp acc f
    simp only [read_name_table_loop]
    obtain ⟨rest, h1, h2⟩ := ih (index + 1) (fread_uint32 tmp f).1
      (acc ++ [store (fread (fread_uint32 tmp f).2 (fread_uint32 tmp f).1).1
        (List.replicate (fread_uint32 tmp f).1 0)])
      (fseek_CUR (fread (fread_uint32 tmp f).2 (fread_uint32 tmp f).1).2 8)
    refine ⟨store (fread (fread_uint32 tmp f).2 (fread_uint32 tmp f).1).1
      (List.replicate (fread_uint32 tmp f).1 0) :: rest, ?_, by simp [h2]⟩
    rw [h1]
    simp

theorem read_name_table_loop_nil_length (n index tmp : Nat) (f : FILE) :
    (read_name_table_loop n index tmp [] f).1.length = n := by
  obtain ⟨rest, h1, h2⟩ := read_name_table_loop_length n index tmp [] f
  rw [h1]
  simpa using h2

theorem read_name_table_length (s : State) (f : FILE) :
    (read_name_table s f).1.name_table.length = (read_name_table s f).1.name_table_size := by
  simp only [read_name_table, read_name_table_loop_nil_length]

theorem read_name_table_loop_prefix (img : List Nat) :
    ∀ (k m index tmp : Nat) (acc : List (List Nat)) (off : Nat),
      name_records_in_bounds img k off = true →
      ∃ rest, (read_name_table_loop (k + m) index tmp acc ⟨img, off⟩).1 =
          acc ++ name_records img k off ++ rest ∧ rest.length = m := by
  intro k
  induction k with
  | zero =>
    intro m index tmp acc off _
    obtain ⟨rest, h1, h2⟩ := read_name_table_loop_length m index tmp acc ⟨img, off⟩
    exact ⟨rest, by simpa [name_records] using h1, h2⟩
  | succ k ih =>
    intro m index tmp acc off hb
    simp only [name_records_in_bounds, Bool.and_eq_true, decide_eq_true_eq] at hb
    obtain ⟨hb1, hb2⟩ := hb
    have h1 := fread_uint32_in_bounds tmp img off (by omega)
    have h2 := fread_in_bounds img (off + 4) (u32_at img off) hb1
    have hl : ((img.drop (off + 4)).take (u32_at img off)).length = u32_at img off := by
      rw [List.length_take, List.length_drop]
      omega
    have h3 : store ((img.drop (off + 4)).take (u32_at img off))
        (List.replicate (u32_at img off) 0) = (img.drop (off + 4)).take (u32_at img off) :=
      store_full _ _ (by rw [hl, List.length_replicate])
    have h4 : fseek_CUR ⟨img, off + 4 + u32_at img off⟩ 0x08 =
        ⟨img, off + 4 + u32_at img off + 8⟩ := fseek_CUR_nat _ 8
    have hkm : k + 1 + m = (k + m) + 1 := by omega
    rw [hkm]
    simp only [read_name_table_loop, h1, h2, h3, h4]
    obtain ⟨rest, hr1, hr2⟩ := ih m (index + 1) (u32_at img off)
      (acc ++ [(img.drop (off + 4)).take (u32_at img off)])
      (off + 4 + u32_at img off + 8) hb2
    refine ⟨rest, ?_, hr2⟩
    rw [hr1]
    simp [name_records]

/-- C12, counterexample. In `truncated_package` the second name record runs
past the end of the bytes (the first record is complete), yet `read_name_table`
returns with the name count 5 taken from the header and a table of five
entries whose first entry is the name `A` decoded before the truncation: the
partial table is retained and nothing reports the truncation. -/
theorem read_name_table_truncated_counterexample :
    prefix_end truncated_package + 0x0C ≤ truncated_package.length ∧
    name_records_in_bounds truncated_package 1
      (u32_at truncated_package (prefix_end truncated_package + 0x08)) = true ∧
    name_records_in_bounds truncated_package 2
      (u32_at truncated_package (prefix_end truncated_package + 0x08)) = false ∧
    (read_name_table {} ⟨truncated_package, 0⟩).1.name_table_size = 5 ∧
    (read_name_table {} ⟨truncated_package, 0⟩).1.name_table =
      [str "A" ++ [0], str "B" ++ [0], [0, 0], [0, 0], [0, 0]] ∧
    (read_name_table {} ⟨truncated_package, 0⟩).1.name_table ≠ [] := by
  decide!

/-- C12, amended. Truncation is neither detected nor reported, and what was
decoded is kept: for every state and every image of fewer than `2 ^ 31` bytes
whose count and offset fields lie inside the image and whose first `k ≤ N`
name records lie inside the image, `N` being the name count of the header,
`read_name_table` returns with `name_table_size = N` and a table of exactly `N`
entries, and the first `k` entries of the table are the texts of those records,
whatever happens to the reads after them. -/
theorem read_name_table_truncated (s : State) (img : List Nat) (pos k : Nat)
    (hsmall : img.length < 2 ^ 31)
    (hhdr : prefix_end img + 0x0C ≤ img.length)
    (hk : k ≤ u32_at img (prefix_end img + 0x04))
    (hrec : name_records_in_bounds img k (u32_at img (prefix_end img + 0x08)) = true) :
    (read_name_table s ⟨img, pos⟩).1.name_table.length =
      (read_name_table s ⟨img, pos⟩).1.name_table_size ∧
    (read_name_table s ⟨img, pos⟩).1.name_table_size = u32_at img (prefix_end img + 0x04) ∧
    (read_name_table s ⟨img, pos⟩).1.name_table.take k =
      name_records img k (u32_at img (prefix_end img + 0x08)) := by
  refine ⟨read_name_table_length s _, ?_⟩
  unfold prefix_end at hhdr hrec hk ⊢
  have h1 : fseek_SET ⟨img, pos⟩ 0x0C = ⟨img, 0x0C⟩ := fseek_SET_nat _ 12
  have h2 := fread_uint32_in_bounds 0 img 0x0C (by omega)
  have h3 : to_int32 ((u32_at img 0x0C + 0x04) % 2 ^ 32) =
      ((u32_at img 0x0C + 0x04 : Nat) : Int) := to_int32_small _ (by omega)
  have hp1 : 0x0C + 4 + (u32_at img 0x0C + 0x04) = 0x10 + u32_at img 0x0C + 0x04 := by omega
  have h4 := fread_uint32_in_bounds s.name_table_size img (0x10 + u32_at img 0x0C + 0x04)
    (by omega)
  have hp2 : 0x10 + u32_at img 0x0C + 0x04 + 4 = 0x10 + u32_at img 0x0C + 0x08 := by omega
  have h5 := fread_uint32_in_bounds (u32_at img 0x0C) img (0x10 + u32_at img 0x0C + 0x08)
    (by omega)
  simp only [read_name_table, h1, h2, h3, fseek_CUR_nat, hp1, h4, hp2, h5]
  refine ⟨trivial, ?_⟩
  cases k with
  | zero => simp [name_records]
  | succ j =>
    have hT : u32_at img (0x10 + u32_at img 0x0C + 0x08) < 2 ^ 31 := by
      simp only [name_records_in_bounds, Bool.and_eq_true, decide_eq_true_eq] at hrec
      omega
    have h6 : to_int32 (u32_at img (0x10 + u32_at img 0x0C + 0x08)) =
        ((u32_at img (0x10 + u32_at img 0x0C + 0x08) : Nat) : Int) := by
      rw [to_int32, if_pos hT]
    rw [h6, fseek_SET_nat]
    simp only
    obtain ⟨m, hm⟩ : ∃ m, u32_at img (0x10 + u32_at img 0x0C + 0x04) = (j + 1) + m :=
      ⟨u32_at img (0x10 + u32_at img 0x0C + 0x04) - (j + 1), by omega⟩
    rw [hm]
    obtain ⟨rest, hr1, _⟩ := read_name_table_loop_prefix img (j + 1) m 0
      (u32_at img (0x10 + u32_at img 0x0C + 0x08)) []
      (u32_at img (0x10 + u32_at img 0x0C + 0x08)) hrec
    rw [hr1, List.nil_append, List.take_append_of_le_length (by rw [name_records_length]),
      List.take_of_length_le (by rw [name_records_length])]

/-- Witness of C12 (amended): the first record of `truncated_package` is kept. -/
theorem read_name_table_truncated_witness :
    (read_name_table {} ⟨truncated_package, 0⟩).1.name_table.take 1 = [str "A" ++ [0]] :=
  (read_name_table_truncated {} truncated_package 0 1 (by decide!) (by decide!) (by decide!)
    (by decide!)).2.2.trans (by decide!)

/-! ### What the resolver leaves alone -/

theorem resolve_package_frame (s : State) (directory cFileName : List Nat)
    (contents : Option (List Nat)) (extension : UDKPackage_Extension) (i : Nat) :
    resolve_package s directory cFileName contents extension i =
      { s with package_table :=
          (resolve_package s directory cFileName contents extension i).package_table } := rfl

theorem build_package_table_file_frame (s : State) (directory cFileName : List Nat)
    (contents : Option (List Nat)) :
    build_package_table_file s directory cFileName contents =
      { s with package_table :=
          (build_package_table_file s directory cFileName contents).package_table } := by
  rw [build_package_table_file_eq]
  cases file_target s cFileName with
  | none => rfl
  | some x => rfl

theorem resolve_files_frame : ∀ (files : List Visit) (s : State),
    resolve_files s files = { s with package_table := (resolve_files s files).package_table } := by
  intro files
  induction files with
  | nil => intro s; rfl
  | cons v rest ih =>
    intro s
    have h1 := build_package_table_file_frame s v.directory v.cFileName v.contents
    have h2 := ih (build_package_table_file s v.directory v.cFileName v.contents)
    simp only [resolve_files, List.foldl_cons] at h2 ⊢
    rw [h2]
    generalize (List.foldl (fun t v => build_package_table_file t v.directory v.cFileName
      v.contents) (build_package_table_file s v.directory v.cFileName v.contents)
      rest).package_table = pt
    rw [h1]

theorem build_package_table_frame (s : State) (directory : List Nat) (entries : List DirEntry) :
    build_package_table s directory entries =
      { s with package_table := (build_package_table s directory entries).package_table } := by
  rw [build_package_table_eq_walk]
  exact resolve_files_frame _ s

theorem matching_entry_eq_first_match (s : State) (cFileName : List Nat) (tmp : Nat) :
    ∀ (n tmp_index : Nat), matching_entry s cFileName tmp n tmp_index =
      first_match (fun i => streql_2ptr cFileName tmp (package_name_of s i)) n tmp_index := by
  intro n
  induction n with
  | zero => intro tmp_index; rfl
  | succ n ih =>
    intro tmp_index
    rw [matching_entry, first_match, ih]

/-- A file resolves entry `i` exactly when its name has a recognised suffix,
its base name matches the name of entry `i`, and it matches the name of no
entry before `i`. -/
theorem file_target_eq_some (s : State) (cFileName : List Nat) (i : Nat)
    (e : UDKPackage_Extension) :
    file_target s cFileName = some (i, e) ↔
      ∃ tmp, find_extension cFileName = (some tmp, e) ∧ i < s.packages_imported ∧
        streql_2ptr cFileName tmp (package_name_of s i) = true ∧
        ∀ j, j < i → streql_2ptr cFileName tmp (package_name_of s j) = false := by
  unfold file_target
  rcases hfe : find_extension cFileName with ⟨_ | tmp, ext⟩
  · simp
  · simp only [matching_entry_eq_first_match, Option.map_eq_some', Prod.mk.injEq,
      Option.some.injEq]
    constructor
    · rintro ⟨k, hk, rfl, rfl⟩
      obtain ⟨_, h2, h3, h4⟩ := (first_match_eq_some _ _ 0 k).1 hk
      exact ⟨tmp, ⟨rfl, rfl⟩, by omega, h3, fun j hj => h4 j (Nat.zero_le _) hj⟩
    · rintro ⟨tmp2, ⟨h1, h2⟩, h3, h4, h5⟩
      subst h1
      subst h2
      exact ⟨i, (first_match_eq_some _ _ 0 i).2
        ⟨Nat.zero_le _, by omega, h4, fun j _ hj => h5 j hj⟩, rfl, rfl⟩
/-- C14. Unresolved entry: when no recognised file of the walk has a base name
matching the name of entry `i`, `build_package_table` leaves that entry as it
was, so an entry that was all-zero, without file path and of extension Unknown
stays so; and `build_dependency_list` run afterwards lists the entry iff the
all-zero identifier is absent from the baseline. -/
theorem unresolved_entry_listed (s : State) (directory : List Nat) (entries : List DirEntry)
    (i : Nat) (p : UDKPackage)
    (hp : s.package_table[i]? = some p)
    (hzero : p.GUID = Guid.zero) (hfile : p.filename = none)
    (hext : p.extension = .ext_UNKNOWN)
    (hno : ∀ v ∈ walk_files directory entries, ∀ tmp e,
      find_extension v.cFileName = (some tmp, e) →
      streql_2ptr v.cFileName tmp (package_name_of s i) = false)
    (hhead : s.dependency_list_head = none) (hlast : s.dependency_list_last = none)
    (hpt : s.packages_imported = s.package_table.length)
    (hal : s.against_list_size = s.against_list.length) :
    (∃ q, (build_package_table s directory entries).package_table[i]? = some q ∧
      q.GUID = Guid.zero ∧ q.filename = none ∧ q.extension = .ext_UNKNOWN ∧
      q.name_index = p.name_index) ∧
    (i ∈ dependency_list_entries
        (build_dependency_list (build_package_table s directory entries)) ↔
      Guid.zero ∉ s.against_list) := by
  have hfr := build_package_table_frame s directory entries
  have hwalk := build_package_table_eq_walk directory entries s
  have hkeys : SameKeys s (build_package_table s directory entries) := by
    rw [hwalk]
    exact resolve_files_keys _ s
  have hsame : (build_package_table s directory entries).package_table[i]? = some p := by
    rw [hwalk, resolve_files_untouched i _ s, hp]
    intro w hw e ht
    obtain ⟨tmp, hfe, _, hst, _⟩ := (file_target_eq_some s w.cFileName i e).1 ht
    rw [hno w hw tmp e hfe] at hst
    cases hst
  generalize build_package_table s directory entries = t at hfr hkeys hsame
  have hthead : t.dependency_list_head = none := by rw [hfr]; exact hhead
  have htlast : t.dependency_list_last = none := by rw [hfr]; exact hlast
  have htal : t.against_list_size = t.against_list.length := by rw [hfr]; exact hal
  have htag : t.against_list = s.against_list := by rw [hfr]
  have htpt : t.packages_imported = t.package_table.length := by
    rw [hkeys.packages_imported, sameKeys_length hkeys]
    exact hpt
  refine ⟨⟨p, hsame, hzero, hfile, hext, rfl⟩, ?_⟩
  have hE := build_dependency_list_entries t [] (dependency_inv_empty t hthead htlast) htal
  rw [List.map_nil, List.nil_append, htpt, ← List.range_eq_range'] at hE
  obtain ⟨hlt, _⟩ := List.getElem?_eq_some.1 hsame
  have hD : t.package_table.getD i default = p := by
    rw [List.getD_eq_getElem?_getD, hsame]
    rfl
  rw [hE, List.mem_filter, List.mem_range, hD, htag, hzero]
  simp [hlt]

/-- Witness of C14: the entry `Missing` of a two-entry table, in a tree that
holds only `Foo.upk`, against an empty baseline. -/
theorem unresolved_entry_listed_witness :
    1 ∈ dependency_list_entries (build_dependency_list (build_package_table
      { name_table_size := 2, name_table := [str "Foo" ++ [0], str "Missing" ++ [0]],
        packages_imported := 2,
        package_table := [⟨0, Guid.zero, none, .ext_UNKNOWN⟩, ⟨1, Guid.zero, none, .ext_UNKNOWN⟩] }
      (str "game\\*") [.file (str "Foo.upk") none, .file (str "readme.txt") none])) :=
  (unresolved_entry_listed
      { name_table_size := 2, name_table := [str "Foo" ++ [0], str "Missing" ++ [0]],
        packages_imported := 2,
        package_table := [⟨0, Guid.zero, none, .ext_UNKNOWN⟩, ⟨1, Guid.zero, none, .ext_UNKNOWN⟩] }
      (str "game\\*") [.file (str "Foo.upk") none, .file (str "readme.txt") none]
      1 ⟨1, Guid.zero, none, .ext_UNKNOWN⟩ rfl rfl rfl rfl
      (by
        intro v hv tmp e hfe
        have hw : walk_files (str "game\\*")
            [.file (str "Foo.upk") none, .file (str "readme.txt") none] =
            [⟨str "game\\*", str "Foo.upk", none⟩, ⟨str "game\\*", str "readme.txt", none⟩] := rfl
        rw [hw] at hv
        simp only [List.mem_cons, List.mem_singleton, List.not_mem_nil, or_false] at hv
        rcases hv with rfl | rfl
        · have h1 : find_extension (str "Foo.upk") = (some 3, .ext_UPK) := by decide!
          rw [h1] at hfe
          cases hfe
          decide!
        · have h1 : find_extension (str "readme.txt") = (none, .ext_UNKNOWN) := by decide!
          rw [h1] at hfe
          cases hfe)
      rfl rfl rfl rfl).2.2
    (by decide)
/-! ### Which entries the resolver fills in -/

theorem resolve_package_getElem? (s : State) (directory cFileName : List Nat)
    (contents : Option (List Nat)) (extension : UDKPackage_Extension) (i : Nat) (p : UDKPackage)
    (hp : s.package_table[i]? = some p) :
    ∃ q, (resolve_package s directory cFileName contents extension i).package_table[i]? = some q ∧
      q.filename = some (file_path directory cFileName) := by
  obtain ⟨hlt, _⟩ := List.getElem?_eq_some.1 hp
  simp only [resolve_package]
  rw [List.getElem?_set_self hlt]
  exact ⟨_, rfl, rfl⟩

theorem resolve_package_getElem?_ne (s : State) (directory cFileName : List Nat)
    (contents : Option (List Nat)) (extension : UDKPackage_Extension) (i j : Nat) (h : j ≠ i) :
    (resolve_package s directory cFileName contents extension j).package_table[i]? =
      s.package_table[i]? := by
  simp only [resolve_package]
  rw [List.getElem?_set_ne h]

theorem resolve_files_filename (i : Nat) : ∀ (files : List Visit) (s : State) (p : UDKPackage),
    s.package_table[i]? = some p →
    ∃ q, (resolve_files s files).package_table[i]? = some q ∧
      (q.filename.isSome = true ↔
        p.filename.isSome = true ∨ ∃ v ∈ files, ∃ e, file_target s v.cFileName = some (i, e)) := by
  intro files
  induction files with
  | nil =>
    intro s p hp
    exact ⟨p, hp, by simp⟩
  | cons v rest ih =>
    intro s p hp
    have hk := build_package_table_file_keys s v.directory v.cFileName v.contents
    have hrw : resolve_files s (v :: rest) =
        resolve_files (build_package_table_file s v.directory v.cFileName v.contents) rest := rfl
    have htg : ∀ w : Visit,
        file_target (build_package_table_file s v.directory v.cFileName v.contents) w.cFileName =
          file_target s w.cFileName := fun w => sameKeys_file_target hk w.cFileName
    rw [hrw]
    by_cases hv : ∃ e, file_target s v.cFileName = some (i, e)
    · obtain ⟨e, he⟩ := hv
      have hstep : ∃ q, (build_package_table_file s v.directory v.cFileName
          v.contents).package_table[i]? = some q ∧ q.filename.isSome = true := by
        rw [build_package_table_file_eq, he]
        obtain ⟨q, hq, hf⟩ := resolve_package_getElem? s v.directory v.cFileName v.contents e i p hp
        exact ⟨q, hq, by rw [hf]; rfl⟩
      obtain ⟨q, hq, hqf⟩ := hstep
      obtain ⟨r, hr, hiff⟩ := ih _ q hq
      refine ⟨r, hr, ?_⟩
      constructor
      · intro _
        exact Or.inr ⟨v, List.mem_cons_self _ _, e, he⟩
      · intro _
        exact hiff.2 (Or.inl hqf)
    · have hstep : (build_package_table_file s v.directory v.cFileName
          v.contents).package_table[i]? = some p := by
        rw [build_package_table_file_eq]
        cases ht : file_target s v.cFileName with
        | none => exact hp
        | some x =>
          obtain ⟨j, e⟩ := x
          have hne : j ≠ i := by
            rintro rfl
            exact hv ⟨e, ht⟩
          simp only []
          rw [resolve_package_getElem?_ne _ _ _ _ _ _ _ hne]
          exact hp
      obtain ⟨r, hr, hiff⟩ := ih _ p hstep
      refine ⟨r, hr, ?_⟩
      rw [hiff]
      constructor
      · rintro (h | ⟨w, hw, e, he⟩)
        · exact Or.inl h
        · rw [htg] at he
          exact Or.inr ⟨w, List.mem_cons_of_mem _ hw, e, he⟩
      · rintro (h | ⟨w, hw, e, he⟩)
        · exact Or.inl h
        · rcases List.mem_cons.1 hw with rfl | hw
          · exact absurd ⟨e, he⟩ hv
          · exact Or.inr ⟨w, hw, e, by rw [htg]; exact he⟩

/-- Counterexample to C16: with two entries named `Foo` and the file `Foo.upk`
in the tree, the base name equals the name of entry 1 ignoring case, yet after
`build_package_table` entry 1 is unresolved; only entry 0 received the file. -/
theorem duplicate_name_unresolved :
    find_extension (str "Foo.upk") = (some 3, .ext_UPK) ∧
    streql_2ptr (str "Foo.upk") 3 (package_name_of foo_twice_session 1) = true ∧
    (build_package_table foo_twice_session (str "game\\*")
        [.file (str "Foo.upk") none]).package_table =
      [⟨0, Guid.zero, some (str "game\\Foo.upk"), .ext_UPK⟩,
       ⟨0, Guid.zero, none, .ext_UNKNOWN⟩] := by
  decide!

/-- C16, amended. After `build_package_table` an entry that had no file path
has one iff some file of the walk has a recognised suffix and a base name
that equals the name of that entry ignoring case while equalling the name of
no earlier entry of the table; an entry for which the walk holds no such file
is left exactly as it was. -/
theorem build_package_table_resolved_iff (s : State) (directory : List Nat)
    (entries : List DirEntry) (i : Nat) (p : UDKPackage)
    (hp : s.package_table[i]? = some p) (hfile : p.filename = none)
    (hpt : s.packages_imported = s.package_table.length) :
    (∃ q, (build_package_table s directory entries).package_table[i]? = some q ∧
      (q.filename.isSome = true ↔
        ∃ v ∈ walk_files directory entries, ∃ tmp e,
          find_extension v.cFileName = (some tmp, e) ∧
          streql_2ptr v.cFileName tmp (package_name_of s i) = true ∧
          ∀ j, j < i → streql_2ptr v.cFileName tmp (package_name_of s j) = false)) ∧
    ((¬ ∃ v ∈ walk_files directory entries, ∃ tmp e,
          find_extension v.cFileName = (some tmp, e) ∧
          streql_2ptr v.cFileName tmp (package_name_of s i) = true ∧
          ∀ j, j < i → streql_2ptr v.cFileName tmp (package_name_of s j) = false) →
      (build_package_table s directory entries).package_table[i]? = some p) := by
  obtain ⟨hlt, _⟩ := List.getElem?_eq_some.1 hp
  have hi : i < s.packages_imported := by omega
  have hT : ∀ v : Visit, (∃ e, file_target s v.cFileName = some (i, e)) ↔
      ∃ tmp e, find_extension v.cFileName = (some tmp, e) ∧
        streql_2ptr v.cFileName tmp (package_name_of s i) = true ∧
        ∀ j, j < i → streql_2ptr v.cFileName tmp (package_name_of s j) = false := by
    intro v
    constructor
    · rintro ⟨e, he⟩
      obtain ⟨tmp, h1, _, h3, h4⟩ := (file_target_eq_some s v.cFileName i e).1 he
      exact ⟨tmp, e, h1, h3, h4⟩
    · rintro ⟨tmp, e, h1, h3, h4⟩
      exact ⟨e, (file_target_eq_some s v.cFileName i e).2 ⟨tmp, h1, hi, h3, h4⟩⟩
  rw [build_package_table_eq_walk]
  constructor
  · obtain ⟨q, hq, hiff⟩ := resolve_files_filename i (walk_files directory entries) s p hp
    refine ⟨q, hq, ?_⟩
    rw [hiff, hfile]
    constructor
    · rintro (h | ⟨v, hv, e, he⟩)
      · cases h
      · exact ⟨v, hv, (hT v).1 ⟨e, he⟩⟩
    · rintro ⟨v, hv, h⟩
      obtain ⟨e, he⟩ := (hT v).2 h
      exact Or.inr ⟨v, hv, e, he⟩
  · intro hno
    rw [resolve_files_untouched i _ s, hp]
    intro w hw e he
    exact hno ⟨w, hw, (hT w).1 ⟨e, he⟩⟩

/-- Witness of C16, amended: entry 0 of the two entries named `Foo` receives
the file `Foo.upk`. -/
theorem build_package_table_resolved_iff_witness :
    ∃ q, (build_package_table foo_twice_session (str "game\\*")
        [.file (str "Foo.upk") none]).package_table[0]? = some q ∧
      q.filename.isSome = true := by
  obtain ⟨q, hq, hiff⟩ := (build_package_table_resolved_iff foo_twice_session (str "game\\*")
    [.file (str "Foo.upk") none] 0 ⟨0, Guid.zero, none, .ext_UNKNOWN⟩ rfl rfl rfl).1
  refine ⟨q, hq, hiff.2 ⟨⟨str "game\\*", str "Foo.upk", none⟩, ?_, 3, .ext_UPK, ?_, ?_, ?_⟩⟩
  · exact List.mem_singleton.2 rfl
  · decide!
  · decide!
  · intro j hj
    omega

/-! ### Counting the dependency list -/

theorem write_dependency_list_loop_of_chain (s : State) :
    ∀ (l : List (Nat × Nat)) (cur : Option Nat) (fuel : Nat) (out : List Nat),
      DependencyChain s.dependency_nodes cur l → l.length ≤ fuel →
      write_dependency_list_loop s fuel cur out =
        out ++ (l.map Prod.snd).flatMap (fun i => (s.package_table.getD i default).GUID.bytes) := by
  intro l
  induction l with
  | nil =>
    intro cur fuel out hc _
    simp only [DependencyChain] at hc
    subst hc
    cases fuel <;> simp [write_dependency_list_loop]
  | cons x rest ih =>
    intro cur fuel out hc hf
    obtain ⟨a, p⟩ := x
    obtain ⟨hcur, nx, hn, hrest⟩ := hc
    subst hcur
    cases fuel with
    | zero => simp at hf
    | succ f =>
      simp only [write_dependency_list_loop, hn, List.map_cons, List.flatMap_cons]
      rw [ih nx f _ hrest (by simpa using hf), List.append_assoc]

theorem build_dependency_list_step_is_in (s : State) (index : Nat) (g : Guid) :
    is_in_against_list (build_dependency_list_step s index) g = is_in_against_list s g := by
  obtain ⟨_, _, hag, hsz⟩ := build_dependency_list_step_frame s index
  unfold is_in_against_list
  rw [hag, hsz]

theorem build_dependency_list_step_size (s : State) (index : Nat) :
    (build_dependency_list_step s index).dependency_list_size =
      if is_in_against_list s (s.package_table.getD index default).GUID = true then
        s.dependency_list_size
      else (s.dependency_list_size + 1) % 2 ^ 32 := by
  unfold build_dependency_list_step
  cases is_in_against_list s (s.package_table.getD index default).GUID with
  | true => rfl
  | false =>
    simp only [beq_self_eq_true, if_true, Bool.false_eq_true, if_false]
    cases s.dependency_list_last <;> rfl

theorem build_dependency_list_step_counted (s : State) (index : Nat) (l : List (Nat × Nat))
    (h : DependencyCounted s l) :
    DependencyCounted (build_dependency_list_step s index)
      (if is_in_against_list s (s.package_table.getD index default).GUID = true then l
       else l ++ [(s.dependency_nodes.length, index)]) := by
  refine ⟨build_dependency_list_step_inv s index l h.inv, ?_⟩
  rw [build_dependency_list_step_size]
  by_cases hin : is_in_against_list s (s.package_table.getD index default).GUID = true
  · rw [if_pos hin, if_pos hin]
    exact h.size
  · rw [if_neg hin, if_neg hin, h.size, List.length_append, List.length_singleton]
    omega

theorem build_dependency_list_loop_counted :
    ∀ (n index : Nat) (s : State) (l : List (Nat × Nat)),
      DependencyCounted s l →
      ∃ l2, DependencyCounted (build_dependency_list_loop n index s) l2 ∧
        (build_dependency_list_loop n index s).packages_imported = s.packages_imported ∧
        (build_dependency_list_loop n index s).package_table = s.package_table ∧
        (∀ g, is_in_against_list (build_dependency_list_loop n index s) g =
          is_in_against_list s g) ∧
        l2.map Prod.snd = l.map Prod.snd ++
          (List.range' index n).filter
            (fun i => !is_in_against_list s (s.package_table.getD i default).GUID) := by
  intro n
  induction n with
  | zero =>
    intro index s l h
    exact ⟨l, h, rfl, rfl, fun _ => rfl, by simp⟩
  | succ n ih =>
    intro index s l h
    obtain ⟨hpt, hpi, _, _⟩ := build_dependency_list_step_frame s index
    have hstep := build_dependency_list_step_counted s index l h
    obtain ⟨l2, hinv, h1, h2, h3, hmap⟩ := ih (index + 1) (build_dependency_list_step s index) _ hstep
    refine ⟨l2, hinv, h1.trans hpi, h2.trans hpt,
      fun g => (h3 g).trans (build_dependency_list_step_is_in s index g), ?_⟩
    rw [hmap, hpt]
    simp only [build_dependency_list_step_is_in]
    rw [List.range'_succ, List.filter_cons]
    cases is_in_against_list s (s.package_table.getD index default).GUID with
    | true =>
      simp only [if_true, Bool.not_true, Bool.false_eq_true, if_false]
    | false =>
      simp only [Bool.false_eq_true, if_false, Bool.not_false, if_true, List.map_append,
        List.map_cons, List.map_nil, List.append_assoc, List.singleton_append]

theorem dependency_counted_empty (s : State) (hhead : s.dependency_list_head = none)
    (hlast : s.dependency_list_last = none) (hsize : s.dependency_list_size = 0) :
    DependencyCounted s [] :=
  ⟨dependency_inv_empty s hhead hlast, by simpa using hsize⟩

theorem dependency_counted_entries (s : State) (l : List (Nat × Nat))
    (h : DependencyCounted s l) : dependency_list_entries s = l.map Prod.snd :=
  dependency_walk_of_chain _ l _ _ h.inv.chain h.inv.len
/-- Counterexample to C15: on a table of three packages of which the baseline
holds the second, one run of `build_dependency_list` lists entries 0 and 2 and
counts 2; a second run on the unchanged inputs leaves four nodes, each entry
twice, and counts 4. -/
theorem build_dependency_list_twice_counterexample :
    dependency_list_entries (build_dependency_list three_package_session) = [0, 2] ∧
    (build_dependency_list three_package_session).dependency_list_size = 2 ∧
    dependency_list_entries
      (build_dependency_list (build_dependency_list three_package_session)) = [0, 2, 0, 2] ∧
    (build_dependency_list
      (build_dependency_list three_package_session)).dependency_list_size = 4 := by
  decide!

/-- C15, amended. `build_dependency_list` appends to the list it finds: from
empty dependency globals, a second run on unchanged inputs leaves the entries
of the first run followed by the same entries once more, and
`dependency_list_size` is twice the count of the first run as a `uint32_t`.
The second run leaves the list as the first run left it only when that list
is empty. -/
theorem build_dependency_list_twice (s : State)
    (hhead : s.dependency_list_head = none) (hlast : s.dependency_list_last = none)
    (hsize : s.dependency_list_size = 0) :
    dependency_list_entries (build_dependency_list (build_dependency_list s)) =
      dependency_list_entries (build_dependency_list s) ++
        dependency_list_entries (build_dependency_list s) ∧
    (build_dependency_list s).dependency_list_size =
      (dependency_list_entries (build_dependency_list s)).length % 2 ^ 32 ∧
    (build_dependency_list (build_dependency_list s)).dependency_list_size =
      (2 * (dependency_list_entries (build_dependency_list s)).length) % 2 ^ 32 ∧
    (dependency_list_entries (build_dependency_list (build_dependency_list s)) =
        dependency_list_entries (build_dependency_list s) ↔
      dependency_list_entries (build_dependency_list s) = []) := by
  obtain ⟨l1, hc1, hpi, hpt, hin, hmap1⟩ :=
    build_dependency_list_loop_counted s.packages_imported 0 s []
      (dependency_counted_empty s hhead hlast hsize)
  have hb : build_dependency_list_loop s.packages_imported 0 s = build_dependency_list s := rfl
  rw [hb] at hc1 hpi hpt hin
  obtain ⟨l2, hc2, _, _, _, hmap2⟩ :=
    build_dependency_list_loop_counted (build_dependency_list s).packages_imported 0
      (build_dependency_list s) l1 hc1
  have hb2 : build_dependency_list_loop (build_dependency_list s).packages_imported 0
      (build_dependency_list s) = build_dependency_list (build_dependency_list s) := rfl
  rw [hb2] at hc2
  have hE1 := dependency_counted_entries _ _ hc1
  have hE2 := dependency_counted_entries _ _ hc2
  simp only [hin, hpt, hpi] at hmap2
  rw [List.map_nil, List.nil_append] at hmap1
  rw [← hmap1] at hmap2
  have hlen1 : l1.length = (dependency_list_entries (build_dependency_list s)).length := by
    rw [hE1, List.length_map]
  have hlen2 : l2.length = 2 * (dependency_list_entries (build_dependency_list s)).length := by
    have := congrArg List.length hmap2
    rw [List.length_map, List.length_append, List.length_map] at this
    omega
  refine ⟨?_, ?_, ?_, ?_⟩
  · rw [hE2, hmap2, hE1]
  · rw [hc1.size, hlen1]
  · rw [hc2.size, hlen2]
  · rw [hE2, hmap2, ← hE1]
    constructor
    · intro h
      have := congrArg List.length h
      rw [List.length_append] at this
      exact List.length_eq_zero.1 (by omega)
    · intro h
      rw [h]
      rfl

/-- Witness of C15, amended: the table of three packages. -/
theorem build_dependency_list_twice_witness :
    dependency_list_entries
        (build_dependency_list (build_dependency_list three_package_session)) =
      dependency_list_entries (build_dependency_list three_package_session) ++
        dependency_list_entries (build_dependency_list three_package_session) :=
  (build_dependency_list_twice three_package_session rfl rfl rfl).1

theorem dependency_lines_length (s : State) :
    ∀ (es : List Nat) (lines : List (List Nat)),
      dependency_lines s es = some lines → lines.length = es.length := by
  intro es
  induction es with
  | nil =>
    intro lines h
    simp only [dependency_lines, Option.some.injEq] at h
    subst h
    rfl
  | cons i rest ih =>
    intro lines h
    rw [dependency_lines] at h
    cases h1 : dependency_line s i with
    | none => simp [h1] at h
    | some line =>
      cases h2 : dependency_lines s rest with
      | none => simp [h1, h2] at h
      | some ls =>
        simp only [h1, h2, Option.some.injEq] at h
        subst h
        simp [ih ls h2]

theorem dependency_lines_isSome (s : State) :
    ∀ (es : List Nat),
      (dependency_lines s es).isSome = true ↔ ∀ i ∈ es, (dependency_line s i).isSome = true := by
  intro es
  induction es with
  | nil => simp [dependency_lines]
  | cons i rest ih =>
    rw [dependency_lines]
    cases h1 : dependency_line s i with
    | none => simp [h1]
    | some line =>
      cases h2 : dependency_lines s rest with
      | none =>
        have := ih
        rw [h2] at this
        simp only [Option.isSome_none, Bool.false_eq_true, false_iff] at this
        simp only [Option.isSome_none, Bool.false_eq_true, List.mem_cons, forall_eq_or_imp,
          h1, Option.isSome_some, true_and, false_iff]
        exact this
      | some ls =>
        have := ih
        rw [h2] at this
        simp only [Option.isSome_some, true_iff] at this
        simp only [Option.isSome_some, List.mem_cons, forall_eq_or_imp, h1, true_and, true_iff]
        exact this

theorem print_dependency_list_loop_of_chain (s : State) :
    ∀ (l : List (Nat × Nat)) (cur : Option Nat) (fuel : Nat) (out : List Nat),
      DependencyChain s.dependency_nodes cur l → l.length ≤ fuel →
      print_dependency_list_loop s fuel cur out =
        (dependency_lines s (l.map Prod.snd)).map (fun lines => out ++ lines.flatten) := by
  intro l
  induction l with
  | nil =>
    intro cur fuel out hc _
    simp only [DependencyChain] at hc
    subst hc
    cases fuel <;> simp [print_dependency_list_loop, dependency_lines]
  | cons x rest ih =>
    intro cur fuel out hc hf
    obtain ⟨a, p⟩ := x
    obtain ⟨hcur, nx, hn, hrest⟩ := hc
    subst hcur
    cases fuel with
    | zero => simp at hf
    | succ f =>
      rw [print_dependency_list_loop, hn]
      simp only [List.map_cons]
      rw [dependency_lines, dependency_line]
      cases hp : s.package_table[p]? with
      | none => rfl
      | some package =>
        simp only []
        cases hname : s.name_table[package.name_index]? with
        | none => rfl
        | some name =>
          cases hfile : package.filename with
          | none => rfl
          | some filename =>
            simp only []
            rw [ih nx f _ hrest (by simpa using hf)]
            cases dependency_lines s (rest.map Prod.snd) with
            | none => rfl
            | some lines =>
              simp only [Option.map_some', List.flatten_cons, List.append_assoc]

theorem half_import_head_length : half_import_head.length = 97 := by decide!

theorem u32_at_half_import (rest : List Nat) (off : Nat) (h : off + 4 ≤ 97) :
    u32_at (half_import_head ++ rest) off = u32_at half_import_head off :=
  u32_at_append_left _ _ _ (by rw [half_import_head_length]; exact h)

theorem read_name_table_half_import (s : State) (rest : List Nat) (pos : Nat) :
    (read_name_table s ⟨half_import_head ++ rest, pos⟩).1 =
      { s with name_table_size := 1, name_table := [str "Core" ++ [0]] } := by
  have hlen : 97 ≤ (half_import_head ++ rest).length := by
    rw [List.length_append, half_import_head_length]
    omega
  have h1 : fseek_SET ⟨half_import_head ++ rest, pos⟩ 0x0C = ⟨half_import_head ++ rest, 0x0C⟩ :=
    fseek_SET_nat _ 12
  have h2 := fread_uint32_in_bounds 0 (half_import_head ++ rest) 0x0C (by omega)
  have hu2 : u32_at (half_import_head ++ rest) 0x0C = 0 := by
    rw [u32_at_half_import _ _ (by omega)]
    decide!
  have h3 : to_int32 ((0 + 0x04) % 2 ^ 32) = ((4 : Nat) : Int) := by decide
  have h4 := fread_uint32_in_bounds s.name_table_size (half_import_head ++ rest) 20 (by omega)
  have hu4 : u32_at (half_import_head ++ rest) 20 = 1 := by
    rw [u32_at_half_import _ _ (by omega)]
    decide!
  have h5 := fread_uint32_in_bounds 0 (half_import_head ++ rest) 24 (by omega)
  have hu5 : u32_at (half_import_head ++ rest) 24 = 80 := by
    rw [u32_at_half_import _ _ (by omega)]
    decide!
  have h6 : to_int32 80 = ((80 : Nat) : Int) := by decide
  have hu80 : u32_at (half_import_head ++ rest) 80 = 5 := by
    rw [u32_at_half_import _ _ (by omega)]
    decide!
  have hb : name_records_in_bounds (half_import_head ++ rest) 1 80 = true := by
    simp only [name_records_in_bounds, hu80, Bool.and_true, decide_eq_true_eq]
    omega
  have hrec : name_records (half_import_head ++ rest) 1 80 = [str "Core" ++ [0]] := by
    simp only [name_records, hu80]
    rw [List.drop_append_of_le_length (by rw [half_import_head_length]; omega),
      List.take_append_of_le_length (by rw [List.length_drop, half_import_head_length]; omega)]
    decide!
  have hloop := read_name_table_loop_spec (half_import_head ++ rest) 1 0 80 [] 80 hb
  rw [hrec, List.nil_append] at hloop
  simp only [read_name_table, h1, h2, hu2, h3, fseek_CUR_nat, h4, hu4, h5, hu5, h6,
    fseek_SET_nat, hloop]

theorem import_records_zero :
    ∀ (n : Nat) (pre : List Nat),
      import_records (pre ++ List.replicate (28 * n) 0) n pre.length =
        List.replicate n ⟨0, 0, 0, 0⟩ := by
  intro n
  induction n with
  | zero => intro pre; rfl
  | succ n ih =>
    intro pre
    have hsplit : List.replicate (28 * (n + 1)) 0 =
        List.replicate 28 0 ++ List.replicate (28 * n) 0 := by
      rw [← List.replicate_add]
      congr 1
      omega
    have hrec : import_record_at (pre ++ List.replicate (28 * (n + 1)) 0) pre.length =
        ⟨0, 0, 0, 0⟩ := by
      rw [hsplit]
      unfold import_record_at
      have e0 := u32_at_append_right pre (List.replicate 28 0 ++ List.replicate (28 * n) 0) 0
      rw [Nat.add_zero] at e0
      rw [e0, u32_at_append_right, u32_at_append_right, u32_at_append_right,
        u32_at_append_left _ _ 0 (by decide), u32_at_append_left _ _ 8 (by decide),
        u32_at_append_left _ _ 16 (by decide), u32_at_append_left _ _ 20 (by decide)]
      decide!
    rw [import_records, hrec, List.replicate_succ]
    congr 1
    have := ih (pre ++ List.replicate 28 0)
    rw [List.length_append, List.length_replicate, List.append_assoc, ← hsplit] at this
    exact this

theorem read_import_table_half_import (s : State) (pos : Nat) :
    (read_import_table s ⟨half_import_package, pos⟩).1 =
      { s with import_table_size := 2 ^ 31,
               import_table := List.replicate (2 ^ 31) ⟨0, 0, 0, 0⟩,
               packages_imported := s.packages_imported + 2 ^ 31 } := by
  have hlen : half_import_package.length = 97 + 28 * 2 ^ 31 := by
    unfold half_import_package
    rw [List.length_append, half_import_head_length, List.length_replicate]
  have h1 : fseek_SET ⟨half_import_package, pos⟩ 0x0C = ⟨half_import_package, 0x0C⟩ :=
    fseek_SET_nat _ 12
  have h2 := fread_uint32_in_bounds 0 half_import_package 0x0C (by omega)
  have hu2 : u32_at half_import_package 0x0C = 0 := by
    unfold half_import_package
    rw [u32_at_half_import _ _ (by omega)]
    decide!
  have h3 : to_int32 ((0 + 0x14) % 2 ^ 32) = ((20 : Nat) : Int) := by decide
  have h4 := fread_uint32_in_bounds s.import_table_size half_import_package 36 (by omega)
  have hu4 : u32_at half_import_package 36 = 2 ^ 31 := by
    unfold half_import_package
    rw [u32_at_half_import _ _ (by omega)]
    decide!
  have h5 := fread_uint32_in_bounds 0 half_import_package 40 (by omega)
  have hu5 : u32_at half_import_package 40 = 97 := by
    unfold half_import_package
    rw [u32_at_half_import _ _ (by omega)]
    decide!
  have h6 : to_int32 97 = ((97 : Nat) : Int) := by decide
  have hrecs : import_records half_import_package (2 ^ 31) 97 =
      List.replicate (2 ^ 31) ⟨0, 0, 0, 0⟩ := by
    have := import_records_zero (2 ^ 31) half_import_head
    rw [half_import_head_length] at this
    exact this
  have hroots : (root_imports (List.replicate (2 ^ 31) (⟨0, 0, 0, 0⟩ : UDKImport))).length =
      2 ^ 31 := by
    unfold root_imports
    rw [List.filter_replicate]
    simp only [decide_True, if_true, List.length_replicate]
  have hloop := read_import_table_loop_spec half_import_package (2 ^ 31) 0 []
    s.packages_imported 97 (by intro i hi; rw [hlen]; omega)
  rw [hrecs, hroots, List.nil_append] at hloop
  simp only [read_import_table, h1, h2, hu2, h3, fseek_CUR_nat, h4, hu4, h5, hu5, h6,
    fseek_SET_nat, hloop]

theorem half_table_session_decoded :
    init_package_table (read_import_table (read_name_table {} ⟨half_import_package, 0⟩).1
      ⟨half_import_package, 0⟩).1 = some half_table_session := by
  have hn : (read_name_table {} ⟨half_import_package, 0⟩).1 =
      { name_table_size := 1, name_table := [str "Core" ++ [0]] } :=
    read_name_table_half_import {} _ 0
  rw [hn, read_import_table_half_import]
  have hroots : root_imports (List.replicate (2 ^ 31) (⟨0, 0, 0, 0⟩ : UDKImport)) =
      List.replicate (2 ^ 31) ⟨0, 0, 0, 0⟩ := by
    unfold root_imports
    rw [List.filter_replicate]
    simp only [decide_True, if_true]
  obtain ⟨last, _, hloop⟩ := init_package_table_loop_spec
    (List.replicate (2 ^ 31) (⟨0, 0, 0, 0⟩ : UDKImport)) (0 + 2 ^ 31) 0 []
    (by rw [hroots, List.length_replicate, Nat.zero_add])
  rw [hroots, List.map_replicate, List.nil_append] at hloop
  unfold init_package_table
  show (init_package_table_loop (List.replicate (2 ^ 31) (⟨0, 0, 0, 0⟩ : UDKImport))
    (0 + 2 ^ 31) 0 []).map _ = _
  rw [hloop]
  rfl

/-- Counterexample to C18. The image `half_import_package` holds `2 ^ 31`
root records, a count that fits the `uint32_t` of its header; decoding it and
`init_package_table` give `half_table_session`, where the invariant holds with
an empty list.  A first call of `build_dependency_list` leaves `2 ^ 31` nodes
and the count `2 ^ 31`; a second call leaves `2 ^ 32` nodes reachable from
`dependency_list_head` while `dependency_list_size`, a `uint32_t`, has wrapped
to 0. -/
theorem dependency_list_size_wraps :
    init_package_table (read_import_table (read_name_table {} ⟨half_import_package, 0⟩).1
      ⟨half_import_package, 0⟩).1 = some half_table_session ∧
    DependencyCounted half_table_session [] ∧
    (build_dependency_list half_table_session).dependency_list_size = 2 ^ 31 ∧
    (dependency_list_entries (build_dependency_list half_table_session)).length = 2 ^ 31 ∧
    (build_dependency_list (build_dependency_list half_table_session)).dependency_list_size
      = 0 ∧
    (dependency_list_entries
      (build_dependency_list (build_dependency_list half_table_session))).length = 2 ^ 32 := by
  have h0 : DependencyCounted half_table_session [] := dependency_counted_empty _ rfl rfl rfl
  obtain ⟨l1, hc1, hpi, hpt, hin, hmap1⟩ :=
    build_dependency_list_loop_counted (2 ^ 31) 0 half_table_session [] h0
  have hb : build_dependency_list_loop (2 ^ 31) 0 half_table_session =
      build_dependency_list half_table_session := rfl
  rw [hb] at hc1 hpi hpt hin
  have hall : (List.range' 0 (2 ^ 31)).filter (fun i => !is_in_against_list half_table_session
      (half_table_session.package_table.getD i default).GUID) = List.range' 0 (2 ^ 31) := by
    apply List.filter_eq_self.2
    intro i _
    rfl
  rw [hall, List.map_nil, List.nil_append] at hmap1
  have hlen1 : l1.length = 2 ^ 31 := by
    have := congrArg List.length hmap1
    rw [List.length_map, List.length_range'] at this
    exact this
  have hpi2 : (build_dependency_list half_table_session).packages_imported = 2 ^ 31 := hpi
  obtain ⟨l2, hc2, _, _, _, hmap2⟩ :=
    build_dependency_list_loop_counted (2 ^ 31) 0 (build_dependency_list half_table_session)
      l1 hc1
  have hb2 : build_dependency_list_loop (2 ^ 31) 0 (build_dependency_list half_table_session) =
      build_dependency_list (build_dependency_list half_table_session) := by
    show _ = build_dependency_list_loop
      (build_dependency_list half_table_session).packages_imported 0 _
    rw [hpi2]
  rw [hb2] at hc2
  simp only [hin, hpt] at hmap2
  rw [hall] at hmap2
  have hlen2 : l2.length = 2 ^ 32 := by
    have := congrArg List.length hmap2
    rw [List.length_map, List.length_append, List.length_map, List.length_range', hlen1] at this
    rw [this]
    norm_num
  refine ⟨half_table_session_decoded, h0, ?_, ?_, ?_, ?_⟩
  · rw [hc1.size, hlen1]
    norm_num
  · rw [dependency_counted_entries _ _ hc1, List.length_map, hlen1]
  · rw [hc2.size, hlen2, Nat.mod_self]
  · rw [dependency_counted_entries _ _ hc2, List.length_map, hlen2]

/-- C18, amended. The counted-list invariant holds of the initial state and
is preserved by `build_dependency_list`: afterwards the chain from
`dependency_list_head` ends in `dependency_list_last` (absent exactly when the
chain is empty) and `dependency_list_size` is the number of its nodes modulo
`2 ^ 32`, hence that number itself while the list has fewer than `2 ^ 32`
nodes.  `write_dependency_list` writes that count followed by sixteen bytes
for every node.  `print_dependency_list` writes the same count in decimal in
its header, followed by one line for every node; it has a defined result
exactly when every listed entry has a name inside the name table and a path. -/
theorem dependency_list_counted (s : State) (l : List (Nat × Nat))
    (h : DependencyCounted s l) (out : List Nat) :
    DependencyCounted ({} : State) [] ∧
    ∃ l2, DependencyCounted (build_dependency_list s) l2 ∧
      dependency_list_entries (build_dependency_list s) = l2.map Prod.snd ∧
      (build_dependency_list s).dependency_list_last = (l2.map Prod.fst).getLast? ∧
      ((build_dependency_list s).dependency_list_last = none ↔
        dependency_list_entries (build_dependency_list s) = []) ∧
      (build_dependency_list s).dependency_list_size =
        (dependency_list_entries (build_dependency_list s)).length % 2 ^ 32 ∧
      ((dependency_list_entries (build_dependency_list s)).length < 2 ^ 32 →
        (build_dependency_list s).dependency_list_size =
          (dependency_list_entries (build_dependency_list s)).length) ∧
      write_dependency_list (build_dependency_list s) out =
        out ++ le_bytes (build_dependency_list s).dependency_list_size ++
          (dependency_list_entries (build_dependency_list s)).flatMap
            (fun i => ((build_dependency_list s).package_table.getD i default).GUID.bytes) ∧
      print_dependency_list (build_dependency_list s) out =
        (dependency_lines (build_dependency_list s)
            (dependency_list_entries (build_dependency_list s))).map
          (fun lines => out ++ utoa (build_dependency_list s).dependency_list_size ++
            str " dependencies:\n" ++ lines.flatten) ∧
      (∀ lines, dependency_lines (build_dependency_list s)
          (dependency_list_entries (build_dependency_list s)) = some lines →
        lines.length = (dependency_list_entries (build_dependency_list s)).length) ∧
      ((print_dependency_list (build_dependency_list s) out).isSome = true ↔
        ∀ i ∈ dependency_list_entries (build_dependency_list s),
          (dependency_line (build_dependency_list s) i).isSome = true) := by
  refine ⟨dependency_counted_empty _ rfl rfl rfl, ?_⟩
  obtain ⟨l2, hc, _, _, _, _⟩ :=
    build_dependency_list_loop_counted s.packages_imported 0 s l h
  have hb : build_dependency_list_loop s.packages_imported 0 s = build_dependency_list s := rfl
  rw [hb] at hc
  have hE := dependency_counted_entries _ _ hc
  have hsz : (build_dependency_list s).dependency_list_size =
      (dependency_list_entries (build_dependency_list s)).length % 2 ^ 32 := by
    rw [hc.size, hE, List.length_map]
  have hprint : print_dependency_list (build_dependency_list s) out =
      (dependency_lines (build_dependency_list s)
          (dependency_list_entries (build_dependency_list s))).map
        (fun lines => out ++ utoa (build_dependency_list s).dependency_list_size ++
          str " dependencies:\n" ++ lines.flatten) := by
    unfold print_dependency_list
    rw [print_dependency_list_loop_of_chain _ l2 _ _ _ hc.inv.chain hc.inv.len, hE]
  refine ⟨l2, hc, hE, hc.inv.last, ?_, hsz, ?_, ?_, hprint, ?_, ?_⟩
  · rw [hc.inv.last, hE]
    cases l2 with
    | nil => simp
    | cons x xs =>
      have hne : List.map Prod.fst (x :: xs) ≠ [] := by simp
      rw [List.getLast?_eq_getLast _ hne]
      simp
  · intro hlt
    rw [hsz, Nat.mod_eq_of_lt hlt]
  · unfold write_dependency_list
    rw [write_dependency_list_loop_of_chain _ l2 _ _ _ hc.inv.chain hc.inv.len, hE]
  · exact dependency_lines_length _ _
  · rw [hprint, Option.isSome_map']
    exact dependency_lines_isSome _ _

/-- Witness of C18, amended: the session of two packages, from the initial
dependency globals; the one dependency is counted, written and printed. -/
theorem dependency_list_counted_witness :
    DependencyCounted printed_session [] ∧
    dependency_list_entries (build_dependency_list printed_session) = [0] ∧
    (build_dependency_list printed_session).dependency_list_size = 1 ∧
    write_dependency_list (build_dependency_list printed_session) [] =
      le_bytes 1 ++ Guid.bytes ⟨1, 1, 1, 1⟩ ∧
    print_dependency_list (build_dependency_list printed_session) [] =
      some (str "1 dependencies:\n00000001000000010000000100000001 | A | x\\A.upk\n") := by
  obtain ⟨_, l2, _, _, _, _, _, hlt, hw, hp, _, _⟩ :=
    dependency_list_counted printed_session [] (dependency_counted_empty _ rfl rfl rfl) []
  have hE : dependency_list_entries (build_dependency_list printed_session) = [0] := by decide!
  refine ⟨dependency_counted_empty _ rfl rfl rfl, hE, ?_, ?_, ?_⟩
  · rw [hlt (by rw [hE]; decide), hE]
    rfl
  · rw [hw]
    decide!
  · rw [hp]
    decide!

/-! ### The per-file test of the resolver -/

theorem str_find_suffix_loop_iff : ∀ (a b : List Nat),
    str_find_suffix_loop a b = true ↔ ∃ t, a = b ++ t := by
  intro a
  induction a with
  | nil =>
    intro b
    cases b with
    | nil => simp [str_find_suffix_loop]
    | cons d b => simp [str_find_suffix_loop]
  | cons c a ih =>
    intro b
    cases b with
    | nil => simp [str_find_suffix_loop]
    | cons d b =>
      simp only [str_find_suffix_loop, List.cons_append, List.cons.injEq]
      by_cases hcd : c = d
      · subst hcd
        simp [ih b]
      · simp [hcd]

theorem str_find_suffix_eq_some (str suffix : List Nat) (k : Nat) :
    str_find_suffix str suffix = some k ↔ ∃ S, str = S ++ suffix ∧ k = S.length := by
  unfold str_find_suffix
  constructor
  · intro h
    split at h
    · cases h
    · split at h
      · rename_i hlen hloop
        obtain ⟨t, ht⟩ := (str_find_suffix_loop_iff _ _).1 hloop
        have hs : str = t.reverse ++ suffix := by
          have := congrArg List.reverse ht
          simpa using this
        refine ⟨t.reverse, hs, ?_⟩
        cases h
        rw [hs]
        simp
      · cases h
  · rintro ⟨S, rfl, rfl⟩
    have h1 : ¬ (S ++ suffix).length < suffix.length := by simp
    have h2 : str_find_suffix_loop (S ++ suffix).reverse suffix.reverse = true :=
      (str_find_suffix_loop_iff _ _).2 ⟨S.reverse, by simp⟩
    rw [if_neg h1, if_pos h2, List.length_append, Nat.add_sub_cancel]

theorem str_find_suffix_eq_none (str suffix : List Nat) :
    str_find_suffix str suffix = none ↔ ¬ ∃ S, str = S ++ suffix := by
  constructor
  · rintro h ⟨S, hS⟩
    have := (str_find_suffix_eq_some str suffix S.length).2 ⟨S, hS, rfl⟩
    rw [h] at this
    cases this
  · intro h
    cases hk : str_find_suffix str suffix with
    | none => rfl
    | some k =>
      obtain ⟨S, hS, _⟩ := (str_find_suffix_eq_some str suffix k).1 hk
      exact absurd ⟨S, hS⟩ h

theorem suffix_upk_udk (S T : List Nat) : S ++ str ".upk" ≠ T ++ str ".udk" := by
  intro h
  have := congrArg List.reverse h
  simp [str] at this

theorem suffix_upk_u (S T : List Nat) : S ++ str ".upk" ≠ T ++ str ".u" := by
  intro h
  have := congrArg List.reverse h
  simp [str] at this

theorem suffix_udk_u (S T : List Nat) : S ++ str ".udk" ≠ T ++ str ".u" := by
  intro h
  have := congrArg List.reverse h
  simp [str] at this

/-- The suffix test yields an extension and a pointer exactly for a name that
ends in the literal suffix of that extension, the pointer being the start of
the suffix. -/
theorem find_extension_eq_some (F : List Nat) (tmp : Nat) (e : UDKPackage_Extension) :
    find_extension F = (some tmp, e) ↔
      ∃ S X, extension_suffix e = some X ∧ F = S ++ X ∧ tmp = S.length := by
  unfold find_extension
  cases h1 : str_find_suffix F (str ".upk") with
  | some k =>
    obtain ⟨S, hS, hk⟩ := (str_find_suffix_eq_some _ _ _).1 h1
    simp only [Prod.mk.injEq, Option.some.injEq]
    constructor
    · rintro ⟨rfl, rfl⟩
      exact ⟨S, _, rfl, hS, hk⟩
    · rintro ⟨T, X, hX, hF, hT⟩
      cases e with
      | ext_UNKNOWN => cases hX
      | ext_UPK =>
        cases hX
        have := List.append_inj_left' (hS.symm.trans hF) rfl
        exact ⟨by rw [hk, hT, this], rfl⟩
      | ext_UDK =>
        cases hX
        exact absurd (hS.symm.trans hF) (suffix_upk_udk S T)
      | ext_U =>
        cases hX
        exact absurd (hS.symm.trans hF) (suffix_upk_u S T)
  | none =>
    have n1 := (str_find_suffix_eq_none _ _).1 h1
    cases h2 : str_find_suffix F (str ".udk") with
    | some k =>
      obtain ⟨S, hS, hk⟩ := (str_find_suffix_eq_some _ _ _).1 h2
      simp only [Prod.mk.injEq, Option.some.injEq]
      constructor
      · rintro ⟨rfl, rfl⟩
        exact ⟨S, _, rfl, hS, hk⟩
      · rintro ⟨T, X, hX, hF, hT⟩
        cases e with
        | ext_UNKNOWN => cases hX
        | ext_UPK =>
          cases hX
          exact absurd ⟨T, hF⟩ n1
        | ext_UDK =>
          cases hX
          have := List.append_inj_left' (hS.symm.trans hF) rfl
          exact ⟨by rw [hk, hT, this], rfl⟩
        | ext_U =>
          cases hX
          exact absurd (hS.symm.trans hF) (suffix_udk_u S T)
    | none =>
      have n2 := (str_find_suffix_eq_none _ _).1 h2
      cases h3 : str_find_suffix F (str ".u") with
      | some k =>
        obtain ⟨S, hS, hk⟩ := (str_find_suffix_eq_some _ _ _).1 h3
        simp only [Prod.mk.injEq, Option.some.injEq]
        constructor
        · rintro ⟨rfl, rfl⟩
          exact ⟨S, _, rfl, hS, hk⟩
        · rintro ⟨T, X, hX, hF, hT⟩
          cases e with
          | ext_UNKNOWN => cases hX
          | ext_UPK =>
            cases hX
            exact absurd ⟨T, hF⟩ n1
          | ext_UDK =>
            cases hX
            exact absurd ⟨T, hF⟩ n2
          | ext_U =>
            cases hX
            have := List.append_inj_left' (hS.symm.trans hF) rfl
            exact ⟨by rw [hk, hT, this], rfl⟩
      | none =>
        have n3 := (str_find_suffix_eq_none _ _).1 h3
        simp only [Prod.mk.injEq]
        constructor
        · rintro ⟨h, _⟩
          cases h
        · rintro ⟨T, X, hX, hF, hT⟩
          cases e with
          | ext_UNKNOWN => cases hX
          | ext_UPK =>
            cases hX
            exact absurd ⟨T, hF⟩ n1
          | ext_UDK =>
            cases hX
            exact absurd ⟨T, hF⟩ n2
          | ext_U =>
            cases hX
            exact absurd ⟨T, hF⟩ n3

theorem c_str_append_zero : ∀ (N rest : List Nat), (∀ c ∈ N, c ≠ 0) →
    c_str (N ++ 0 :: rest) = N := by
  intro N
  induction N with
  | nil => intro rest _; simp [c_str_cons]
  | cons y N ih =>
    intro rest h
    have hy : y ≠ 0 := h y (List.mem_cons_self _ _)
    rw [List.cons_append, c_str_cons, if_neg hy, ih rest (fun c hc => h c (List.mem_cons_of_mem _ hc))]

/-- C20. For a file name `F` and a package name `N` without NUL bytes, `N`
being held in a NUL-terminated buffer, the suffix test followed by
`streql_2ptr` accepts `F` for `N` with extension `e` exactly when `F = S ++ X`
with `X` the literal lower-case suffix of `e` (`.upk`, `.udk` or `.u`) and `S`
of the length of `N` and equal to `N` after `toupper`; a name ends in at most
one of the three suffixes. -/
theorem resolver_file_test (F N rest : List Nat) (e : UDKPackage_Extension)
    (hF : ∀ c ∈ F, c ≠ 0) (hN : ∀ c ∈ N, c ≠ 0) :
    ((∃ tmp, find_extension F = (some tmp, e) ∧ streql_2ptr F tmp (N ++ 0 :: rest) = true) ↔
      ∃ S X, extension_suffix e = some X ∧ F = S ++ X ∧ S.length = N.length ∧
        S.map toupper = N.map toupper) ∧
    (∀ S T X Y e2, extension_suffix e = some X → extension_suffix e2 = some Y →
      F = S ++ X → F = T ++ Y → e = e2 ∧ S = T) := by
  constructor
  · constructor
    · rintro ⟨tmp, hfe, hst⟩
      obtain ⟨S, X, hX, hFS, htmp⟩ := (find_extension_eq_some F tmp e).1 hfe
      have htake : F.take tmp = S := by rw [hFS, htmp, List.take_left']; rfl
      have hnz : ∀ c ∈ F.take tmp, c ≠ 0 := fun c hc => hF c (List.mem_of_mem_take hc)
      have hm := (streql_2ptr_iff F tmp _ hnz).1 hst
      rw [htake, c_str_append_zero N rest hN] at hm
      refine ⟨S, X, hX, hFS, ?_, hm⟩
      have := congrArg List.length hm
      simpa using this
    · rintro ⟨S, X, hX, hFS, _, hm⟩
      refine ⟨S.length, (find_extension_eq_some F S.length e).2 ⟨S, X, hX, hFS, rfl⟩, ?_⟩
      have htake : F.take S.length = S := by rw [hFS, List.take_left']; rfl
      have hnz : ∀ c ∈ F.take S.length, c ≠ 0 := fun c hc => hF c (List.mem_of_mem_take hc)
      apply (streql_2ptr_iff F S.length _ hnz).2
      rw [htake, c_str_append_zero N rest hN]
      exact hm
  · intro S T X Y e2 hX hY h1 h2
    have h12 : find_extension F = (some S.length, e) :=
      (find_extension_eq_some F S.length e).2 ⟨S, X, hX, h1, rfl⟩
    have h22 : find_extension F = (some T.length, e2) :=
      (find_extension_eq_some F T.length e2).2 ⟨T, Y, hY, h2, rfl⟩
    rw [h12] at h22
    simp only [Prod.mk.injEq, Option.some.injEq] at h22
    obtain ⟨hlen, he⟩ := h22
    subst he
    rw [hX] at hY
    cases hY
    exact ⟨rfl, List.append_inj_left' (h1.symm.trans h2) rfl⟩

/-- Witness of C20: the file `foo.upk` is accepted for the package name `Foo`
with extension `ext_UPK`. -/
theorem resolver_file_test_witness :
    ∃ tmp, find_extension (str "foo.upk") = (some tmp, .ext_UPK) ∧
      streql_2ptr (str "foo.upk") tmp (str "Foo" ++ 0 :: []) = true :=
  (resolver_file_test (str "foo.upk") (str "Foo") [] .ext_UPK (by decide) (by decide)).1.2
    ⟨str "foo", str ".upk", rfl, by decide, by decide, by decide⟩

/-- Counterexample to C19: the image holds five names and a root import
record whose object name index is 7.  The decoders accept it; afterwards
`print_import_table`, the comparison loop of `build_package_table` (for any
file with a recognised suffix) and `print_package_table` all read
`name_table[7]`. -/
theorem name_index_out_of_range :
    wild_index_session.name_table_size = 5 ∧
    wild_index_session.name_table.length = 5 ∧
    (init_package_table wild_index_session).map print_import_table_reads =
      some [3, 4, 0, 3, 4, 7, 3, 4, 2] ∧
    (init_package_table wild_index_session).map
      (fun t => build_package_table_reads t (str "game\\*") [.file (str "x.upk") none]) =
      some [0, 7] ∧
    (init_package_table wild_index_session).map
      (fun t => print_package_table_reads
        (build_package_table t (str "game\\*") [.file (str "x.upk") none])) = some [0, 7] := by
  decide!
/-! ### Name-table reads stay among the indices of the package table -/

theorem build_package_table_loop_reads_mem (s : State) (cFileName : List Nat) (tmp : Nat) :
    ∀ (n tmp_index : Nat), ∀ x ∈ build_package_table_loop_reads s cFileName tmp n tmp_index,
      ∃ i, i < tmp_index + n ∧ x = (s.package_table.getD i default).name_index := by
  intro n
  induction n with
  | zero =>
    intro tmp_index x hx
    simp [build_package_table_loop_reads] at hx
  | succ n ih =>
    intro tmp_index x hx
    rw [build_package_table_loop_reads, List.mem_cons] at hx
    rcases hx with rfl | hx
    · exact ⟨tmp_index, by omega, rfl⟩
    · split at hx
      · simp at hx
      · obtain ⟨i, hi, hxi⟩ := ih (tmp_index + 1) x hx
        exact ⟨i, by omega, hxi⟩

theorem build_package_table_file_reads_mem (s : State) (cFileName : List Nat) :
    ∀ x ∈ build_package_table_file_reads s cFileName,
      ∃ i, i < s.packages_imported ∧ x = (s.package_table.getD i default).name_index := by
  intro x hx
  unfold build_package_table_file_reads at hx
  split at hx
  · obtain ⟨i, hi, hxi⟩ := build_package_table_loop_reads_mem s cFileName _ _ 0 x hx
    exact ⟨i, by omega, hxi⟩
  · simp at hx

theorem build_package_table_entry_keys (s : State) (directory : List Nat) (e : DirEntry) :
    SameKeys s (build_package_table_entry s directory e) := by
  rw [build_package_table_entry_eq_walk]
  exact resolve_files_keys _ s

theorem build_package_table_keys (s : State) (directory : List Nat) (entries : List DirEntry) :
    SameKeys s (build_package_table s directory entries) := by
  rw [build_package_table_eq_walk]
  exact resolve_files_keys _ s

mutual
theorem build_package_table_reads_mem (directory : List Nat) :
    ∀ (entries : List DirEntry) (s : State), ∀ x ∈ build_package_table_reads s directory entries,
      ∃ i, i < s.packages_imported ∧ x = (s.package_table.getD i default).name_index
  | [], s => by
    intro x hx
    simp [build_package_table_reads] at hx
  | e :: rest, s => by
    intro x hx
    rw [build_package_table_reads, List.mem_append] at hx
    rcases hx with hx | hx
    · exact build_package_table_entry_reads_mem directory e s x hx
    · have hk := build_package_table_entry_keys s directory e
      obtain ⟨i, hi, hxi⟩ := build_package_table_reads_mem directory rest _ x hx
      exact ⟨i, by rw [← hk.packages_imported]; exact hi,
        by rw [hxi, sameKeys_name_index_getD hk]⟩
theorem build_package_table_entry_reads_mem (directory : List Nat) :
    ∀ (e : DirEntry) (s : State), ∀ x ∈ build_package_table_entry_reads s directory e,
      ∃ i, i < s.packages_imported ∧ x = (s.package_table.getD i default).name_index
  | .file cFileName contents, s => by
    intro x hx
    rw [build_package_table_entry_reads] at hx
    exact build_package_table_file_reads_mem s cFileName x hx
  | .dir cFileName entries, s => by
    intro x hx
    rw [build_package_table_entry_reads] at hx
    split at hx
    · exact build_package_table_reads_mem _ entries s x hx
    · simp at hx
end

theorem init_slot_name_index_getD (roots : List UDKImport) (i : Nat) (hi : i < roots.length) :
    ((roots.map init_slot).getD i default).name_index = (roots.get ⟨i, hi⟩).object_name_index := by
  have h : (roots.map init_slot)[i]? = some (init_slot (roots.get ⟨i, hi⟩)) := by
    rw [List.getElem?_map, List.getElem?_eq_getElem hi]
    rfl
  rw [List.getD_eq_getElem?_getD, h]
  rfl

/-- C19, amended. When every import record carries name indices below the
name count, `init_package_table` returns, and every index at which
`print_import_table`, the comparison loop of `build_package_table` and
`print_package_table` read `name_table` is below the name count.  The code
holds no check of its own: the bound on the records is what keeps the reads
in range. -/
theorem name_table_reads_in_range (s : State) (directory : List Nat) (entries : List DirEntry)
    (hn : s.name_table_size = s.name_table.length)
    (hsz : s.import_table_size = s.import_table.length)
    (hpi : s.packages_imported = (root_imports s.import_table).length)
    (hrec : ∀ r ∈ s.import_table, r.package_name_index < s.name_table_size ∧
      r.class_name_index < s.name_table_size ∧ r.object_name_index < s.name_table_size) :
    ∃ t, init_package_table s = some t ∧
      (∀ x ∈ print_import_table_reads t, x < t.name_table.length) ∧
      (∀ x ∈ build_package_table_reads t directory entries, x < t.name_table.length) ∧
      (∀ x ∈ print_package_table_reads (build_package_table t directory entries),
        x < (build_package_table t directory entries).name_table.length) := by
  obtain ⟨last, _, heq⟩ := init_package_table_loop_spec s.import_table s.packages_imported 0 [] hpi
  have hinit : init_package_table s =
      some { s with package_table := (root_imports s.import_table).map init_slot } := by
    simp [init_package_table, heq]
  have hslot : ∀ i, i < s.packages_imported →
      (((root_imports s.import_table).map init_slot).getD i default).name_index <
        s.name_table.length := by
    intro i hi
    have hi2 : i < (root_imports s.import_table).length := by omega
    rw [init_slot_name_index_getD _ i hi2, ← hn]
    have hmem : (root_imports s.import_table).get ⟨i, hi2⟩ ∈ s.import_table :=
      List.mem_of_mem_filter (List.get_mem _ _ _)
    exact (hrec _ hmem).2.2
  refine ⟨_, hinit, ?_, ?_, ?_⟩
  · intro x hx
    simp only [print_import_table_reads, List.mem_flatMap, List.mem_range] at hx
    obtain ⟨index, hindex, hx⟩ := hx
    have hlt : index < s.import_table.length := by omega
    have hg : s.import_table.getD index ⟨0, 0, 0, 0⟩ = s.import_table.get ⟨index, hlt⟩ := by
      rw [List.getD_eq_getElem?_getD, List.getElem?_eq_getElem hlt]
      rfl
    have hr := hrec _ (List.get_mem s.import_table index hlt)
    rw [hg] at hx
    simp only [List.mem_cons, List.mem_singleton, List.not_mem_nil, or_false] at hx
    show x < s.name_table.length
    rw [← hn]
    rcases hx with rfl | rfl | rfl
    · exact hr.1
    · exact hr.2.1
    · exact hr.2.2
  · intro x hx
    obtain ⟨i, hi, hxi⟩ := build_package_table_reads_mem directory entries _ x hx
    rw [hxi]
    exact hslot i hi
  · intro x hx
    have hk := build_package_table_keys
      { s with package_table := (root_imports s.import_table).map init_slot } directory entries
    simp only [print_package_table_reads, List.mem_map, List.mem_range] at hx
    obtain ⟨i, hi, rfl⟩ := hx
    rw [sameKeys_name_index_getD hk, hk.name_table]
    rw [hk.packages_imported] at hi
    exact hslot i hi

/-- Witness of C19, amended: the decoded sample package, whose records carry
the name indices 0 to 4 against five names. -/
theorem name_table_reads_in_range_witness :
    ∃ t, init_package_table scenario_session = some t ∧
      ∀ x ∈ print_import_table_reads t, x < t.name_table.length := by
  obtain ⟨t, h1, h2, _, _⟩ := name_table_reads_in_range scenario_session (str "game\\*")
    scenario_tree (by decide!) (by decide!) (by decide!) (by decide!)
  exact ⟨t, h1, h2⟩

/-! ### Termination of the package table initialisation -/

theorem init_package_table_loop_reads :
    ∀ (l : List UDKImport) (n index : Nat) (acc : List UDKPackage),
      n = (root_imports l).length →
      ∃ pt last, init_package_table_loop l n index acc = some (pt, last) ∧
        last ≤ index + l.length ∧
        pt.length = acc.length + n ∧
        init_package_table_reads l n index = List.range' index (last - index) ∧
        index ≤ last := by
  intro l
  induction l with
  | nil =>
    intro n index acc h
    simp only [root_imports, List.filter_nil, List.length_nil] at h
    subst h
    exact ⟨acc, index, rfl, by simp, rfl, by simp [init_package_table_reads], le_refl _⟩
  | cons r rest ih =>
    intro n index acc h
    by_cases hr : r.package_reference = 0
    · have hroot : root_imports (r :: rest) = r :: root_imports rest := by
        simp [root_imports, hr]
      rw [hroot, List.length_cons] at h
      subst h
      obtain ⟨pt, last, heq, hle, hlen, hreads, hge⟩ :=
        ih (root_imports rest).length (index + 1) (acc ++ [init_slot r]) rfl
      refine ⟨pt, last, ?_, ?_, ?_, ?_, by omega⟩
      · rw [init_package_table_loop, if_pos hr, heq]
      · simp only [List.length_cons]; omega
      · rw [hlen, List.length_append, List.length_singleton]; omega
      · rw [init_package_table_reads, if_pos hr, hreads]
        have : last - index = (last - (index + 1)) + 1 := by omega
        rw [this, List.range'_succ]
    · have hroot : root_imports (r :: rest) = root_imports rest := by
        simp [root_imports, hr]
      rw [hroot] at h
      cases n with
      | zero =>
        exact ⟨acc, index, rfl, by omega, rfl, by simp [init_package_table_reads], le_refl _⟩
      | succ m =>
        obtain ⟨pt, last, heq, hle, hlen, hreads, hge⟩ := ih (m + 1) (index + 1) acc h
        refine ⟨pt, last, ?_, ?_, hlen, ?_, by omega⟩
        · rw [init_package_table_loop, if_neg hr, heq]
        · simp only [List.length_cons]; omega
        · rw [init_package_table_reads, if_neg hr, hreads]
          have : last - index = (last - (index + 1)) + 1 := by omega
          rw [this, List.range'_succ]

/-- C23. For an import table of `import_table_size` records of which
`packages_imported` have `package_reference == 0`, the loop of
`init_package_table` returns after `last` iterations with
`last ≤ import_table_size`: it reads the indices `0, 1, ..., last - 1`, each
below `import_table_size`, and writes exactly `packages_imported` slots. -/
theorem init_package_table_terminates (s : State)
    (hsz : s.import_table_size = s.import_table.length)
    (hpi : s.packages_imported = (root_imports s.import_table).length) :
    ∃ pt last,
      init_package_table_loop s.import_table s.packages_imported 0 [] = some (pt, last) ∧
      init_package_table s = some { s with package_table := pt } ∧
      last ≤ s.import_table_size ∧
      pt.length = s.packages_imported ∧
      init_package_table_reads s.import_table s.packages_imported 0 = List.range last ∧
      ∀ x ∈ init_package_table_reads s.import_table s.packages_imported 0,
        x < s.import_table_size := by
  obtain ⟨pt, last, heq, hle, hlen, hreads, _⟩ :=
    init_package_table_loop_reads s.import_table s.packages_imported 0 [] hpi
  rw [Nat.zero_add] at hle
  rw [Nat.sub_zero, ← List.range_eq_range'] at hreads
  refine ⟨pt, last, heq, ?_, by omega, by simpa using hlen, hreads, ?_⟩
  · simp [init_package_table, heq]
  · intro x hx
    rw [hreads, List.mem_range] at hx
    omega

/-- Witness of C23: two root records around a record with reference 5; the
loop reads the indices 0, 1 and 2 and writes two slots. -/
theorem init_package_table_terminates_witness :
    ∃ pt last,
      init_package_table_loop [⟨3, 4, 0, 7⟩, ⟨3, 4, 5, 8⟩, ⟨3, 4, 0, 9⟩] 2 0 [] = some (pt, last) ∧
      last ≤ 3 ∧ pt.length = 2 := by
  obtain ⟨pt, last, h1, _, h3, h4, _, _⟩ := init_package_table_terminates
    { import_table := [⟨3, 4, 0, 7⟩, ⟨3, 4, 5, 8⟩, ⟨3, 4, 0, 9⟩], import_table_size := 3,
      packages_imported := 2 } rfl rfl
  exact ⟨pt, last, h1, h3, h4⟩

/-- C21, the failing inputs evaluated.  Each test of
`get_extension_from_filename` returns when `strcmpi` is not zero, that is when
the text differs: `Name.upk` is classified `ext_UDK` and comes back from
`extension_as_string` as `udk`, `Name.udk` is classified `ext_UPK`, `Name.u`
and `Name.txt` are classified `ext_UDK`; only a name without `.` gets
`ext_UNKNOWN`. -/
theorem get_extension_from_filename_inverted :
    get_extension_from_filename (str "Name.upk") 8 = .ext_UDK ∧
    extension_as_string (get_extension_from_filename (str "Name.upk") 8) = str "udk" ∧
    get_extension_from_filename (str "Name.udk") 8 = .ext_UPK ∧
    extension_as_string (get_extension_from_filename (str "Name.udk") 8) = str "upk" ∧
    get_extension_from_filename (str "Name.u") 6 = .ext_UDK ∧
    extension_as_string (get_extension_from_filename (str "Name.u") 6) = str "udk" ∧
    get_extension_from_filename (str "Name.txt") 8 = .ext_UDK ∧
    get_extension_from_filename (str "Name") 4 = .ext_UNKNOWN := by
  decide!
/-! ### The classifier of the base package name -/

theorem tolower_eq_zero (c : Nat) : tolower c = 0 ↔ c = 0 := by
  unfold tolower
  split <;> omega

theorem strcmpi_eq_zero_iff : ∀ (a b : List Nat),
    strcmpi a b = 0 ↔ (c_str a).map tolower = (c_str b).map tolower := by
  intro a
  induction a with
  | nil =>
    intro b
    cases b with
    | nil => simp [strcmpi, c_str_nil, tolower]
    | cons y b =>
      rw [strcmpi, c_str_nil, c_str_cons]
      simp only [List.headD_cons]
      by_cases h : y = 0
      · subst h
        simp [tolower]
      · have ht : ¬ tolower y = 0 := fun e => h ((tolower_eq_zero y).1 e)
        simp [h, ht]
  | cons x a ih =>
    intro b
    cases b with
    | nil =>
      rw [strcmpi, c_str_nil, c_str_cons]
      simp only [List.headD_nil, List.tail_nil]
      have h0 : tolower 0 = 0 := rfl
      rw [h0]
      by_cases h : x = 0
      · subst h
        simp [h0]
      · have ht : ¬ tolower x = 0 := fun e => h ((tolower_eq_zero x).1 e)
        have hpos : 0 < tolower x := Nat.pos_of_ne_zero ht
        simp [h, hpos]
    | cons y b =>
      rw [strcmpi, c_str_cons, c_str_cons]
      simp only [List.headD_cons, List.tail_cons]
      by_cases hx : x = 0
      · subst hx
        have h0 : tolower 0 = 0 := rfl
        rw [h0]
        by_cases hy : y = 0
        · subst hy
          simp [h0]
        · have ht : ¬ tolower y = 0 := fun e => hy ((tolower_eq_zero y).1 e)
          have hpos : 0 < tolower y := Nat.pos_of_ne_zero ht
          simp [hy, hpos]
      · have htx : ¬ tolower x = 0 := fun e => hx ((tolower_eq_zero x).1 e)
        by_cases hy : y = 0
        · subst hy
          have h0 : tolower 0 = 0 := rfl
          have hpos : 0 < tolower x := Nat.pos_of_ne_zero htx
          simp [hx, h0, hpos]
        · simp only [if_neg hx, if_neg hy, List.map_cons, List.cons.injEq]
          by_cases hlt : tolower x < tolower y
          · have hne : ¬ tolower x = tolower y := by omega
            simp [hlt, hne]
          · by_cases hgt : tolower y < tolower x
            · have hne : ¬ tolower x = tolower y := by omega
              simp [hlt, hgt, hne]
            · have heq : tolower x = tolower y := by omega
              have hty : ¬ tolower y = 0 := by rw [← heq]; exact htx
              simp [heq, hty, ih b]

/-- What `get_extension_from_filename` computes: `ext_UNKNOWN` for a name
without `.`; otherwise, with the text after the last `.`, `ext_UPK` when that
text equals `udk` ignoring case and `ext_UDK` in every other case.  The value
`ext_U` is never returned. -/
theorem get_extension_from_filename_eq (filename : List Nat) :
    ∀ (n : Nat),
      ((∀ i, i < n → filename.getD i 0 ≠ 46) →
        get_extension_from_filename filename n = .ext_UNKNOWN) ∧
      (∀ i, i < n → filename.getD i 0 = 46 →
        (∀ j, i < j → j < n → filename.getD j 0 ≠ 46) →
        get_extension_from_filename filename n =
          if (c_str (filename.drop (i + 1))).map tolower = str "udk" then .ext_UPK
          else .ext_UDK) := by
  intro n
  induction n with
  | zero =>
    refine ⟨fun _ => rfl, fun i hi => ?_⟩
    omega
  | succ n ih =>
    obtain ⟨ih1, ih2⟩ := ih
    constructor
    · intro h
      have hn : filename.getD n 0 ≠ 46 := h n (by omega)
      have hb : (filename.getD n 0 == 46) = false := by simpa using hn
      unfold get_extension_from_filename at ih1 ⊢
      rw [get_extension_from_filename_loop, hb]
      exact ih1 (fun i hi => h i (by omega))
    · intro i hi hdot hlast
      unfold get_extension_from_filename at ih2 ⊢
      by_cases hin : i = n
      · subst hin
        have hb : (filename.getD i 0 == 46) = true := by simpa using hdot
        rw [get_extension_from_filename_loop, hb]
        simp only [if_true]
        have hudk : (c_str (str "udk")).map tolower = str "udk" := by decide
        have hupk : (c_str (str "upk")).map tolower = str "upk" := by decide
        by_cases he : (c_str (filename.drop (i + 1))).map tolower = str "udk"
        · have h1 : strcmpi (filename.drop (i + 1)) (str "udk") = 0 :=
            (strcmpi_eq_zero_iff _ _).2 (by rw [he, hudk])
          have h2 : ¬ strcmpi (filename.drop (i + 1)) (str "upk") = 0 := by
            intro h
            have := (strcmpi_eq_zero_iff _ _).1 h
            rw [he, hupk] at this
            revert this
            decide
          simp [h1, h2, he]
        · have h1 : ¬ strcmpi (filename.drop (i + 1)) (str "udk") = 0 := by
            intro h
            have := (strcmpi_eq_zero_iff _ _).1 h
            rw [hudk] at this
            exact he this
          simp [h1, he]
      · have hn : filename.getD n 0 ≠ 46 := hlast n (by omega) (by omega)
        have hb : (filename.getD n 0 == 46) = false := by simpa using hn
        rw [get_extension_from_filename_loop, hb]
        exact ih2 i (by omega) hdot (fun j h1 h2 => hlast j h1 (by omega))

/-- C22, the failing input evaluated.  The name table holds the single name
`Foo`.  For a path with an extension the base name is looked up through
`find_name_2ptr`, which ignores case: `foo.upk` and `game\foo.upk` give index
0.  For a path without `.` the remainder is looked up through `find_name`, which
compares with `strcmp`: `Foo` gives index 0, but `foo` and `game\foo`, whose base
name equals `Foo` ignoring case, give `INVALID_NAME`. -/
theorem name_from_filename_without_extension :
    (str "foo").map toupper = (c_str (foo_session.name_table.getD 0 [])).map toupper ∧
    name_from_filename foo_session (str "foo") 3 = INVALID_NAME ∧
    name_from_filename foo_session (str "game\\foo") 8 = INVALID_NAME ∧
    name_from_filename foo_session (str "Foo") 3 = 0 ∧
    name_from_filename foo_session (str "foo.upk") 7 = 0 ∧
    name_from_filename foo_session (str "game\\foo.upk") 12 = 0 := by
  decide!
/-! ### The base name of a path -/

theorem name_from_filename_loop_spec (filename : List Nat) :
    ∀ (n : Nat) (e : Option Nat),
      BaseStart filename n (name_from_filename_loop filename n e).1 ∧
      (∀ x, e = some x → (name_from_filename_loop filename n e).2 = some x) ∧
      (e = none →
        LastDot filename n (name_from_filename_loop filename n e).1
          (name_from_filename_loop filename n e).2) := by
  intro n
  induction n with
  | zero =>
    intro e
    refine ⟨⟨Or.inl rfl, fun i _ h => by omega⟩, fun x h => h, fun h => ?_⟩
    subst h
    intro i _ h
    omega
  | succ n ih =>
    intro e
    rw [name_from_filename_loop]
    by_cases hsep : is_separator filename n = true
    · have hsep2 : (filename.getD n 0 == 92 || filename.getD n 0 == 47) = true := hsep
      have hnd : (filename.getD n 0 == 46) = false := by
        simp only [Bool.or_eq_true, beq_iff_eq] at hsep2
        rcases hsep2 with h | h <;> (rw [h]; rfl)
      rw [if_pos hsep2]
      simp only [hnd, Bool.false_and, Bool.false_eq_true, if_false]
      refine ⟨⟨Or.inr ⟨by omega, le_refl _, by simpa using hsep⟩, fun i h1 h2 => by omega⟩,
        fun x h => h, fun h => ?_⟩
      subst h
      intro i h1 h2
      omega
    · have hsep2 : ¬ (filename.getD n 0 == 92 || filename.getD n 0 == 47) = true := hsep
      have hsepf : is_separator filename n = false := by simpa using hsep
      rw [if_neg hsep2]
      obtain ⟨⟨hA1, hA2⟩, hB, hC⟩ := ih
        (if (filename.getD n 0 == 46 && e.isNone) = true then some n else e)
      generalize hr : name_from_filename_loop filename n
        (if (filename.getD n 0 == 46 && e.isNone) = true then some n else e) = r
        at hA1 hA2 hB hC
      have hle : r.1 ≤ n := by
        rcases hA1 with h | ⟨_, h, _⟩ <;> omega
      refine ⟨⟨?_, ?_⟩, ?_, ?_⟩
      · rcases hA1 with h | ⟨h1, h2, h3⟩
        · exact Or.inl h
        · exact Or.inr ⟨h1, by omega, h3⟩
      · intro i h1 h2
        by_cases hi : i = n
        · subst hi; exact hsepf
        · exact hA2 i h1 (by omega)
      · intro x hx
        subst hx
        exact hB x (by simp)
      · intro he
        subst he
        by_cases hdot : filename.getD n 0 = 46
        · have h2 : r.2 = some n := hB n (by rw [hdot]; rfl)
          rw [h2]
          exact ⟨hle, by omega, hdot, fun i h1 h2 => by omega⟩
        · have hnone : (if (filename.getD n 0 == 46 && (none : Option Nat).isNone) = true
              then some n else none) = none := by
            have hb : (filename.getD n 0 == 46) = false := beq_eq_false_iff_ne.2 hdot
            rw [hb]
            rfl
          have hL := hC hnone
          cases h2 : r.2 with
          | none =>
            rw [h2] at hL
            intro i h1 h3
            by_cases hi : i = n
            · subst hi; exact hdot
            · exact hL i h1 (by omega)
          | some j =>
            rw [h2] at hL
            obtain ⟨l1, l2, l3, l4⟩ := hL
            refine ⟨l1, by omega, l3, fun i h1 h3 => ?_⟩
            by_cases hi : i = n
            · subst hi; exact hdot
            · exact l4 i h1 (by omega)

/-- What `name_from_filename` computes.  With `start` the offset after the
last path separator and `dot` the last `.` after it: when there is such a `.`
the result is that of `find_name_2ptr` on the characters `[start, dot)`, the
first entry equal to them after `toupper`; when there is none the result is that
of `find_name` on the remainder, the first entry equal to it exactly. -/
theorem name_from_filename_eq (s : State) (filename : List Nat) (n : Nat) :
    ∃ start dot, BaseStart filename n start ∧ LastDot filename n start dot ∧
      name_from_filename s filename n =
        match dot with
        | none =>
          (first_match (fun i => strcmp_eq (filename.drop start) (s.name_table.getD i []))
            s.name_table_size 0).getD INVALID_NAME
        | some j =>
          (first_match (fun i => streql_2ptr (filename.drop start) (j - start)
            (s.name_table.getD i [])) s.name_table_size 0).getD INVALID_NAME := by
  obtain ⟨hA, _, hC⟩ := name_from_filename_loop_spec filename n none
  have hL := hC rfl
  refine ⟨_, _, hA, hL, ?_⟩
  unfold name_from_filename
  simp only []
  cases (name_from_filename_loop filename n none).2 with
  | none => exact find_name_loop_eq _ _ _ _
  | some j => exact find_name_2ptr_loop_eq _ _ _ _ _

/-! ### The game package table as a heap-allocated chain -/

theorem game_files_append (fresh : Nat → Guid) (s : State) (a b : List Visit) :
    game_files fresh s (a ++ b) = game_files fresh (game_files fresh s a) b := by
  simp [game_files, List.foldl_append]

mutual
theorem build_game_package_table_eq_walk (fresh : Nat → Guid) (directory : List Nat) :
    ∀ (entries : List DirEntry) (s : State),
      build_game_package_table fresh s directory entries =
        game_files fresh s (walk_files directory entries)
  | [], s => by simp [build_game_package_table, walk_files, game_files]
  | e :: rest, s => by
    rw [build_game_package_table, walk_files, game_files_append,
      build_game_package_table_entry_eq_walk fresh directory e s,
      build_game_package_table_eq_walk fresh directory rest]
theorem build_game_package_table_entry_eq_walk (fresh : Nat → Guid) (directory : List Nat) :
    ∀ (e : DirEntry) (s : State),
      build_game_package_table_entry fresh s directory e =
        game_files fresh s (walk_entry directory e)
  | .file cFileName contents, s => by
    simp [build_game_package_table_entry, walk_entry, game_files]
  | .dir cFileName entries, s => by
    rw [build_game_package_table_entry, walk_entry]
    split
    · exact build_game_package_table_eq_walk fresh _ entries s
    · simp [game_files]
end

/-- The nodes of files that cannot be opened or are too short keep what
`malloc` left in them: over stale memory, `a.upk` contributes its identifier,
while the three-byte `short.u` and the unopenable `gone.udk` contribute words
of the stale memory. -/
theorem build_against_list_stale_memory :
    (build_against_list
      (build_game_package_table stale_memory {} (str "game\\*") stale_tree)).map
        (fun t => t.against_list) =
      some [⟨0x11111111, 0x11111111, 0x11111111, 0x11111111⟩,
            ⟨0xFEEEFEEE, 0xFEEEFEEE, 0xFEEEFEEE, 0xFEEEFEEE⟩,
            ⟨0xFEEEFEEE, 0xFEEEFEEE, 0xFEEEFEEE, 0xFEEEFEEE⟩] := by
  decide!

/-- The load mode, evaluated: with `-against base.bin` the identifier of `a.upk`
is in the loaded baseline and entry 0 is left out. -/
theorem main_load_mode_sample :
    (main stale_memory
        { package_filename := some (str "sample.upk"), game_path := str "game",
          against_in := some (str "base.bin"), dependencies_out := true }
        scenario_fopen scenario_tree scenario_tree).map
      (fun t => (t.against_list, dependency_list_entries t)) =
    some ([⟨0x11111111, 0x11111111, 0x11111111, 0x11111111⟩], [1]) := by
  decide!

/-- The packaging step, evaluated.  For `-in sample.upk -package` the base
name `sample` is no entry of the name table, `name_from_filename` returns
`INVALID_NAME`, and `generate_package` reads `name_table[package_name]` without a
test: the run has no defined result.  For `-in Core.upk -package` the base
name is the entry `Core` and the run goes on. -/
theorem main_package_invalid_name :
    main stale_memory
        { package_filename := some (str "sample.upk"), game_path := str "game",
          build_package := true, against_out := true }
        scenario_fopen scenario_tree scenario_tree = none ∧
    (main stale_memory
        { package_filename := some (str "Core.upk"), game_path := str "game",
          build_package := true, against_out := true }
        scenario_fopen scenario_tree scenario_tree).map
      (fun t => (t.package_name, dependency_list_entries t)) = some (3, [0, 1]) := by
  decide!

end RxPackager
